import Mathlib

/-!
Verification of the expression-translation pipeline of the `astrotools`
browser calculator (`src/app/page.tsx`, `src/components/mathquill-field.tsx`).

Strings are modelled as `List Char` (named `Str` below).  Every definition in
the "source models" sections is a direct translation of the corresponding
JavaScript/TypeScript function; JavaScript `while` loops are rendered with an
explicit fuel argument (the fuel bounds the number of iterations; the chosen
top-level fuels are large enough for every concrete evaluation performed here,
and termination facts are proved where a claim is about them).
-/

namespace Astro

/-- Strings, modelled as lists of characters. -/
abbrev Str := List Char

/-- JavaScript `\w` word characters: `[A-Za-z0-9_]`. -/
def wordChar (c : Char) : Bool := c.isAlpha || c.isDigit || c = '_'

/-- JavaScript `\s` whitespace (the characters relevant to this code base:
ASCII whitespace plus NBSP). -/
def jsWhitespace (c : Char) : Bool :=
  c = ' ' || c = '\t' || c = '\n' || c = '\r' ||
  c = '\x0b' || c = '\x0c' || c = ' '

/-- Left brace character (written by code so string literals stay brace-free). -/
def lbrace : Char := '\x7b'

/-- Right brace character. -/
def rbrace : Char := '\x7d'

/-! ### Generic substring machinery -/

/-- `p` occurs as a prefix of some suffix of `s` (substring occurrence test). -/
def hasSub (p : Str) (s : Str) : Bool :=
  match s with
  | [] => decide (p = [])
  | _ :: t => p.isPrefixOf s || hasSub p t

/-- Index of the first occurrence of `p` in `s` at position ≥ `i`
(the JavaScript `s.indexOf(p, i)`; `none` for `-1`).  For the uses in this
file `p` is always nonempty. -/
def indexOfFrom (p : Str) (s : Str) (i : Nat) : Option Nat :=
  indexOfAux p (s.drop i) i
where
  /-- scan helper: first occurrence of `p` in the remaining suffix. -/
  indexOfAux (p : Str) (rest : Str) (pos : Nat) : Option Nat :=
    match rest with
    | [] => if p = [] then some pos else none
    | _ :: t => if p.isPrefixOf rest then some pos else indexOfAux p t (pos + 1)

theorem hasSub_nil (p : Str) : hasSub p [] = decide (p = []) := rfl

theorem hasSub_cons (p : Str) (c : Char) (t : Str) :
    hasSub p (c :: t) = (p.isPrefixOf (c :: t) || hasSub p t) := rfl

/-- If `p` starts with a character that never occurs in `s`, `p` does not
occur in `s`. -/
theorem hasSub_eq_false_of_head_not_mem (c : Char) (p : Str) (s : Str)
    (h : c ∉ s) : hasSub (c :: p) s = false := by
  induction s with
  | nil => rfl
  | cons a t ih =>
    have hat : c ∉ t := fun hm => h (List.mem_cons_of_mem a hm)
    have hac : a ≠ c := fun hac => h (by simp [hac])
    rw [hasSub_cons, ih hat, Bool.or_false]
    simp [List.isPrefixOf]
    intro hca
    exact absurd hca.symm hac

/-! ### C10 — the MathQuill `const` embed renderer
(`src/components/mathquill-field.tsx`). -/

/-- `CONST_ID_RE = /^[a-zA-Z_][a-zA-Z0-9_]*$/`, as a test on a string. -/
def constIdTest (s : Str) : Bool :=
  match s with
  | [] => false
  | c :: t => (c.isAlpha || c = '_') && t.all (fun d => d.isAlphanum || d = '_')

/-- The CSS class string interpolated into the pill markup (verbatim from the
source; it contains no payload-dependent data). -/
def pillClass : Str :=
  ("mq-const-embed inline-flex flex-wrap items-center justify-center " ++
   "rounded-full border border-white/10 bg-white/10 px-[3px] py-0 " ++
   "text-[18px] leading-[18px] font-medium text-foreground text-center " ++
   "align-middle select-none box-border min-h-5 min-w-5 " ++
   "shadow-[inset_0px_0px_4px_0px_rgba(0,0,0,0.23)] [border-image:none]").toList

/-- The result record of the registered embed function. -/
structure EmbedRender where
  htmlString : Str
  textOut : Str
  latexOut : Str
deriving DecidableEq, Repr

/-- The key selected by the renderer:
`typeof id === "string" && CONST_ID_RE.test(id) ? id : "const"`. -/
def constEmbedKey (id : Option Str) : Str :=
  match id with
  | some s => if constIdTest s then s else "const".toList
  | none => "const".toList

/-- The `MQ.registerEmbed("const", ...)` renderer (both registration sites in
`mathquill-field.tsx` install this same function). -/
def constEmbedRender (id : Option Str) : EmbedRender :=
  let key := constEmbedKey id
  { htmlString :=
      "<span class=\"".toList ++ pillClass ++ "\" data-const-id=\"".toList ++
        key ++ "\">".toList ++ key ++ "</span>".toList
    textOut := key
    latexOut := "\\embed".toList ++ [lbrace] ++ "const".toList ++ [rbrace] ++
      ['['] ++ key ++ [']'] }

/-- Characters of a key that passed `constIdTest` are identifier characters. -/
theorem constIdTest_chars (s : Str) (h : constIdTest s = true) :
    ∀ c ∈ s, c.isAlphanum = true ∨ c = '_' := by
  cases s with
  | nil => simp [constIdTest] at h
  | cons a t =>
    simp only [constIdTest, Bool.and_eq_true, Bool.or_eq_true, List.all_eq_true] at h
    intro c hc
    rcases List.mem_cons.mp hc with hc | hc
    · subst hc
      rcases h.1 with h1 | h1
      · exact Or.inl (by simp [Char.isAlphanum, h1])
      · exact Or.inr (by simpa using h1)
    · have := h.2 c hc
      simpa [Bool.or_eq_true] using this

/-- C10: the registered `const` embed renderer interpolates its payload into
the generated HTML only when the payload matches `^[a-zA-Z_][a-zA-Z0-9_]*$`;
any other payload (including a missing one) produces the same HTML as the
fixed literal `const`, and every character of the interpolated key is an
identifier character, so no markup-significant character of the payload ever
reaches `htmlString`. -/
theorem c10_const_embed_payload_guard (id : Option Str) :
    (∀ s, id = some s → constIdTest s = true →
        (constEmbedRender id).htmlString =
          "<span class=\"".toList ++ pillClass ++ "\" data-const-id=\"".toList ++
            s ++ "\">".toList ++ s ++ "</span>".toList) ∧
    ((id = none ∨ ∃ s, id = some s ∧ constIdTest s = false) →
        (constEmbedRender id).htmlString = (constEmbedRender none).htmlString) ∧
    (∀ c ∈ constEmbedKey id, c.isAlphanum = true ∨ c = '_') := by
  refine ⟨?_, ?_, ?_⟩
  · rintro s rfl hs
    simp [constEmbedRender, constEmbedKey, hs]
  · rintro (rfl | ⟨s, rfl, hs⟩)
    · rfl
    · simp [constEmbedRender, constEmbedKey, hs]
  · cases id with
    | none =>
      intro c hc
      have : constIdTest ("const".toList) = true := by decide
      exact constIdTest_chars _ this c hc
    | some s =>
      by_cases hs : constIdTest s = true
      · intro c hc
        rw [constEmbedKey] at hc
        simp only [hs, if_true] at hc
        exact constIdTest_chars s hs c hc
      · intro c hc
        rw [constEmbedKey] at hc
        simp only [Bool.not_eq_true] at hs
        simp only [hs, Bool.false_eq_true, if_false] at hc
        have : constIdTest ("const".toList) = true := by decide
        exact constIdTest_chars _ this c hc

/-- Witness for C10: the payload `"<x"` fails the identifier test and renders
exactly like a missing payload. -/
theorem c10_const_embed_payload_guard_witness :
    (constEmbedRender (some ['<', 'x'])).htmlString =
      (constEmbedRender none).htmlString :=
  (c10_const_embed_payload_guard (some ['<', 'x'])).2.1
    (Or.inr ⟨['<', 'x'], rfl, by decide⟩)

/-! ### C4 — balanced-group scanners (`parseBraceGroup`, `parseBracketGroup`
in `latexToExpression`, `src/app/page.tsx`). -/

/-- `s.slice(a, b)` (JavaScript). -/
def strSlice (s : Str) (a b : Nat) : Str := (s.drop a).take (b - a)

/-- Loop body of the balanced-group scanners: scan `rest = s.drop i`,
tracking the nesting `depth` of the `op`/`cl` delimiter type only; on the
step where the depth reaches zero return `s.slice(start+1, i)` and `i+1`. -/
def parseGroupAux (op cl : Char) (s : Str) (start : Nat) :
    Str → Nat → Int → Option (Str × Nat)
  | [], _, _ => none
  | ch :: t, i, depth =>
    let depth' := if ch = op then depth + 1 else if ch = cl then depth - 1 else depth
    if depth' = 0 then some (strSlice s (start + 1) i, i + 1)
    else parseGroupAux op cl s start t (i + 1) depth'

/-- Generic balanced-group scanner: both `parseBraceGroup` and
`parseBracketGroup` are instances of this function. -/
def parseGroup (op cl : Char) (s : Str) (start : Nat) : Option (Str × Nat) :=
  if s.get? start = some op then parseGroupAux op cl s start (s.drop start) start 0
  else none

/-- `parseBraceGroup` from `latexToExpression`. -/
def parseBraceGroup (s : Str) (start : Nat) : Option (Str × Nat) :=
  parseGroup lbrace rbrace s start

/-- `parseBracketGroup` from `latexToExpression`. -/
def parseBracketGroup (s : Str) (start : Nat) : Option (Str × Nat) :=
  parseGroup '[' ']' s start

/-- Declarative nesting depth of the delimiter pair over `s.slice(start, j+1)`:
the number of openers minus the number of closers, counting this delimiter
type only. -/
def groupBal (op cl : Char) (s : Str) (start j : Nat) : Int :=
  ((strSlice s start (j + 1)).count op : Int) - (strSlice s start (j + 1)).count cl

/-- Depth of the delimiter pair after processing `s.slice(start, i)` (the
characters strictly before index `i`). -/
def preBal (op cl : Char) (s : Str) (start i : Nat) : Int :=
  ((strSlice s start i).count op : Int) - (strSlice s start i).count cl

theorem groupBal_eq_preBal (op cl : Char) (s : Str) (start j : Nat) :
    groupBal op cl s start j = preBal op cl s start (j + 1) := rfl

theorem preBal_start (op cl : Char) (s : Str) (start : Nat) :
    preBal op cl s start start = 0 := by
  simp [preBal, strSlice]

theorem strSlice_succ_right (s : Str) (start i : Nat)
    (h1 : start ≤ i) (h2 : i < s.length) :
    strSlice s start (i + 1) = strSlice s start i ++ [s[i]] := by
  unfold strSlice
  have ha : i + 1 - start = (i - start) + 1 := by omega
  rw [ha, List.take_succ, List.getElem?_drop]
  have hb : start + (i - start) = i := by omega
  rw [hb, List.getElem?_eq_getElem h2]
  rfl

theorem preBal_succ (op cl : Char) (hne : op ≠ cl) (s : Str) (start i : Nat)
    (h1 : start ≤ i) (h2 : i < s.length) :
    preBal op cl s start (i + 1) =
      preBal op cl s start i +
        (if s[i] = op then 1 else if s[i] = cl then -1 else 0) := by
  unfold preBal
  rw [strSlice_succ_right s start i h1 h2, List.count_append, List.count_append]
  by_cases hop : s[i] = op
  · have hncl : ¬s[i] = cl := by rw [hop]; exact hne
    have ha : List.count op [s[i]] = 1 := by rw [hop]; simp
    have hb : List.count cl [s[i]] = 0 := by simp [List.count_cons, hncl]
    rw [ha, hb, if_pos hop]
    push_cast
    ring
  · by_cases hcl : s[i] = cl
    · have ha : List.count op [s[i]] = 0 := by simp [List.count_cons, hop]
      have hb : List.count cl [s[i]] = 1 := by rw [hcl]; simp
      rw [ha, hb, if_neg hop, if_pos hcl]
      push_cast
      ring
    · have ha : List.count op [s[i]] = 0 := by simp [List.count_cons, hop]
      have hb : List.count cl [s[i]] = 0 := by simp [List.count_cons, hcl]
      rw [ha, hb, if_neg hop, if_neg hcl]
      push_cast
      ring

/-- Loop-invariant characterization of the balanced-group scan: started at
position `i` with the accumulated depth of `s.slice(start, i)`, it returns
`(content, e)` exactly when `e - 1` is the first position at or after `i`
where the depth returns to zero; the character there is the closing
delimiter and `content` is `s.slice(start+1, e-1)`. -/
theorem parseGroupAux_iff (op cl : Char) (hne : op ≠ cl) (s : Str) (start : Nat) :
    ∀ (rest : Str) (i : Nat) (d : Int),
      rest = s.drop i → start ≤ i →
      d = preBal op cl s start i →
      ((i = start ∧ d = 0 ∧ s.get? start = some op) ∨ (start < i ∧ 1 ≤ d)) →
      ∀ content e,
        (parseGroupAux op cl s start rest i d = some (content, e) ↔
          ∃ j, i ≤ j ∧ j < s.length ∧ s.get? j = some cl ∧
            groupBal op cl s start j = 0 ∧
            (∀ j', i ≤ j' → j' < j → groupBal op cl s start j' ≠ 0) ∧
            content = strSlice s (start + 1) j ∧ e = j + 1) := by
  intro rest
  induction rest with
  | nil =>
    intro i d hrest _ _ _ content e
    have hlen : s.length ≤ i := by
      have h := hrest.symm
      rwa [List.drop_eq_nil_iff] at h
    constructor
    · intro h
      exact absurd h (by simp [parseGroupAux])
    · rintro ⟨j, hij, hjlen, -⟩
      omega
  | cons ch t ih =>
    intro i d hrest hstart hd hinv content e
    have hilt : i < s.length := by
      by_contra hge
      have h : s.drop i = [] := List.drop_eq_nil_iff.mpr (by omega)
      rw [← hrest] at h
      exact absurd h (by simp)
    have hcons : s.drop i = s[i] :: s.drop (i + 1) := List.drop_eq_getElem_cons hilt
    have hcc : ch :: t = s[i] :: s.drop (i + 1) := hrest.trans hcons
    have hch : ch = s[i] := by injection hcc
    have ht : t = s.drop (i + 1) := by injection hcc
    have hstep : preBal op cl s start (i + 1) =
        d + (if ch = op then 1 else if ch = cl then -1 else 0) := by
      rw [preBal_succ op cl hne s start i hstart hilt, ← hd, ← hch]
    have hgi : s.get? i = some ch := by
      rw [List.get?_eq_getElem?, List.getElem?_eq_getElem hilt, hch]
    rw [show parseGroupAux op cl s start (ch :: t) i d =
        (if (if ch = op then d + 1 else if ch = cl then d - 1 else d) = 0
         then some (strSlice s (start + 1) i, i + 1)
         else parseGroupAux op cl s start t (i + 1)
           (if ch = op then d + 1 else if ch = cl then d - 1 else d)) from rfl]
    set depth' : Int := if ch = op then d + 1 else if ch = cl then d - 1 else d
      with hdepth'
    have hdeq : depth' = preBal op cl s start (i + 1) := by
      rw [hstep, hdepth']
      by_cases h1 : ch = op
      · rw [if_pos h1, if_pos h1]
      · by_cases h2 : ch = cl
        · rw [if_neg h1, if_pos h2, if_neg h1, if_pos h2]; ring
        · rw [if_neg h1, if_neg h2, if_neg h1, if_neg h2]; ring
    have hbal_i : groupBal op cl s start i = depth' := by
      rw [groupBal_eq_preBal, hdeq]
    have hch_start : i = start → ch = op := by
      intro hieq
      rcases hinv with ⟨-, -, hopq⟩ | ⟨hlt, -⟩
      · have h1 : s.get? i = some op := by rw [hieq]; exact hopq
        have h2 := h1.symm.trans hgi
        injection h2 with h3
        exact h3.symm
      · omega
    by_cases hz : depth' = 0
    · -- the scan stops here, and s[i] must be the closing delimiter
      have hich : ch = cl := by
        rcases hinv with ⟨hieq, hd0, hopq⟩ | ⟨hlt, hge⟩
        · exfalso
          have hcho := hch_start hieq
          rw [hdepth', if_pos hcho, hd0] at hz
          norm_num at hz
        · by_cases h1 : ch = op
          · exfalso; rw [hdepth', if_pos h1] at hz; omega
          · by_cases h2 : ch = cl
            · exact h2
            · exfalso; rw [hdepth', if_neg h1, if_neg h2] at hz; omega
      rw [if_pos hz]
      constructor
      · intro h
        rw [Option.some.injEq, Prod.mk.injEq] at h
        refine ⟨i, le_refl i, hilt, ?_, ?_, ?_, h.1.symm, h.2.symm⟩
        · rw [hgi, hich]
        · rw [hbal_i, hz]
        · intro j' h1 h2; omega
      · rintro ⟨j, hij, hjlen, hjcl, hjz, hleast, hcnt, hee⟩
        have hji : j = i := by
          by_contra hnej
          have hlt : i < j := lt_of_le_of_ne hij (fun h => hnej h.symm)
          exact hleast i (le_refl i) hlt (by rw [hbal_i]; exact hz)
        subst hji
        rw [hcnt, hee]
    · rw [if_neg hz]
      have hinv' : start < i + 1 ∧ 1 ≤ depth' := by
        refine ⟨by omega, ?_⟩
        rcases hinv with ⟨hieq, hd0, hopq⟩ | ⟨hlt, hge⟩
        · have hcho := hch_start hieq
          rw [hdepth', if_pos hcho, hd0]
          norm_num
        · rw [hdepth']
          by_cases h1 : ch = op
          · rw [if_pos h1]; omega
          · by_cases h2 : ch = cl
            · rw [if_neg h1, if_pos h2]
              rw [hdepth', if_neg h1, if_pos h2] at hz
              omega
            · rw [if_neg h1, if_neg h2]
              rw [hdepth', if_neg h1, if_neg h2] at hz
              omega
      have hrec := ih (i + 1) depth' ht (by omega) hdeq (Or.inr hinv') content e
      rw [hrec]
      constructor
      · rintro ⟨j, hij, hjlen, hjcl, hjz, hleast, hcnt, hee⟩
        refine ⟨j, by omega, hjlen, hjcl, hjz, ?_, hcnt, hee⟩
        intro j' h1 h2
        rcases Nat.eq_or_lt_of_le h1 with h1e | h1l
        · rw [← h1e, hbal_i]; exact hz
        · exact hleast j' h1l h2
      · rintro ⟨j, hij, hjlen, hjcl, hjz, hleast, hcnt, hee⟩
        have hij1 : i + 1 ≤ j := by
          rcases Nat.eq_or_lt_of_le hij with he | hl
          · exfalso
            rw [he] at hbal_i
            rw [hbal_i] at hjz
            exact hz hjz
          · omega
        exact ⟨j, hij1, hjlen, hjcl, hjz,
          fun j' h1 h2 => hleast j' (by omega) h2, hcnt, hee⟩

/-- The scan returns the no-match signal exactly when the depth never
returns to zero before the string ends. -/
theorem parseGroupAux_none_iff (op cl : Char) (hne : op ≠ cl) (s : Str) (start : Nat) :
    ∀ (rest : Str) (i : Nat) (d : Int),
      rest = s.drop i → start ≤ i →
      d = preBal op cl s start i →
      ((i = start ∧ d = 0 ∧ s.get? start = some op) ∨ (start < i ∧ 1 ≤ d)) →
      (parseGroupAux op cl s start rest i d = none ↔
        ∀ j, i ≤ j → j < s.length → groupBal op cl s start j ≠ 0) := by
  intro rest
  induction rest with
  | nil =>
    intro i d hrest _ _ _
    have hlen : s.length ≤ i := by
      have h := hrest.symm
      rwa [List.drop_eq_nil_iff] at h
    simp only [parseGroupAux]
    constructor
    · intro _ j h1 h2; omega
    · intro _; trivial
  | cons ch t ih =>
    intro i d hrest hstart hd hinv
    have hilt : i < s.length := by
      by_contra hge
      have h : s.drop i = [] := List.drop_eq_nil_iff.mpr (by omega)
      rw [← hrest] at h
      exact absurd h (by simp)
    have hcons : s.drop i = s[i] :: s.drop (i + 1) := List.drop_eq_getElem_cons hilt
    have hcc : ch :: t = s[i] :: s.drop (i + 1) := hrest.trans hcons
    have hch : ch = s[i] := by injection hcc
    have ht : t = s.drop (i + 1) := by injection hcc
    have hstep : preBal op cl s start (i + 1) =
        d + (if ch = op then 1 else if ch = cl then -1 else 0) := by
      rw [preBal_succ op cl hne s start i hstart hilt, ← hd, ← hch]
    have hgi : s.get? i = some ch := by
      rw [List.get?_eq_getElem?, List.getElem?_eq_getElem hilt, hch]
    rw [show parseGroupAux op cl s start (ch :: t) i d =
        (if (if ch = op then d + 1 else if ch = cl then d - 1 else d) = 0
         then some (strSlice s (start + 1) i, i + 1)
         else parseGroupAux op cl s start t (i + 1)
           (if ch = op then d + 1 else if ch = cl then d - 1 else d)) from rfl]
    set depth' : Int := if ch = op then d + 1 else if ch = cl then d - 1 else d
      with hdepth'
    have hdeq : depth' = preBal op cl s start (i + 1) := by
      rw [hstep, hdepth']
      by_cases h1 : ch = op
      · rw [if_pos h1, if_pos h1]
      · by_cases h2 : ch = cl
        · rw [if_neg h1, if_pos h2, if_neg h1, if_pos h2]; ring
        · rw [if_neg h1, if_neg h2, if_neg h1, if_neg h2]; ring
    have hbal_i : groupBal op cl s start i = depth' := by
      rw [groupBal_eq_preBal, hdeq]
    have hch_start : i = start → ch = op := by
      intro hieq
      rcases hinv with ⟨-, -, hopq⟩ | ⟨hlt, -⟩
      · have h1 : s.get? i = some op := by rw [hieq]; exact hopq
        have h2 := h1.symm.trans hgi
        injection h2 with h3
        exact h3.symm
      · omega
    by_cases hz : depth' = 0
    · rw [if_pos hz]
      constructor
      · intro h; exact absurd h (by simp)
      · intro h
        exact absurd (hbal_i.trans hz) (h i (le_refl i) hilt)
    · rw [if_neg hz]
      have hinv' : start < i + 1 ∧ 1 ≤ depth' := by
        refine ⟨by omega, ?_⟩
        rcases hinv with ⟨hieq, hd0, hopq⟩ | ⟨hlt, hge⟩
        · have hcho := hch_start hieq
          rw [hdepth', if_pos hcho, hd0]
          norm_num
        · rw [hdepth']
          by_cases h1 : ch = op
          · rw [if_pos h1]; omega
          · by_cases h2 : ch = cl
            · rw [if_neg h1, if_pos h2]
              rw [hdepth', if_neg h1, if_pos h2] at hz
              omega
            · rw [if_neg h1, if_neg h2]
              rw [hdepth', if_neg h1, if_neg h2] at hz
              omega
      rw [ih (i + 1) depth' ht (by omega) hdeq (Or.inr hinv')]
      constructor
      · intro h j h1 h2
        rcases Nat.eq_or_lt_of_le h1 with h1e | h1l
        · rw [← h1e, hbal_i]
          exact hz
        · exact h j h1l h2
      · intro h j h1 h2
        exact h j (by omega) h2

/-- C4: given the opening delimiter at `start`, each balanced-group scanner
(`parseBraceGroup` for braces, `parseBracketGroup` for brackets) returns the
content strictly between the opener and the matching closer — the first
position where the nesting depth of that delimiter type returns to zero —
together with the index one past that closer; it returns the no-match signal
exactly when the depth never returns to zero before the string ends; and the
zero-length group yields the empty content. -/
theorem c4_balanced_group_scanners (s : Str) (start : Nat) :
    (s.get? start = some lbrace →
      ((∀ content e, parseBraceGroup s start = some (content, e) →
          start < e ∧ e ≤ s.length ∧ s.get? (e - 1) = some rbrace ∧
          content = strSlice s (start + 1) (e - 1) ∧
          groupBal lbrace rbrace s start (e - 1) = 0 ∧
          (∀ j, start ≤ j → j < e - 1 → groupBal lbrace rbrace s start j ≠ 0)) ∧
        (parseBraceGroup s start = none ↔
          ∀ j, start ≤ j → j < s.length → groupBal lbrace rbrace s start j ≠ 0))) ∧
    (s.get? start = some '[' →
      ((∀ content e, parseBracketGroup s start = some (content, e) →
          start < e ∧ e ≤ s.length ∧ s.get? (e - 1) = some ']' ∧
          content = strSlice s (start + 1) (e - 1) ∧
          groupBal '[' ']' s start (e - 1) = 0 ∧
          (∀ j, start ≤ j → j < e - 1 → groupBal '[' ']' s start j ≠ 0)) ∧
        (parseBracketGroup s start = none ↔
          ∀ j, start ≤ j → j < s.length → groupBal '[' ']' s start j ≠ 0))) ∧
    parseBraceGroup [lbrace, rbrace] 0 = some ([], 2) := by
  have main : ∀ (op cl : Char), op ≠ cl → s.get? start = some op →
      ((∀ content e, parseGroup op cl s start = some (content, e) →
          start < e ∧ e ≤ s.length ∧ s.get? (e - 1) = some cl ∧
          content = strSlice s (start + 1) (e - 1) ∧
          groupBal op cl s start (e - 1) = 0 ∧
          (∀ j, start ≤ j → j < e - 1 → groupBal op cl s start j ≠ 0)) ∧
        (parseGroup op cl s start = none ↔
          ∀ j, start ≤ j → j < s.length → groupBal op cl s start j ≠ 0)) := by
    intro op cl hne hop
    have hunfold : parseGroup op cl s start =
        parseGroupAux op cl s start (s.drop start) start 0 := by
      rw [parseGroup, if_pos hop]
    constructor
    · intro content e h
      rw [hunfold] at h
      have hiff := parseGroupAux_iff op cl hne s start (s.drop start) start 0 rfl
        (le_refl start) (preBal_start op cl s start).symm
        (Or.inl ⟨rfl, rfl, hop⟩) content e
      obtain ⟨j, hij, hjlen, hjcl, hjz, hleast, hcnt, hee⟩ := hiff.mp h
      subst hee
      refine ⟨by omega, by omega, ?_, ?_, ?_, ?_⟩
      · simpa using hjcl
      · simpa using hcnt
      · simpa using hjz
      · intro j' h1 h2
        exact hleast j' h1 (by omega)
    · rw [hunfold]
      exact parseGroupAux_none_iff op cl hne s start (s.drop start) start 0 rfl
        (le_refl start) (preBal_start op cl s start).symm (Or.inl ⟨rfl, rfl, hop⟩)
  refine ⟨fun h => main lbrace rbrace (by decide) h,
          fun h => main '[' ']' (by decide) h, by decide⟩

/-- Witness for C4: on the two-character group `"{}"` starting at 0, the
brace scanner returns empty content and end index 2, satisfying all the
listed properties. -/
theorem c4_balanced_group_scanners_witness :
    ([lbrace, rbrace].get? 0 = some lbrace) ∧
    (0 < 2 ∧ 2 ≤ ([lbrace, rbrace] : Str).length ∧
      ([lbrace, rbrace] : Str).get? 1 = some rbrace ∧
      ([] : Str) = strSlice [lbrace, rbrace] 1 1 ∧
      groupBal lbrace rbrace [lbrace, rbrace] 0 1 = 0 ∧
      (∀ j, 0 ≤ j → j < 1 → groupBal lbrace rbrace [lbrace, rbrace] 0 j ≠ 0)) :=
  ⟨by decide,
    ((c4_balanced_group_scanners [lbrace, rbrace] 0).1 (by decide)).1 [] 2 (by decide)⟩

/-! ### C1 / C9 — `evaluateLines` (`src/app/page.tsx`).

`evaluateLines` drives the external mathjs engine, so the engine and its JS
value domain are abstracted: `V` is the type of JS values, `σ` the remainder
of the mutable scope object (the `ln`/`log`/`int`/trig/`__const` bindings and
any assignments made by evaluated lines).  `evalExpr` returns the
post-mutation scope together with either a value or a thrown error; the
theorems below are proved for every such engine. -/

/-- One input line (`{ latex, text }`). -/
structure Line where
  latex : Str
  text : Str
deriving DecidableEq, Repr

/-- The mathjs scope object: the two last-answer spellings are explicit, the
rest is abstract. -/
structure MScope (σ V : Type) where
  ans : V
  Ans : V
  rest : σ
deriving DecidableEq, Repr

/-- The `raw` field of a per-line result: the pushed `""` blank or a value. -/
inductive Raw (V : Type) where
  | blank : Raw V
  | val : V → Raw V
deriving DecidableEq, Repr

/-- One entry of the array returned by `evaluateLines`. -/
structure LineResult (V : Type) where
  latex : Str
  raw : Raw V
deriving DecidableEq, Repr

/-- `{ latex: "", raw: "" }`. -/
def blankResult (V : Type) : LineResult V := ⟨[], Raw.blank⟩

/-- Abstract model of the mathjs engine and the JS value operations used by
`evaluateLines`: `evalExpr` is `math.evaluate` (returning the mutated scope
and a value or a thrown error), the predicates are the `typeof` tests, and
`normalizeNumber`/`render` are `normalizeNumber`/`resultToLatex` (both total
in the source: `resultToLatex` catches its own errors). -/
structure EvalModel (σ V : Type) where
  evalExpr : Str → MScope σ V → MScope σ V × Except Unit V
  isFunction : V → Bool
  isNumber : V → Bool
  isUndefined : V → Bool
  normalizeNumber : V → V
  render : V → Str
  zero : V

/-- `scope.ans = lastAns; scope.Ans = lastAns` — the rebinding performed
before each nonempty line is evaluated. -/
def scopeForEval (scope : MScope σ V) (lastAns : V) : MScope σ V :=
  { scope with ans := lastAns, Ans := lastAns }

/-- The body of the `for` loop of `evaluateLines` for one line: produces the
pushed result together with the scope and `lastAns` for the next iteration.
The `try`/`catch` is the `Except` match: a thrown error is caught and turns
into the blank result, leaving `lastAns` unchanged. -/
def evalOneLine (M : EvalModel σ V) (scope : MScope σ V) (lastAns : V)
    (line : Line) : LineResult V × MScope σ V × V :=
  if line.text = [] then (blankResult V, scope, lastAns)
  else
    match M.evalExpr line.text (scopeForEval scope lastAns) with
    | (scope2, Except.error _) => (blankResult V, scope2, lastAns)
    | (scope2, Except.ok res) =>
      if M.isFunction res then (blankResult V, scope2, lastAns)
      else
        let res1 := if M.isNumber res then M.normalizeNumber res else res
        let lastAns1 := if M.isUndefined res1 then lastAns else res1
        (⟨M.render res1, Raw.val res1⟩, scope2, lastAns1)

/-- The loop of `evaluateLines`, threading scope and `lastAns`. -/
def evaluateLinesGo (M : EvalModel σ V) :
    List Line → MScope σ V → V → List (LineResult V)
  | [], _, _ => []
  | l :: ls, scope, lastAns =>
    let step := evalOneLine M scope lastAns l
    step.1 :: evaluateLinesGo M ls step.2.1 step.2.2

/-- `evaluateLines(lines, angleUnit, constantsMap)`: the angle unit and the
constants mapping are part of the engine model (they only select scope
bindings inside `σ`); `lastAns` starts at `0`. -/
def evaluateLines (M : EvalModel σ V) (initRest : σ) (lines : List Line) :
    List (LineResult V) :=
  evaluateLinesGo M lines ⟨M.zero, M.zero, initRest⟩ M.zero

/-- `scope.__const`: throws `"Unknown constant"` when the key is absent from
the constants mapping, otherwise returns the mapped value. -/
def scopeConst (constantsMap : List (Str × Rat)) (name : Str) : Except Unit Rat :=
  match constantsMap.lookup name with
  | none => Except.error ()
  | some v => Except.ok v

theorem evaluateLinesGo_length (M : EvalModel σ V) (lines : List Line)
    (scope : MScope σ V) (lastAns : V) :
    (evaluateLinesGo M lines scope lastAns).length = lines.length := by
  induction lines generalizing scope lastAns with
  | nil => rfl
  | cons l ls ih => simp [evaluateLinesGo, ih]

/-- C1: `evaluateLines` produces exactly one result per input line; a line
whose evaluation throws any error — in particular the "Unknown constant"
error that `scope.__const` throws for a key absent from the mapping — is
caught at that line only and pushed as the blank result `{latex:"",raw:""}`,
after which the loop continues into the remaining lines with the last answer
unchanged; `evaluateLines` is a total function (it never throws). -/
theorem c1_evaluateLines_blank_on_error (σ V : Type) (M : EvalModel σ V)
    (initRest : σ) (lines : List Line) :
    ((evaluateLines M initRest lines).length = lines.length) ∧
    (∀ (scope : MScope σ V) (lastAns : V) (l : Line) (ls : List Line),
      l.text ≠ [] →
      (M.evalExpr l.text (scopeForEval scope lastAns)).2 = Except.error () →
      evaluateLinesGo M (l :: ls) scope lastAns =
        blankResult V ::
          evaluateLinesGo M ls (M.evalExpr l.text (scopeForEval scope lastAns)).1
            lastAns) ∧
    (∀ (constantsMap : List (Str × Rat)) (k : Str),
      constantsMap.lookup k = none → scopeConst constantsMap k = Except.error ()) := by
  refine ⟨evaluateLinesGo_length M lines _ _, ?_, ?_⟩
  · intro scope lastAns l ls hne herr
    show (evalOneLine M scope lastAns l).1 :: _ = _
    have hstep : evalOneLine M scope lastAns l =
        (blankResult V, (M.evalExpr l.text (scopeForEval scope lastAns)).1, lastAns) := by
      unfold evalOneLine
      rw [if_neg hne]
      rcases hev : M.evalExpr l.text (scopeForEval scope lastAns) with ⟨scope2, r⟩
      rcases r with e | res
      · rfl
      · rw [hev] at herr
        exact absurd herr (by simp)
    rw [hstep]
  · intro constantsMap k h
    rw [scopeConst, h]

/-- A concrete engine for the C1/C9 witnesses and the C9 counterexample:
values are integers, `99` plays the role of a function object, `-1` of
`undefined`; the expression `['a']` echoes the `ans` binding, `['e']` throws,
`['f']` returns the function value, and a list of digits returns its first
digit's value. -/
def demoModel : EvalModel Unit Int where
  evalExpr := fun e sc =>
    if e = ['a'] then (sc, Except.ok sc.ans)
    else if e = ['e'] then (sc, Except.error ())
    else if e = ['f'] then (sc, Except.ok 99)
    else
      match e with
      | c :: _ => (sc, Except.ok (c.toNat - 48))
      | [] => (sc, Except.error ())
  isFunction := fun v => v = 99
  isNumber := fun _ => true
  isUndefined := fun v => v = -1
  normalizeNumber := fun v => v
  render := fun _ => ['r']
  zero := 0

/-- Witness for C1: with the concrete engine, a three-line batch whose middle
line throws produces a blank middle result while the third line is still
evaluated (and still sees the first line's answer). -/
theorem c1_evaluateLines_blank_on_error_witness :
    evaluateLinesGo demoModel [⟨[], ['e']⟩, ⟨[], ['a']⟩] ⟨0, 0, ()⟩ 5 =
      blankResult Int ::
        evaluateLinesGo demoModel [⟨[], ['a']⟩]
          (demoModel.evalExpr ['e'] (scopeForEval ⟨0, 0, ()⟩ 5)).1 5 :=
  (c1_evaluateLines_blank_on_error Unit Int demoModel ()
    [⟨[], ['e']⟩, ⟨[], ['a']⟩]).2.1 ⟨0, 0, ()⟩ 5 ⟨[], ['e']⟩ [⟨[], ['a']⟩]
    (by decide) rfl

/-- The last-answer update rule as the (amended) claim states it: the answer
is replaced by the line's normalized result exactly when the line is
nonempty, its evaluation succeeds, and the result is neither a function value
nor undefined; otherwise it is left unchanged. -/
def lastAnsAfterSpec (M : EvalModel σ V) (scope : MScope σ V) (a : V)
    (l : Line) : V :=
  if l.text = [] then a
  else
    match (M.evalExpr l.text (scopeForEval scope a)).2 with
    | Except.error _ => a
    | Except.ok res =>
      if M.isFunction res then a
      else
        let res1 := if M.isNumber res then M.normalizeNumber res else res
        if M.isUndefined res1 then a else res1

/-- The scope carried to the next line: unchanged for an empty line, and the
engine's post-mutation scope otherwise (also when the line threw). -/
def scopeAfterSpec (M : EvalModel σ V) (scope : MScope σ V) (a : V)
    (l : Line) : MScope σ V :=
  if l.text = [] then scope
  else (M.evalExpr l.text (scopeForEval scope a)).1

/-- C9 (amended): before each nonempty line is evaluated the last-answer
variable is bound under both spellings `ans` and `Ans` to the threaded last
answer, which starts at zero and is updated per line exactly by
`lastAnsAfterSpec`: lines that are empty, throw, or produce an undefined or
function-valued result leave it unchanged, every other line replaces it with
the line's normalized result. -/
theorem c9_last_answer_threading (σ V : Type) (M : EvalModel σ V) :
    (∀ (scope : MScope σ V) (a : V),
      (scopeForEval scope a).ans = a ∧ (scopeForEval scope a).Ans = a) ∧
    (∀ (initRest : σ) (lines : List Line),
      evaluateLines M initRest lines =
        evaluateLinesGo M lines ⟨M.zero, M.zero, initRest⟩ M.zero) ∧
    (∀ (scope : MScope σ V) (a : V) (l : Line) (ls : List Line),
      evaluateLinesGo M (l :: ls) scope a =
        (evalOneLine M scope a l).1 ::
          evaluateLinesGo M ls (scopeAfterSpec M scope a l)
            (lastAnsAfterSpec M scope a l)) := by
  refine ⟨fun scope a => ⟨rfl, rfl⟩, fun initRest lines => rfl, ?_⟩
  intro scope a l ls
  have h1 : (evalOneLine M scope a l).2.1 = scopeAfterSpec M scope a l := by
    unfold evalOneLine scopeAfterSpec
    by_cases he : l.text = []
    · rw [if_pos he, if_pos he]
    · rw [if_neg he, if_neg he]
      rcases hev : M.evalExpr l.text (scopeForEval scope a) with ⟨scope2, r⟩
      rcases r with e | res
      · rfl
      · by_cases hf : M.isFunction res
        · simp [hf]
        · simp [hf]
  have h2 : (evalOneLine M scope a l).2.2 = lastAnsAfterSpec M scope a l := by
    unfold evalOneLine lastAnsAfterSpec
    by_cases he : l.text = []
    · rw [if_pos he, if_pos he]
    · rw [if_neg he, if_neg he]
      rcases hev : M.evalExpr l.text (scopeForEval scope a) with ⟨scope2, r⟩
      rcases r with e | res
      · rfl
      · by_cases hf : M.isFunction res
        · simp [hf]
        · simp [hf]
  show (evalOneLine M scope a l).1 ::
      evaluateLinesGo M ls (evalOneLine M scope a l).2.1 (evalOneLine M scope a l).2.2 = _
  rw [h1, h2]

/-- Witness for C9: the step characterization at a concrete engine, scope and
line (the hypotheses of the theorem are its universally quantified inputs,
instantiated here). -/
theorem c9_last_answer_threading_witness :
    evaluateLinesGo demoModel [⟨[], ['7']⟩, ⟨[], ['a']⟩] ⟨0, 0, ()⟩ 3 =
      (evalOneLine demoModel ⟨0, 0, ()⟩ 3 ⟨[], ['7']⟩).1 ::
        evaluateLinesGo demoModel [⟨[], ['a']⟩]
          (scopeAfterSpec demoModel ⟨0, 0, ()⟩ 3 ⟨[], ['7']⟩)
          (lastAnsAfterSpec demoModel ⟨0, 0, ()⟩ 3 ⟨[], ['7']⟩) :=
  (c9_last_answer_threading Unit Int demoModel).2.2 ⟨0, 0, ()⟩ 3 ⟨[], ['7']⟩
    [⟨[], ['a']⟩]

/-- Counterexample to C9 as stated: with the concrete engine, the middle line
evaluates successfully to the defined (non-undefined) value `99`, which the
engine classifies as a function object; the claim says the next line's `ans`
should then be that most recent defined result (`99`), but the code skips
function-valued results, and the third line — which echoes its `ans`
binding — observes `5` from the first line instead. -/
theorem c9_last_answer_counterexample :
    evaluateLines demoModel () [⟨[], ['5']⟩, ⟨[], ['f']⟩, ⟨[], ['a']⟩] =
      [⟨['r'], Raw.val 5⟩, blankResult Int, ⟨['r'], Raw.val 5⟩] ∧
    (demoModel.evalExpr ['f'] (scopeForEval ⟨5, 5, ()⟩ 5)).2 = Except.ok 99 ∧
    demoModel.isUndefined 99 = false ∧
    (99 : Int) ≠ 5 := by
  exact ⟨rfl, rfl, by decide, by decide⟩

/-! ### Structural rewriters — `replaceAllFrac` and `replaceAllSqrt`
(`latexToExpression`, `src/app/page.tsx`).  The JavaScript `while` loops
carry an explicit fuel; `replaceAllFrac`/`replaceAllSqrt` instantiate it with
a bound proved sufficient for the fraction loop in the C5 development. -/

/-- The trigger marker `"\frac"`. -/
def fracPat : Str := "\\frac".toList

/-- The trigger marker `"\sqrt"`. -/
def sqrtPat : Str := "\\sqrt".toList

/-- Scan helper for `skipWs`: walks the suffix `s.drop i`. -/
def skipWsAux : Str → Nat → Nat
  | [], i => i
  | c :: t, i => if jsWhitespace c then skipWsAux t (i + 1) else i

/-- `while (i < str.length && /\s/.test(str[i])) i++`. -/
def skipWs (s : Str) (i : Nat) : Nat := skipWsAux (s.drop i) i

/-- Scan helper for `scanLetters`: walks the suffix `s.drop j`. -/
def scanLettersAux : Str → Nat → Nat
  | [], j => j
  | c :: t, j => if c.isAlpha then scanLettersAux t (j + 1) else j

/-- `while (j < str.length && /[a-zA-Z]/.test(str[j])) j++`. -/
def scanLetters (s : Str) (j : Nat) : Nat := scanLettersAux (s.drop j) j

/-- `parseFracArg`: one fraction operand — after whitespace, a brace group, a
single backslash command token (backslash followed by at least one letter),
or exactly one character. -/
def parseFracArg (s : Str) (start : Nat) : Option (Str × Nat) :=
  let i := skipWs s start
  match s.get? i with
  | none => none
  | some ch =>
    if ch = lbrace then parseBraceGroup s i
    else if ch = '\\' then
      let j := scanLetters s (i + 1)
      if j = i + 1 then none else some (strSlice s i j, j)
    else some ([ch], i + 1)

/-- The canonical fraction replacement `((num)/(den))`. -/
def fracRepl (num den : Str) : Str :=
  "((".toList ++ num ++ ")/(".toList ++ den ++ "))".toList

/-- The `while (idx !== -1)` loop of `replaceAllFrac`: `oidx` is the current
`indexOf` result.  A failed operand parse re-searches from `idx + 1`; a
successful substitution re-searches from `idx` (the replacement point). -/
def replaceAllFracGo : Nat → Str → Option Nat → Str
  | 0, out, _ => out
  | _ + 1, out, none => out
  | fuel + 1, out, some idx =>
    match parseFracArg out (idx + 5) with
    | none => replaceAllFracGo fuel out (indexOfFrom fracPat out (idx + 1))
    | some (num, nend) =>
      match parseFracArg out nend with
      | none => replaceAllFracGo fuel out (indexOfFrom fracPat out (idx + 1))
      | some (den, dend) =>
        let out1 := out.take idx ++ fracRepl num den ++ out.drop dend
        replaceAllFracGo fuel out1 (indexOfFrom fracPat out1 idx)

/-- Fuel sufficient for the fraction loop (proved in the C5 section). -/
def fracFuel (s : Str) : Nat := 11 * s.length + 8

/-- `replaceAllFrac` from `latexToExpression`. -/
def replaceAllFrac (s : Str) : Str :=
  replaceAllFracGo (fracFuel s) s (indexOfFrom fracPat s 0)

/-- The `while (idx !== -1)` loop of `replaceAllSqrt`: an optional bracketed
index then a mandatory brace group; a successful substitution re-searches
from `idx + replacement.length` (one past the replacement). -/
def replaceAllSqrtGo : Nat → Str → Option Nat → Str
  | 0, out, _ => out
  | _ + 1, out, none => out
  | fuel + 1, out, some idx =>
    let pos := idx + 5
    if out.get? pos = some '[' then
      match parseBracketGroup out pos with
      | none => replaceAllSqrtGo fuel out (indexOfFrom sqrtPat out (idx + 1))
      | some (root, rend) =>
        match parseBraceGroup out rend with
        | none => replaceAllSqrtGo fuel out (indexOfFrom sqrtPat out (idx + 1))
        | some (inner, iend) =>
          let repl := "((".toList ++ inner ++ ")^(1/(".toList ++ root ++ ")))".toList
          let out1 := out.take idx ++ repl ++ out.drop iend
          replaceAllSqrtGo fuel out1 (indexOfFrom sqrtPat out1 (idx + repl.length))
    else
      match parseBraceGroup out pos with
      | none => replaceAllSqrtGo fuel out (indexOfFrom sqrtPat out (idx + 1))
      | some (inner, iend) =>
        let repl := "sqrt(".toList ++ inner ++ ")".toList
        let out1 := out.take idx ++ repl ++ out.drop iend
        replaceAllSqrtGo fuel out1 (indexOfFrom sqrtPat out1 (idx + repl.length))

/-- `replaceAllSqrt` from `latexToExpression`. -/
def replaceAllSqrt (s : Str) : Str :=
  replaceAllSqrtGo (fracFuel s) s (indexOfFrom sqrtPat s 0)

/-- One successful fraction substitution: the span from the marker through
the second operand is replaced by `((num)/(den))` and the loop re-searches
from `idx` — the replacement point — so nested markers inside the operands
are seen again. -/
theorem replaceAllFracGo_success_step (fuel : Nat) (out : Str) (idx : Nat)
    (num den : Str) (nend dend : Nat)
    (h1 : parseFracArg out (idx + 5) = some (num, nend))
    (h2 : parseFracArg out nend = some (den, dend)) :
    replaceAllFracGo (fuel + 1) out (some idx) =
      replaceAllFracGo fuel (out.take idx ++ fracRepl num den ++ out.drop dend)
        (indexOfFrom fracPat (out.take idx ++ fracRepl num den ++ out.drop dend)
          idx) := by
  rw [replaceAllFracGo, h1]
  dsimp only
  rw [h2]

/-- A failed numerator parse skips the occurrence: the string is unchanged
and the loop re-searches from `idx + 1`. -/
theorem replaceAllFracGo_numFail_step (fuel : Nat) (out : Str) (idx : Nat)
    (h1 : parseFracArg out (idx + 5) = none) :
    replaceAllFracGo (fuel + 1) out (some idx) =
      replaceAllFracGo fuel out (indexOfFrom fracPat out (idx + 1)) := by
  rw [replaceAllFracGo, h1]

/-- A failed denominator parse skips the occurrence likewise. -/
theorem replaceAllFracGo_denFail_step (fuel : Nat) (out : Str) (idx : Nat)
    (num : Str) (nend : Nat)
    (h1 : parseFracArg out (idx + 5) = some (num, nend))
    (h2 : parseFracArg out nend = none) :
    replaceAllFracGo (fuel + 1) out (some idx) =
      replaceAllFracGo fuel out (indexOfFrom fracPat out (idx + 1)) := by
  rw [replaceAllFracGo, h1]
  dsimp only
  rw [h2]

/-- One successful plain-root substitution: `\sqrt{inner}` becomes
`sqrt(inner)` and the loop re-searches from `idx + replacement.length` —
one past the replacement, so markers inside `inner` are never revisited. -/
theorem replaceAllSqrtGo_plain_success_step (fuel : Nat) (out : Str) (idx : Nat)
    (inner : Str) (iend : Nat)
    (hnb : ¬out.get? (idx + 5) = some '[')
    (h1 : parseBraceGroup out (idx + 5) = some (inner, iend)) :
    replaceAllSqrtGo (fuel + 1) out (some idx) =
      replaceAllSqrtGo fuel
        (out.take idx ++ ("sqrt(".toList ++ inner ++ ")".toList) ++ out.drop iend)
        (indexOfFrom sqrtPat
          (out.take idx ++ ("sqrt(".toList ++ inner ++ ")".toList) ++ out.drop iend)
          (idx + ("sqrt(".toList ++ inner ++ ")".toList).length)) := by
  rw [replaceAllSqrtGo]
  simp only [if_neg hnb, h1]

/-- The indexed-root substitution re-searches from one past the replacement
as well. -/
theorem replaceAllSqrtGo_root_success_step (fuel : Nat) (out : Str) (idx : Nat)
    (root inner : Str) (rend iend : Nat)
    (hb : out.get? (idx + 5) = some '[')
    (h1 : parseBracketGroup out (idx + 5) = some (root, rend))
    (h2 : parseBraceGroup out rend = some (inner, iend)) :
    replaceAllSqrtGo (fuel + 1) out (some idx) =
      replaceAllSqrtGo fuel
        (out.take idx ++
          ("((".toList ++ inner ++ ")^(1/(".toList ++ root ++ ")))".toList) ++
          out.drop iend)
        (indexOfFrom sqrtPat
          (out.take idx ++
            ("((".toList ++ inner ++ ")^(1/(".toList ++ root ++ ")))".toList) ++
            out.drop iend)
          (idx +
            ("((".toList ++ inner ++ ")^(1/(".toList ++ root ++ ")))".toList).length)) := by
  rw [replaceAllSqrtGo]
  simp only [if_pos hb, h1, h2]

/-- The nested-root input `\sqrt{\sqrt{4}}`. -/
def nestedSqrtInput : Str :=
  sqrtPat ++ [lbrace] ++ sqrtPat ++ [lbrace, '4', rbrace, rbrace]

/-- The nested-fraction input `\frac{\frac{1}{2}}{3}`. -/
def nestedFracInput : Str :=
  fracPat ++ [lbrace] ++ fracPat ++
    [lbrace, '1', rbrace, lbrace, '2', rbrace, rbrace, lbrace, '3', rbrace]

/-- Counterexample to C2 as stated: on `\sqrt{\sqrt{4}}` the root rewriter
substitutes the outer root and resumes scanning after the replacement, so
the inner `\sqrt` trigger marker survives in the output. -/
theorem c2_nested_sqrt_counterexample :
    replaceAllSqrt nestedSqrtInput =
      "sqrt(".toList ++ sqrtPat ++ [lbrace, '4', rbrace, ')'] ∧
    hasSub sqrtPat (replaceAllSqrt nestedSqrtInput) = true := by
  exact ⟨by decide, by decide⟩

/-- C2 (amended): `replaceAllFrac` re-scans from the replacement point, so a
`\frac` nested inside an operand of a substituted fraction is itself
expanded (on `\frac{\frac{1}{2}}{3}` no trigger marker survives); but
`replaceAllSqrt` re-scans from one past the replacement, so a `\sqrt` nested
inside the brace-group content of a substituted root survives unexpanded. -/
theorem c2_rescan_positions :
    (∀ (fuel : Nat) (out : Str) (idx : Nat) (num den : Str) (nend dend : Nat),
      parseFracArg out (idx + 5) = some (num, nend) →
      parseFracArg out nend = some (den, dend) →
      replaceAllFracGo (fuel + 1) out (some idx) =
        replaceAllFracGo fuel (out.take idx ++ fracRepl num den ++ out.drop dend)
          (indexOfFrom fracPat
            (out.take idx ++ fracRepl num den ++ out.drop dend) idx)) ∧
    (∀ (fuel : Nat) (out : Str) (idx : Nat) (inner : Str) (iend : Nat),
      ¬out.get? (idx + 5) = some '[' →
      parseBraceGroup out (idx + 5) = some (inner, iend) →
      replaceAllSqrtGo (fuel + 1) out (some idx) =
        replaceAllSqrtGo fuel
          (out.take idx ++ ("sqrt(".toList ++ inner ++ ")".toList) ++ out.drop iend)
          (indexOfFrom sqrtPat
            (out.take idx ++ ("sqrt(".toList ++ inner ++ ")".toList) ++ out.drop iend)
            (idx + ("sqrt(".toList ++ inner ++ ")".toList).length))) ∧
    replaceAllFrac nestedFracInput = "((((1)/(2)))/(3))".toList ∧
    hasSub fracPat (replaceAllFrac nestedFracInput) = false ∧
    hasSub sqrtPat (replaceAllSqrt nestedSqrtInput) = true := by
  refine ⟨replaceAllFracGo_success_step, replaceAllSqrtGo_plain_success_step,
    by decide, by decide, by decide⟩

/-- Witness for C2 (amended): the success-step characterizations applied at
the concrete first step of `\frac12` and `\sqrt{4}`. -/
theorem c2_rescan_positions_witness :
    replaceAllFracGo 8 "\\frac12".toList (some 0) =
      replaceAllFracGo 7 (fracRepl ['1'] ['2'])
        (indexOfFrom fracPat (fracRepl ['1'] ['2']) 0) ∧
    replaceAllSqrtGo 8 (sqrtPat ++ [lbrace, '4', rbrace]) (some 0) =
      replaceAllSqrtGo 7 ("sqrt(".toList ++ ['4'] ++ ")".toList)
        (indexOfFrom sqrtPat ("sqrt(".toList ++ ['4'] ++ ")".toList) 7) := by
  constructor
  · have h := (c2_rescan_positions).1 7 "\\frac12".toList 0 ['1'] ['2'] 6 7
      (by decide) (by decide)
    simpa using h
  · have h := (c2_rescan_positions).2.1 7 (sqrtPat ++ [lbrace, '4', rbrace]) 0 ['4'] 8
      (by decide) (by decide)
    simpa using h

/-- Counterexample to C3 as stated: the shorthand single-character operand is
not restricted to a bare digit or letter — on `\frac+1` the operands `+` and
`1` both parse and the occurrence is replaced by `((+)/(1))` instead of
being skipped. -/
theorem c3_frac_operand_counterexample :
    replaceAllFrac "\\frac+1".toList = "((+)/(1))".toList ∧
    ('+'.isDigit || '+'.isAlpha) = false ∧
    hasSub fracPat (replaceAllFrac "\\frac+1".toList) = false := by
  exact ⟨by decide, by decide, by decide⟩

/-- C3 (amended): a fraction operand is — after skipping whitespace — the
content of a brace group, a single backslash-prefixed command token
(backslash plus at least one letter), or exactly one character of any kind
(not only a digit or letter); a parsed occurrence is replaced by the fully
parenthesized `((num)/(den))` with scanning resumed at the replacement
point, and an occurrence whose operands fail to parse is skipped with
scanning continuing past it.  The concrete runs cover each operand form and
the skip-and-continue behavior. -/
theorem c3_frac_replacement :
    (∀ (s : Str) (start : Nat) (c : Str) (e : Nat),
      parseFracArg s start = some (c, e) →
      (s.get? (skipWs s start) = some lbrace ∧
        parseBraceGroup s (skipWs s start) = some (c, e)) ∨
      (s.get? (skipWs s start) = some '\\' ∧
        e = scanLetters s (skipWs s start + 1) ∧ e ≠ skipWs s start + 1 ∧
        c = strSlice s (skipWs s start) e) ∨
      (∃ ch, s.get? (skipWs s start) = some ch ∧ ch ≠ lbrace ∧ ch ≠ '\\' ∧
        c = [ch] ∧ e = skipWs s start + 1)) ∧
    (∀ (s : Str) (start : Nat),
      parseFracArg s start = none →
      s.get? (skipWs s start) = none ∨
      (s.get? (skipWs s start) = some lbrace ∧
        parseBraceGroup s (skipWs s start) = none) ∨
      (s.get? (skipWs s start) = some '\\' ∧
        scanLetters s (skipWs s start + 1) = skipWs s start + 1)) ∧
    (∀ (fuel : Nat) (out : Str) (idx : Nat) (num den : Str) (nend dend : Nat),
      parseFracArg out (idx + 5) = some (num, nend) →
      parseFracArg out nend = some (den, dend) →
      replaceAllFracGo (fuel + 1) out (some idx) =
        replaceAllFracGo fuel (out.take idx ++ fracRepl num den ++ out.drop dend)
          (indexOfFrom fracPat
            (out.take idx ++ fracRepl num den ++ out.drop dend) idx)) ∧
    (∀ (fuel : Nat) (out : Str) (idx : Nat),
      parseFracArg out (idx + 5) = none →
      replaceAllFracGo (fuel + 1) out (some idx) =
        replaceAllFracGo fuel out (indexOfFrom fracPat out (idx + 1))) ∧
    (∀ (fuel : Nat) (out : Str) (idx : Nat) (num : Str) (nend : Nat),
      parseFracArg out (idx + 5) = some (num, nend) →
      parseFracArg out nend = none →
      replaceAllFracGo (fuel + 1) out (some idx) =
        replaceAllFracGo fuel out (indexOfFrom fracPat out (idx + 1))) ∧
    replaceAllFrac (fracPat ++ [lbrace, '1', '2', rbrace, lbrace, '3', '4', rbrace]) =
      "((12)/(34))".toList ∧
    replaceAllFrac (fracPat ++ "\\pi2".toList) = "((\\pi)/(2))".toList ∧
    replaceAllFrac (fracPat ++ ['1', '2']) = "((1)/(2))".toList ∧
    replaceAllFrac ("x".toList ++ fracPat ++ [lbrace, 'y'] ++ fracPat ++ ['1', '2']) =
      "x".toList ++ fracPat ++ [lbrace, 'y'] ++ "((1)/(2))".toList := by
  refine ⟨?_, ?_, replaceAllFracGo_success_step, replaceAllFracGo_numFail_step,
    replaceAllFracGo_denFail_step, by decide, by decide, by decide, by decide⟩
  · intro s start c e h
    rw [parseFracArg] at h
    rcases hg : s.get? (skipWs s start) with - | ch
    · rw [hg] at h
      exact absurd h (by simp)
    · rw [hg] at h
      dsimp only at h
      by_cases hb : ch = lbrace
      · rw [if_pos hb] at h
        subst hb
        exact Or.inl ⟨rfl, h⟩
      · rw [if_neg hb] at h
        by_cases hbs : ch = '\\'
        · rw [if_pos hbs] at h
          subst hbs
          by_cases hj : scanLetters s (skipWs s start + 1) = skipWs s start + 1
          · rw [if_pos hj] at h
            exact absurd h (by simp)
          · rw [if_neg hj] at h
            rw [Option.some.injEq, Prod.mk.injEq] at h
            exact Or.inr (Or.inl ⟨rfl, h.2.symm, h.2 ▸ hj, h.2 ▸ h.1.symm⟩)
        · rw [if_neg hbs] at h
          rw [Option.some.injEq, Prod.mk.injEq] at h
          exact Or.inr (Or.inr ⟨ch, rfl, hb, hbs, h.1.symm, h.2.symm⟩)
  · intro s start h
    rw [parseFracArg] at h
    rcases hg : s.get? (skipWs s start) with - | ch
    · exact Or.inl rfl
    · rw [hg] at h
      dsimp only at h
      by_cases hb : ch = lbrace
      · rw [if_pos hb] at h
        subst hb
        exact Or.inr (Or.inl ⟨rfl, h⟩)
      · rw [if_neg hb] at h
        by_cases hbs : ch = '\\'
        · rw [if_pos hbs] at h
          subst hbs
          by_cases hj : scanLetters s (skipWs s start + 1) = skipWs s start + 1
          · exact Or.inr (Or.inr ⟨rfl, hj⟩)
          · rw [if_neg hj] at h
            exact absurd h (by simp)
        · rw [if_neg hbs] at h
          exact absurd h (by simp)

/-- Witness for C3 (amended): the operand characterization and the success
step at the concrete input `\frac12`. -/
theorem c3_frac_replacement_witness :
    ((∃ ch, ("\\frac12".toList).get? (skipWs "\\frac12".toList 5) = some ch ∧
        ch ≠ lbrace ∧ ch ≠ '\\' ∧ ['1'] = [ch] ∧ 6 = skipWs "\\frac12".toList 5 + 1)) ∧
    replaceAllFracGo 8 "\\frac12".toList (some 0) =
      replaceAllFracGo 7 (fracRepl ['1'] ['2'])
        (indexOfFrom fracPat (fracRepl ['1'] ['2']) 0) := by
  constructor
  · have h := (c3_frac_replacement).1 "\\frac12".toList 5 ['1'] 6 (by decide)
    rcases h with ⟨hg, -⟩ | ⟨hg, -⟩ | h3
    · exact absurd hg (by decide)
    · exact absurd hg (by decide)
    · exact h3
  · have h := (c3_frac_replacement).2.2.1 7 "\\frac12".toList 0 ['1'] ['2'] 6 7
      (by decide) (by decide)
    simpa using h

/-! ### C6 / C5 — `insertImplicitFunctionCalls` (`src/app/page.tsx`).

The function builds the regular expression
`\b(fnAlt)(?!\()(arg)` (with the function names sorted longest-first) and
applies `String.replace(re, ...)` to a fixed point.  The specific regex is
hand-compiled to a deterministic scanner below, with JavaScript semantics:
the alternation tries alternatives in order and backtracks into later
(shorter) alternatives when the negative lookahead or the argument fails;
the argument alternatives (number, the constant literals, identifier) are
each maximal-munch and tried in order. -/

/-- `FUNCTION_NAMES` in source order. -/
def FUNCTION_NAMES : List Str :=
  ["__const", "asin", "acos", "atan", "asinh", "acosh", "atanh",
   "sinh", "cosh", "tanh", "sin", "cos", "tan", "sec", "csc", "cot",
   "sqrt", "sum", "prod", "int", "ln", "log", "log10", "log2", "exp",
   "abs", "floor", "ceil", "round", "mod", "gcd", "lcm",
   "factorial", "combinations", "permutations"].map String.toList

/-- Stable insertion by descending length, placing a new element before the
first strictly shorter one (so equal lengths keep their original order, as
JavaScript's stable `sort` with `(a, b) => b.length - a.length` does). -/
def insertByLen (x : Str) : List Str → List Str
  | [] => [x]
  | y :: t => if y.length ≤ x.length then x :: y :: t else y :: insertByLen x t

/-- `[...FUNCTION_NAMES].sort((a, b) => b.length - a.length)`. -/
def sortedFns : List Str := FUNCTION_NAMES.foldr insertByLen []

/-- Count of leading decimal digits. -/
def takeDigits : Str → Nat
  | [] => 0
  | c :: t => if c.isDigit then 1 + takeDigits t else 0

/-- Count of leading `\w` word characters. -/
def takeWord : Str → Nat
  | [] => 0
  | c :: t => if wordChar c then 1 + takeWord t else 0

/-- Length matched by the number alternative
`-?\d+(?:\.\d+)?(?:e[+-]?\d+)?` at the head of `l` (maximal munch; each
optional group participates only when it matches completely). -/
def matchNumber (l : Str) : Option Nat :=
  let neg : Nat := if l.head? = some '-' then 1 else 0
  let l1 := l.drop neg
  let d := takeDigits l1
  if d = 0 then none
  else
    let l2 := l1.drop d
    let frac : Nat :=
      if l2.head? = some '.' then
        (let d2 := takeDigits l2.tail; if d2 = 0 then 0 else 1 + d2)
      else 0
    let l3 := l2.drop frac
    let ex : Nat :=
      if l3.head? = some 'e' then
        (let t := l3.tail
         let sgn : Nat := if t.head? = some '+' || t.head? = some '-' then 1 else 0
         let d3 := takeDigits (t.drop sgn)
         if d3 = 0 then 0 else 1 + sgn + d3)
      else 0
    some (neg + d + frac + ex)

/-- The argument group
`(?:-?\d+(?:\.\d+)?(?:e[+-]?\d+)?|pi|e|tau|phi|i|[a-zA-Z_]\w*)`: returns the
consumed token and the rest. -/
def matchArg (l : Str) : Option (Str × Str) :=
  match matchNumber l with
  | some n => some (l.take n, l.drop n)
  | none =>
    if ("pi".toList).isPrefixOf l then some ("pi".toList, l.drop 2)
    else if ("e".toList).isPrefixOf l then some ("e".toList, l.drop 1)
    else if ("tau".toList).isPrefixOf l then some ("tau".toList, l.drop 3)
    else if ("phi".toList).isPrefixOf l then some ("phi".toList, l.drop 3)
    else if ("i".toList).isPrefixOf l then some ("i".toList, l.drop 1)
    else match l with
      | c :: t =>
        if c.isAlpha || c = '_' then
          let k := takeWord t
          some (c :: t.take k, t.drop k)
        else none
      | [] => none

/-- The alternation over function names (longest-first), with the negative
lookahead `(?!\()` and the argument group; on a lookahead or argument
failure the regex engine backtracks into the next (shorter) alternative. -/
def tryFn : List Str → Str → Option (Str × Str × Str)
  | [], _ => none
  | fn :: rest, l =>
    if fn.isPrefixOf l then
      let after := l.drop fn.length
      if after.head? = some '(' then tryFn rest l
      else
        match matchArg after with
        | some (a, r) => some (fn, a, r)
        | none => tryFn rest l
    else tryFn rest l

/-- A whole-regex match attempt at the current position: the `\b` word
boundary (every function name starts with a word character, so the boundary
holds iff the previous character is absent or a non-word character), then
the alternation. -/
def iifcMatch (prev : Option Char) (l : Str) : Option (Str × Str × Str) :=
  match prev with
  | none => tryFn sortedFns l
  | some c => if wordChar c then none else tryFn sortedFns l

/-- One global-replace pass (`out.replace(re, (_m, fn, a) => fn+"("+a+")")`):
scan left to right, replacing each non-overlapping match and resuming after
it. -/
def iifcPassGo : Nat → Option Char → Str → Str
  | 0, _, l => l
  | _ + 1, _, [] => []
  | fuel + 1, prev, c :: t =>
    match iifcMatch prev (c :: t) with
    | some (fn, a, r) => fn ++ '(' :: (a ++ ')' :: iifcPassGo fuel (some ')') r)
    | none => c :: iifcPassGo fuel (some c) t

/-- One pass over the whole string. -/
def iifcPass (s : Str) : Str := iifcPassGo s.length none s

/-- The `while (true) { ... if (next === out) break ... }` fixed-point loop. -/
def insertImplicitFunctionCallsGo : Nat → Str → Str
  | 0, out => out
  | fuel + 1, out =>
    let next := iifcPass out
    if next = out then out else insertImplicitFunctionCallsGo fuel next

/-- Potential of one suffix position: for every function name occurring as a
prefix here, 2 if the following character lets it still be matched some day,
1 if it is an opening parenthesis, 0 if it is a closing parenthesis. -/
def occPotAt (l : Str) : Nat :=
  (sortedFns.map (fun fn =>
    if fn.isPrefixOf l then
      match (l.drop fn.length).head? with
      | some '(' => 1
      | some ')' => 0
      | _ => 2
    else 0)).sum

/-- Total potential of a string: the pass-count bound used as fuel for the
fixed-point loop (each changing pass strictly decreases it; see the C5
development). -/
def phi : Str → Nat
  | [] => 0
  | c :: t => occPotAt (c :: t) + phi t

/-- `insertImplicitFunctionCalls` from `src/app/page.tsx`. -/
def insertImplicitFunctionCalls (s : Str) : Str :=
  insertImplicitFunctionCallsGo (phi s + 2) s

/-- A prefix of `x ++ y` either lies in `x` or is `x` extended by a
nonempty prefix of `y`. -/
theorem prefix_append_cases (p x y : Str) (h : p <+: x ++ y) :
    p <+: x ∨ ∃ q, q ≠ [] ∧ p = x ++ q ∧ q <+: y := by
  by_cases hl : p.length ≤ x.length
  · exact Or.inl (List.prefix_of_prefix_length_le h (List.prefix_append x y)
      (by simpa using hl))
  · right
    push_neg at hl
    obtain ⟨r, hr⟩ := h
    have htake : p.take x.length = x := by
      have h1 := congrArg (List.take x.length) hr
      rw [List.take_append_of_le_length (by omega : x.length ≤ p.length)] at h1
      rw [h1, List.take_left]
    refine ⟨p.drop x.length, ?_, ?_, ⟨r, ?_⟩⟩
    · rw [Ne, List.drop_eq_nil_iff]
      omega
    · conv_lhs => rw [← List.take_append_drop x.length p]
      rw [htake]
    · have h1 := congrArg (List.drop x.length) hr
      rw [List.drop_append_of_le_length (by omega : x.length ≤ p.length)] at h1
      rw [h1]
      simp
/-- Every function name is nonempty. -/
theorem sortedFns_ne_nil : ∀ fn ∈ sortedFns, fn ≠ [] := by decide

/-- Every character of every function name is a word character. -/
theorem sortedFns_wordChars : ∀ fn ∈ sortedFns, ∀ c ∈ fn, wordChar c = true := by decide

/-- Potential of the character following an occurrence: `1` when the
occurrence is already wrapped (followed by `(`), `0` when it is permanently
dead (followed by `)`), `2` otherwise. -/
def potHead (l : Str) : Nat :=
  match l.head? with
  | some '(' => 1
  | some ')' => 0
  | _ => 2

theorem potHead_cons (h : Char) (z : Str) :
    potHead (h :: z) = if h = '(' then 1 else if h = ')' then 0 else 2 := by
  by_cases h1 : h = '('
  · simp [potHead, h1]
  · by_cases h2 : h = ')'
    · simp [potHead, h1, h2]
    · simp only [if_neg h1, if_neg h2]
      unfold potHead
      split
      · rename_i heq
        simp only [List.head?_cons, Option.some.injEq] at heq
        exact absurd heq h1
      · rename_i heq
        simp only [List.head?_cons, Option.some.injEq] at heq
        exact absurd heq h2
      · rfl

theorem occPotAt_eq (l : Str) :
    occPotAt l = (sortedFns.map (fun fn =>
      if fn.isPrefixOf l then potHead (l.drop fn.length) else 0)).sum := rfl

/-- No function name occurrence starts at a non-word character. -/
theorem occPotAt_nonword_head (c : Char) (y : Str) (hc : wordChar c = false) :
    occPotAt (c :: y) = 0 := by
  rw [occPotAt_eq]
  have hz : ∀ fn ∈ sortedFns, (if fn.isPrefixOf (c :: y)
      then potHead ((c :: y).drop fn.length) else 0) = 0 := by
    intro fn hfn
    rw [if_neg]
    intro hpre
    have hpre' : fn <+: c :: y := List.isPrefixOf_iff_prefix.mp hpre
    rcases fn with - | ⟨f0, ft⟩
    · exact sortedFns_ne_nil [] hfn rfl
    · obtain ⟨r, hr⟩ := hpre'
      have : f0 = c := by
        have := congrArg List.head? hr
        simpa using this
      have hw := sortedFns_wordChars (f0 :: ft) hfn f0 (by simp)
      rw [this, hc] at hw
      exact absurd hw (by simp)
  calc (sortedFns.map (fun fn =>
      if fn.isPrefixOf (c :: y) then potHead ((c :: y).drop fn.length) else 0)).sum
      = (sortedFns.map (fun _ => (0 : Nat))).sum := by
        apply congrArg
        exact List.map_congr_left hz
    _ = 0 := by simp

/-- Swapping what follows a segment: if `u` is followed by the single
non-word character `c` whose potential is at most that of `y`'s head, the
position's potential cannot exceed the one with `y` following. -/
theorem occPotAt_swap_le (u : Str) (c : Char) (y : Str)
    (hcw : wordChar c = false) (hpot : potHead [c] ≤ potHead y) :
    occPotAt (u ++ [c]) ≤ occPotAt (u ++ y) := by
  rw [occPotAt_eq, occPotAt_eq]
  apply List.sum_le_sum
  intro fn hfn
  by_cases hpre : fn.isPrefixOf (u ++ [c])
  · have hpre' : fn <+: u ++ [c] := List.isPrefixOf_iff_prefix.mp hpre
    have hword := sortedFns_wordChars fn hfn
    have hlen : fn.length ≤ u.length := by
      by_contra hgt
      push_neg at hgt
      have hle : fn.length ≤ u.length + 1 := by simpa using hpre'.length_le
      have heq : fn.length = u.length + 1 := by omega
      have hfneq : fn = u ++ [c] := hpre'.eq_of_length (by simpa using heq)
      have hcin : c ∈ fn := by rw [hfneq]; simp
      rw [hword c hcin] at hcw
      exact absurd hcw (by simp)
    have hpu : fn <+: u := List.prefix_of_prefix_length_le hpre'
      (List.prefix_append u [c]) hlen
    have hpre2 : fn.isPrefixOf (u ++ y) :=
      List.isPrefixOf_iff_prefix.mpr (hpu.trans (List.prefix_append u y))
    rw [if_pos hpre, if_pos hpre2]
    rw [List.drop_append_of_le_length hlen, List.drop_append_of_le_length hlen]
    rcases Nat.lt_or_ge fn.length u.length with hlt | hge
    · have hne : u.drop fn.length ≠ [] := by
        rw [Ne, List.drop_eq_nil_iff]
        omega
      rcases hud : u.drop fn.length with - | ⟨d0, dt⟩
      · exact absurd hud hne
      · simp only [List.cons_append, potHead_cons]
        exact le_refl _
    · have : fn.length = u.length := by omega
      rw [this, List.drop_length]
      simpa using hpot
  · rw [if_neg hpre]
    exact Nat.zero_le _

/-- Sum comparison with one strict position. -/
theorem map_sum_succ_le_of_mem {f g : Str → Nat} :
    ∀ (l : List Str) (x : Str), x ∈ l → (∀ i ∈ l, f i ≤ g i) →
      f x + 1 ≤ g x → (l.map f).sum + 1 ≤ (l.map g).sum := by
  intro l
  induction l with
  | nil => intro x hx; exact absurd hx (by simp)
  | cons a t ih =>
    intro x hx hle hst
    rcases List.mem_cons.mp hx with hxa | hxt
    · subst hxa
      have ht : (t.map f).sum ≤ (t.map g).sum :=
        List.sum_le_sum (fun i hi => hle i (List.mem_cons_of_mem _ hi))
      simp only [List.map_cons, List.sum_cons]
      omega
    · have hh : f a ≤ g a := hle a (by simp)
      have ht := ih x hxt (fun i hi => hle i (List.mem_cons_of_mem _ hi)) hst
      simp only [List.map_cons, List.sum_cons]
      omega

/-- At the matched occurrence itself the swap is strict: wrapped-by-`(`
potential `1` against a live continuation of potential `2`. -/
theorem occPotAt_swap_strict (fn0 : Str) (hmem : fn0 ∈ sortedFns) (y : Str)
    (hpot : potHead y = 2) :
    occPotAt (fn0 ++ ['(']) + 1 ≤ occPotAt (fn0 ++ y) := by
  rw [occPotAt_eq, occPotAt_eq]
  apply map_sum_succ_le_of_mem sortedFns fn0 hmem
  · intro fn hfn
    by_cases hpre : fn.isPrefixOf (fn0 ++ ['('])
    · have hpre' : fn <+: fn0 ++ ['('] := List.isPrefixOf_iff_prefix.mp hpre
      have hword := sortedFns_wordChars fn hfn
      have hlen : fn.length ≤ fn0.length := by
        by_contra hgt
        push_neg at hgt
        have hle : fn.length ≤ fn0.length + 1 := by simpa using hpre'.length_le
        have heq : fn.length = fn0.length + 1 := by omega
        have hfneq : fn = fn0 ++ ['('] := hpre'.eq_of_length (by simpa using heq)
        have hcin : '(' ∈ fn := by rw [hfneq]; simp
        have := hword '(' hcin
        exact absurd this (by decide)
      have hpu : fn <+: fn0 := List.prefix_of_prefix_length_le hpre'
        (List.prefix_append fn0 ['(']) hlen
      have hpre2 : fn.isPrefixOf (fn0 ++ y) :=
        List.isPrefixOf_iff_prefix.mpr (hpu.trans (List.prefix_append fn0 y))
      rw [if_pos hpre, if_pos hpre2]
      rw [List.drop_append_of_le_length hlen, List.drop_append_of_le_length hlen]
      rcases Nat.lt_or_ge fn.length fn0.length with hlt | hge
      · rcases hud : fn0.drop fn.length with - | ⟨d0, dt⟩
        · rw [List.drop_eq_nil_iff] at hud
          omega
        · simp only [List.cons_append, potHead_cons]
          exact le_refl _
      · have h0 : fn.length = fn0.length := by omega
        rw [h0, List.drop_length]
        simp only [List.nil_append]
        have h1 : potHead (['('] : Str) = 1 := by decide
        rw [h1, hpot]
        omega
    · rw [if_neg hpre]
      exact Nat.zero_le _
  · have hp1 : fn0.isPrefixOf (fn0 ++ ['(']) :=
      List.isPrefixOf_iff_prefix.mpr (List.prefix_append fn0 ['('])
    have hp2 : fn0.isPrefixOf (fn0 ++ y) :=
      List.isPrefixOf_iff_prefix.mpr (List.prefix_append fn0 y)
    rw [if_pos hp1, if_pos hp2, List.drop_left, List.drop_left, hpot]
    have h1 : potHead (['('] : Str) = 1 := by decide
    rw [h1]

/-- A non-word character cuts the string for potential purposes: nothing
beyond it is visible from positions at or before it. -/
theorem occPotAt_append_cut (u : Str) (c : Char) (y : Str)
    (hcw : wordChar c = false) :
    occPotAt (u ++ c :: y) = occPotAt (u ++ [c]) := by
  rw [occPotAt_eq, occPotAt_eq]
  apply congrArg
  apply List.map_congr_left
  intro fn hfn
  have hword := sortedFns_wordChars fn hfn
  by_cases hpre : fn.isPrefixOf (u ++ [c])
  · have hpre' : fn <+: u ++ [c] := List.isPrefixOf_iff_prefix.mp hpre
    have hlen : fn.length ≤ u.length := by
      by_contra hgt
      push_neg at hgt
      have hle : fn.length ≤ u.length + 1 := by simpa using hpre'.length_le
      have heq : fn.length = u.length + 1 := by omega
      have hfneq : fn = u ++ [c] := hpre'.eq_of_length (by simpa using heq)
      have hcin : c ∈ fn := by rw [hfneq]; simp
      rw [hword c hcin] at hcw
      exact absurd hcw (by simp)
    have hpu : fn <+: u := List.prefix_of_prefix_length_le hpre'
      (List.prefix_append u [c]) hlen
    have hpre2 : fn.isPrefixOf (u ++ c :: y) :=
      List.isPrefixOf_iff_prefix.mpr (hpu.trans (List.prefix_append u (c :: y)))
    rw [if_pos hpre, if_pos hpre2]
    rw [List.drop_append_of_le_length hlen, List.drop_append_of_le_length hlen]
    rcases Nat.lt_or_ge fn.length u.length with hlt | hge
    · rcases hud : u.drop fn.length with - | ⟨d0, dt⟩
      · rw [List.drop_eq_nil_iff] at hud
        omega
      · simp only [List.cons_append, potHead_cons]
    · have h0 : fn.length = u.length := by omega
      rw [h0, List.drop_length]
      simp only [List.nil_append]
      rw [potHead_cons]
      by_cases h1 : c = '('
      · simp [potHead, h1]
      · by_cases h2 : c = ')'
        · simp [potHead, h1, h2]
        · rw [if_neg h1, if_neg h2]
          simp only [potHead, List.head?_cons]
          split
          · rename_i heq
            exact absurd (by simpa using heq) h1
          · rename_i heq
            exact absurd (by simpa using heq) h2
          · rfl
  · rw [if_neg hpre]
    by_cases hpre2 : fn.isPrefixOf (u ++ c :: y)
    · exfalso
      have hpre2' : fn <+: u ++ c :: y := List.isPrefixOf_iff_prefix.mp hpre2
      rcases prefix_append_cases fn u (c :: y) hpre2' with hfu | ⟨q, hq, hfq, hqp⟩
      · exact hpre (List.isPrefixOf_iff_prefix.mpr
          (hfu.trans (List.prefix_append u [c])))
      · rcases q with - | ⟨q0, qt⟩
        · exact hq rfl
        · have hq0 : q0 = c := by
            obtain ⟨r, hr⟩ := hqp
            have := congrArg List.head? hr
            simpa using this
          have hcin : c ∈ fn := by
            rw [hfq, hq0]
            simp
          rw [hword c hcin] at hcw
          exact absurd hcw (by simp)
    · rw [if_neg hpre2]

/-- Potential contributed by the positions of `x` when the string continues
with `y`. -/
def phiRel : Str → Str → Nat
  | [], _ => 0
  | c :: t, y => occPotAt ((c :: t) ++ y) + phiRel t y

theorem phi_append (x y : Str) : phi (x ++ y) = phiRel x y + phi y := by
  induction x with
  | nil => simp [phiRel]
  | cons c t ih =>
    show phi (c :: (t ++ y)) = _
    rw [phi, phiRel, ih]
    simp only [List.cons_append]
    omega

theorem phiRel_split (x1 x2 y : Str) :
    phiRel (x1 ++ x2) y = phiRel x1 (x2 ++ y) + phiRel x2 y := by
  induction x1 with
  | nil => simp [phiRel]
  | cons c t ih =>
    show occPotAt ((c :: (t ++ x2)) ++ y) + phiRel (t ++ x2) y = _
    rw [ih, phiRel]
    simp only [List.cons_append, List.append_assoc]
    omega

theorem phiRel_swap_le (x : Str) (c : Char) (y : Str)
    (hcw : wordChar c = false) (hpot : potHead [c] ≤ potHead y) :
    phiRel x [c] ≤ phiRel x y := by
  induction x with
  | nil => exact le_refl 0
  | cons a t ih =>
    rw [phiRel, phiRel]
    exact Nat.add_le_add (occPotAt_swap_le (a :: t) c y hcw hpot) ih

theorem phiRel_swap_strict (pre fn0 : Str) (hmem : fn0 ∈ sortedFns) (y : Str)
    (hpot : potHead y = 2) :
    phiRel (pre ++ fn0) ['('] + 1 ≤ phiRel (pre ++ fn0) y := by
  induction pre with
  | nil =>
    simp only [List.nil_append]
    cases fn0 with
    | nil => exact absurd rfl (sortedFns_ne_nil [] hmem)
    | cons f0 ft =>
      rw [phiRel, phiRel]
      have hh := occPotAt_swap_strict (f0 :: ft) hmem y hpot
      have ht := phiRel_swap_le ft '(' y (by decide) (by rw [hpot]; decide)
      omega
  | cons a t ih =>
    rw [List.cons_append, phiRel, phiRel]
    have h1 := occPotAt_swap_le ((a :: (t ++ fn0))) '(' y (by decide)
      (by rw [hpot]; decide)
    omega

theorem phiRel_cut (x : Str) (c : Char) (y : Str) (hcw : wordChar c = false) :
    phiRel x (c :: y) = phiRel x [c] := by
  induction x with
  | nil => rfl
  | cons a t ih =>
    rw [phiRel, phiRel, ih, occPotAt_append_cut (a :: t) c y hcw]

/-- A non-word character splits the total potential. -/
theorem phi_cut (x : Str) (c : Char) (y : Str) (hcw : wordChar c = false) :
    phi (x ++ c :: y) = phi (x ++ [c]) + phi y := by
  rw [phi_append, phi_append, phiRel_cut x c y hcw]
  have h1 : phi (c :: y) = occPotAt (c :: y) + phi y := rfl
  have h2 : phi ([c] : Str) = occPotAt [c] + phi ([] : Str) := rfl
  rw [h1, h2, occPotAt_nonword_head c y hcw, occPotAt_nonword_head c [] hcw]
  show phiRel x [c] + (0 + phi y) = phiRel x [c] + (0 + phi []) + phi y
  rw [phi]
  omega

theorem takeDigits_pos_head (l : Str) (h : takeDigits l ≠ 0) :
    ∃ h0 t, l = h0 :: t ∧ h0.isDigit = true := by
  cases l with
  | nil => exact absurd rfl h
  | cons c t =>
    refine ⟨c, t, rfl, ?_⟩
    by_contra hd
    rw [takeDigits, if_neg (by simpa using hd)] at h
    exact h rfl

theorem matchNumber_facts (l : Str) (n : Nat) (h : matchNumber l = some n) :
    1 ≤ n ∧ ∃ h0 t, l = h0 :: t ∧ (h0 = '-' ∨ h0.isDigit = true) := by
  rw [matchNumber] at h
  by_cases hneg : l.head? = some '-'
  · simp only [hneg, if_pos rfl, if_true] at h
    by_cases hd : takeDigits (l.drop 1) = 0
    · rw [if_pos hd] at h
      exact absurd h (by simp)
    · rw [if_neg hd] at h
      rw [Option.some.injEq] at h
      obtain ⟨h0, t, hl⟩ : ∃ h0 t, l = h0 :: t := by
        cases l with
        | nil => exact absurd hneg (by simp)
        | cons c t => exact ⟨c, t, rfl⟩
      have hc : h0 = '-' := by
        rw [hl] at hneg
        simpa using hneg
      exact ⟨by omega, h0, t, hl, Or.inl hc⟩
  · simp only [hneg, if_neg, if_false] at h
    by_cases hd : takeDigits (l.drop 0) = 0
    · rw [if_pos hd] at h
      exact absurd h (by simp)
    · rw [if_neg hd] at h
      rw [Option.some.injEq] at h
      obtain ⟨h0, t, hl, hdig⟩ := takeDigits_pos_head (l.drop 0) hd
      rw [List.drop_zero] at hl
      refine ⟨by omega, h0, t, hl, Or.inr hdig⟩

theorem matchArg_sound (l a r : Str) (h : matchArg l = some (a, r)) :
    a ++ r = l ∧ ∃ h0 t, a = h0 :: t ∧ h0 ≠ '(' ∧ h0 ≠ ')' := by
  rw [matchArg.eq_def] at h
  cases hmn : matchNumber l with
  | some n =>
    rw [hmn] at h
    dsimp only at h
    rw [Option.some.injEq, Prod.mk.injEq] at h
    obtain ⟨ha, hr⟩ := h
    obtain ⟨hn1, h0, t, hl, hcls⟩ := matchNumber_facts l n hmn
    subst ha; subst hr
    refine ⟨List.take_append_drop n l, h0, (l.take n).tail, ?_, ?_, ?_⟩
    · rw [hl]
      obtain ⟨m, hm⟩ : ∃ m, n = m + 1 := ⟨n - 1, by omega⟩
      rw [hm, List.take_succ_cons]
      rfl
    · rcases hcls with hc | hc
      · rw [hc]; decide
      · intro he; rw [he] at hc; exact absurd hc (by decide)
    · rcases hcls with hc | hc
      · rw [hc]; decide
      · intro he; rw [he] at hc; exact absurd hc (by decide)
  | none =>
    rw [hmn] at h
    dsimp only at h
    by_cases h1 : ("pi".toList).isPrefixOf l
    · rw [if_pos h1] at h
      rw [Option.some.injEq, Prod.mk.injEq] at h
      obtain ⟨ha, hr⟩ := h
      have hpre := List.isPrefixOf_iff_prefix.mp h1
      obtain ⟨rest, hrest⟩ := hpre
      subst ha; subst hr
      refine ⟨?_, 'p', ['i'], rfl, by decide, by decide⟩
      rw [← hrest]
      simp
    · rw [if_neg h1] at h
      by_cases h2 : ("e".toList).isPrefixOf l
      · rw [if_pos h2] at h
        rw [Option.some.injEq, Prod.mk.injEq] at h
        obtain ⟨ha, hr⟩ := h
        obtain ⟨rest, hrest⟩ := List.isPrefixOf_iff_prefix.mp h2
        subst ha; subst hr
        refine ⟨?_, 'e', [], rfl, by decide, by decide⟩
        rw [← hrest]
        simp
      · rw [if_neg h2] at h
        by_cases h3 : ("tau".toList).isPrefixOf l
        · rw [if_pos h3] at h
          rw [Option.some.injEq, Prod.mk.injEq] at h
          obtain ⟨ha, hr⟩ := h
          obtain ⟨rest, hrest⟩ := List.isPrefixOf_iff_prefix.mp h3
          subst ha; subst hr
          refine ⟨?_, 't', ['a', 'u'], rfl, by decide, by decide⟩
          rw [← hrest]
          simp
        · rw [if_neg h3] at h
          by_cases h4 : ("phi".toList).isPrefixOf l
          · rw [if_pos h4] at h
            rw [Option.some.injEq, Prod.mk.injEq] at h
            obtain ⟨ha, hr⟩ := h
            obtain ⟨rest, hrest⟩ := List.isPrefixOf_iff_prefix.mp h4
            subst ha; subst hr
            refine ⟨?_, 'p', ['h', 'i'], rfl, by decide, by decide⟩
            rw [← hrest]
            simp
          · rw [if_neg h4] at h
            by_cases h5 : ("i".toList).isPrefixOf l
            · rw [if_pos h5] at h
              rw [Option.some.injEq, Prod.mk.injEq] at h
              obtain ⟨ha, hr⟩ := h
              obtain ⟨rest, hrest⟩ := List.isPrefixOf_iff_prefix.mp h5
              subst ha; subst hr
              refine ⟨?_, 'i', [], rfl, by decide, by decide⟩
              rw [← hrest]
              simp
            · rw [if_neg h5] at h
              cases l with
              | nil => exact absurd h (by simp)
              | cons c t =>
                dsimp only at h
                by_cases hc : c.isAlpha || c = '_'
                · rw [if_pos hc] at h
                  rw [Option.some.injEq, Prod.mk.injEq] at h
                  obtain ⟨ha, hr⟩ := h
                  subst ha; subst hr
                  refine ⟨by simp, c, t.take (takeWord t), rfl, ?_, ?_⟩
                  · intro he
                    rw [he] at hc
                    exact absurd hc (by decide)
                  · intro he
                    rw [he] at hc
                    exact absurd hc (by decide)
                · rw [if_neg hc] at h
                  exact absurd h (by simp)

theorem tryFn_sound : ∀ (fns : List Str) (l fn a r : Str),
    tryFn fns l = some (fn, a, r) →
    fn ∈ fns ∧ fn.isPrefixOf l = true ∧
      matchArg (l.drop fn.length) = some (a, r) := by
  intro fns
  induction fns with
  | nil => intro l fn a r h; exact absurd h (by simp [tryFn])
  | cons f rest ih =>
    intro l fn a r h
    rw [tryFn] at h
    by_cases hp : f.isPrefixOf l
    · rw [if_pos hp] at h
      dsimp only at h
      by_cases hla : (l.drop f.length).head? = some '('
      · rw [if_pos hla] at h
        obtain ⟨h1, h2, h3⟩ := ih l fn a r h
        exact ⟨List.mem_cons_of_mem f h1, h2, h3⟩
      · rw [if_neg hla] at h
        cases hma : matchArg (l.drop f.length) with
        | some p =>
          rw [hma] at h
          rcases p with ⟨a', r'⟩
          dsimp only at h
          rw [Option.some.injEq, Prod.mk.injEq] at h
          obtain ⟨hf, h2⟩ := h
          rw [Prod.mk.injEq] at h2
          subst hf
          rw [hma]
          exact ⟨by simp, hp, by rw [h2.1, h2.2]⟩
        | none =>
          rw [hma] at h
          dsimp only at h
          obtain ⟨h1, h2, h3⟩ := ih l fn a r h
          exact ⟨List.mem_cons_of_mem f h1, h2, h3⟩
    · rw [if_neg hp] at h
      obtain ⟨h1, h2, h3⟩ := ih l fn a r h
      exact ⟨List.mem_cons_of_mem f h1, h2, h3⟩

/-- The facts about a whole-regex match used by the potential argument. -/
theorem iifcMatch_sound (prev : Option Char) (l fn a r : Str)
    (h : iifcMatch prev l = some (fn, a, r)) :
    fn ∈ sortedFns ∧ l = fn ++ (a ++ r) ∧ potHead (a ++ r) = 2 := by
  have htf : tryFn sortedFns l = some (fn, a, r) := by
    rw [iifcMatch.eq_def] at h
    cases prev with
    | none => exact h
    | some c =>
      dsimp only at h
      by_cases hw : wordChar c
      · rw [if_pos hw] at h; exact absurd h (by simp)
      · rw [if_neg hw] at h; exact h
  obtain ⟨hmem, hpre, hma⟩ := tryFn_sound sortedFns l fn a r htf
  obtain ⟨har, h0, t, ha, hn1, hn2⟩ := matchArg_sound (l.drop fn.length) a r hma
  refine ⟨hmem, ?_, ?_⟩
  · rw [har]
    have := List.isPrefixOf_iff_prefix.mp hpre
    obtain ⟨rest, hrest⟩ := this
    conv_lhs => rw [← hrest]
    congr 1
    have := congrArg (List.drop fn.length) hrest
    rwa [List.drop_left] at this
  · rw [ha, List.cons_append, potHead_cons, if_neg hn1, if_neg hn2]

/-- A pass either changes nothing or copies a prefix verbatim, wraps the
first match, and continues as a pass on the rest. -/
theorem iifcPassGo_decomp :
    ∀ (l : Str) (fuel : Nat) (prev : Option Char), l.length ≤ fuel →
    iifcPassGo fuel prev l = l ∨
    ∃ (pre fn a r : Str) (f' : Nat),
      l = pre ++ (fn ++ (a ++ r)) ∧ fn ∈ sortedFns ∧ potHead (a ++ r) = 2 ∧
      r.length ≤ f' ∧
      iifcPassGo fuel prev l =
        pre ++ (fn ++ '(' :: (a ++ ')' :: iifcPassGo f' (some ')') r)) := by
  intro l
  induction l with
  | nil =>
    intro fuel prev _
    cases fuel with
    | zero => exact Or.inl rfl
    | succ f => exact Or.inl rfl
  | cons c t ih =>
    intro fuel prev hlen
    cases fuel with
    | zero => simp at hlen
    | succ f =>
      rw [show iifcPassGo (f + 1) prev (c :: t) =
          (match iifcMatch prev (c :: t) with
           | some (fn, a, r) => fn ++ '(' :: (a ++ ')' :: iifcPassGo f (some ')') r)
           | none => c :: iifcPassGo f (some c) t) from rfl]
      cases hm : iifcMatch prev (c :: t) with
      | some p =>
        rcases p with ⟨fn, a, r⟩
        obtain ⟨hmem, hdec, hpot⟩ := iifcMatch_sound prev (c :: t) fn a r hm
        refine Or.inr ⟨[], fn, a, r, f, by simpa using hdec, hmem, hpot, ?_, by simp⟩
        have hfl : 1 ≤ fn.length := by
          rcases fn with - | ⟨f0, ft⟩
          · exact absurd rfl (sortedFns_ne_nil [] hmem)
          · simp
        have := congrArg List.length hdec
        simp only [List.length_cons, List.length_append] at this
        simp only [List.length_cons] at hlen
        omega
      | none =>
        rcases ih f (some c) (by simpa using Nat.le_of_succ_le_succ hlen) with hid | hdec
        · rw [hid]
          exact Or.inl rfl
        · obtain ⟨pre, fn, a, r, f', hl, hmem, hpot, hrf, hout⟩ := hdec
          refine Or.inr ⟨c :: pre, fn, a, r, f', by rw [List.cons_append, ← hl],
            hmem, hpot, hrf, ?_⟩
          rw [hout, List.cons_append]

/-- Each pass either leaves the string unchanged or strictly decreases the
total potential `phi`. -/
theorem iifcPassGo_phi :
    ∀ (n : Nat) (l : Str) (fuel : Nat) (prev : Option Char),
      l.length ≤ n → l.length ≤ fuel →
      (iifcPassGo fuel prev l = l ∨ phi (iifcPassGo fuel prev l) < phi l) := by
  intro n
  induction n with
  | zero =>
    intro l fuel prev hn _
    have : l = [] := by
      cases l with
      | nil => rfl
      | cons c t => simp at hn
    subst this
    cases fuel with
    | zero => exact Or.inl rfl
    | succ f => exact Or.inl rfl
  | succ n ih =>
    intro l fuel prev hn hfuel
    rcases iifcPassGo_decomp l fuel prev hfuel with hid | hdec
    · exact Or.inl hid
    · obtain ⟨pre, fn, a, r, f', hl, hmem, hpot, hrf, hout⟩ := hdec
      right
      have hfl : 1 ≤ fn.length := by
        rcases fn with - | ⟨f0, ft⟩
        · exact absurd rfl (sortedFns_ne_nil [] hmem)
        · simp
      have hrlen : r.length ≤ n := by
        have := congrArg List.length hl
        simp only [List.length_append] at this
        omega
      have hout' : iifcPassGo f' (some ')') r = r ∨
          phi (iifcPassGo f' (some ')') r) < phi r := ih r f' (some ')') hrlen hrf
      have hple : phi (iifcPassGo f' (some ')') r) ≤ phi r := by
        rcases hout' with he | hlt
        · rw [he]
        · omega
      set out' := iifcPassGo f' (some ')') r with hdefout
      rw [hout]
      have e1 : pre ++ (fn ++ '(' :: (a ++ ')' :: out')) =
          (pre ++ fn) ++ '(' :: (a ++ ')' :: out') := by
        simp [List.append_assoc]
      have e2 : l = (pre ++ fn) ++ (a ++ r) := by
        rw [hl]; simp [List.append_assoc]
      rw [e1, phi_cut (pre ++ fn) '(' (a ++ ')' :: out') (by decide),
        phi_cut a ')' out' (by decide)]
      rw [e2, phi_append (pre ++ fn) (a ++ r), phi_append a r]
      have h1 : phiRel (pre ++ fn) ['('] + 1 ≤ phiRel (pre ++ fn) (a ++ r) :=
        phiRel_swap_strict pre fn hmem (a ++ r) hpot
      have h2 : phiRel a [')'] ≤ phiRel a r :=
        phiRel_swap_le a ')' r (by decide) (by
          rw [show potHead ([')'] : Str) = 0 from rfl]
          exact Nat.zero_le _)
      have h3 : phi ((pre ++ fn) ++ ['(']) = phiRel (pre ++ fn) ['('] + phi (['('] : Str) :=
        phi_append (pre ++ fn) ['(']
      have h4 : phi (a ++ [')']) = phiRel a [')'] + phi (([')'] : Str)) :=
        phi_append a [')']
      have h5 : phi ((['('] : Str)) = 0 := by decide
      have h6 : phi (([')'] : Str)) = 0 := by decide
      omega

/-- Once the fuel exceeds the potential, the fixed-point loop really reaches
a fixed point of the pass. -/
theorem iifcLoopGo_fix : ∀ (fuel : Nat) (s : Str), phi s < fuel →
    iifcPass (insertImplicitFunctionCallsGo fuel s) =
      insertImplicitFunctionCallsGo fuel s := by
  intro fuel
  induction fuel with
  | zero => intro s h; omega
  | succ f ih =>
    intro s h
    rw [show insertImplicitFunctionCallsGo (f + 1) s =
        (if iifcPass s = s then s else insertImplicitFunctionCallsGo f (iifcPass s))
      from rfl]
    by_cases he : iifcPass s = s
    · rw [if_pos he]
      exact he
    · rw [if_neg he]
      apply ih
      rcases iifcPassGo_phi s.length s s.length none (le_refl _) (le_refl _) with hid | hlt
      · exact absurd hid he
      · have : phi (iifcPass s) < phi s := hlt
        omega

/-- The loop's result is independent of any fuel beyond the potential bound:
the fixed point is reached within `phi s + 1` passes. -/
theorem iifcLoopGo_stable : ∀ (f1 f2 : Nat) (s : Str),
    phi s < f1 → f1 ≤ f2 →
    insertImplicitFunctionCallsGo f1 s = insertImplicitFunctionCallsGo f2 s := by
  intro f1
  induction f1 with
  | zero => intro f2 s h _; omega
  | succ g ih =>
    intro f2 s h hle
    cases f2 with
    | zero => omega
    | succ h2 =>
      rw [show insertImplicitFunctionCallsGo (g + 1) s =
          (if iifcPass s = s then s else insertImplicitFunctionCallsGo g (iifcPass s))
        from rfl]
      rw [show insertImplicitFunctionCallsGo (h2 + 1) s =
          (if iifcPass s = s then s else insertImplicitFunctionCallsGo h2 (iifcPass s))
        from rfl]
      by_cases he : iifcPass s = s
      · rw [if_pos he, if_pos he]
      · rw [if_neg he, if_neg he]
        apply ih
        · rcases iifcPassGo_phi s.length s s.length none (le_refl _) (le_refl _) with
            hid | hlt
          · exact absurd hid he
          · have : phi (iifcPass s) < phi s := hlt
            omega
        · omega

/-- `phi` is linear in the length of the string. -/
theorem phi_le_length (s : Str) : phi s ≤ 70 * s.length := by
  induction s with
  | nil => simp [phi]
  | cons c t ih =>
    rw [phi]
    have hocc : occPotAt (c :: t) ≤ 70 := by
      rw [occPotAt_eq]
      have hb : ∀ x ∈ (sortedFns.map (fun fn =>
          if fn.isPrefixOf (c :: t) then potHead ((c :: t).drop fn.length) else 0)), x ≤ 2 := by
        intro x hx
        rw [List.mem_map] at hx
        obtain ⟨fn, -, hfx⟩ := hx
        rw [← hfx]
        by_cases hp : fn.isPrefixOf (c :: t)
        · rw [if_pos hp]
          rw [potHead]
          split
          · omega
          · omega
          · omega
        · rw [if_neg hp]; omega
      calc (sortedFns.map _).sum ≤ (sortedFns.map _).length * 2 :=
            List.sum_le_card_nsmul _ 2 hb
        _ ≤ 70 := by
            rw [List.length_map]
            rw [show sortedFns.length = 35 from by decide]
    simp only [List.length_cons]
    omega

/-- Some position of the string (with its true left context) admits a regex
match. -/
def iifcHasMatch : Option Char → Str → Bool
  | _, [] => false
  | prev, c :: t => (iifcMatch prev (c :: t)).isSome || iifcHasMatch (some c) t

/-- A pass never shortens the string. -/
theorem iifcPassGo_length :
    ∀ (n : Nat) (l : Str) (fuel : Nat) (prev : Option Char),
      l.length ≤ n → l.length ≤ fuel →
      l.length ≤ (iifcPassGo fuel prev l).length := by
  intro n
  induction n with
  | zero =>
    intro l fuel prev hn _
    have hl : l = [] := by
      cases l with
      | nil => rfl
      | cons c t => simp at hn
    subst hl
    cases fuel <;> simp
  | succ n ih =>
    intro l fuel prev hn hfuel
    rcases iifcPassGo_decomp l fuel prev hfuel with hid | hdec
    · rw [hid]
    · obtain ⟨pre, fn, a, r, f', hl, hmem, hpot, hrf, hout⟩ := hdec
      have hfl : 1 ≤ fn.length := by
        rcases fn with - | ⟨f0, ft⟩
        · exact absurd rfl (sortedFns_ne_nil [] hmem)
        · simp
      have hrlen : r.length ≤ n := by
        have := congrArg List.length hl
        simp only [List.length_append] at this
        omega
      have hr := ih r f' (some ')') hrlen hrf
      rw [hout]
      have h1 := congrArg List.length hl
      simp only [List.length_append] at h1
      simp only [List.length_append, List.length_cons]
      omega

/-- A pass that returns its input verbatim saw no match anywhere. -/
theorem iifcHasMatch_false_of_pass_id :
    ∀ (l : Str) (fuel : Nat) (prev : Option Char), l.length ≤ fuel →
      iifcPassGo fuel prev l = l → iifcHasMatch prev l = false := by
  intro l
  induction l with
  | nil => intro fuel prev _ _; rfl
  | cons c t ih =>
    intro fuel prev hfuel hid
    cases fuel with
    | zero => simp at hfuel
    | succ f =>
      rw [show iifcPassGo (f + 1) prev (c :: t) =
          (match iifcMatch prev (c :: t) with
           | some (fn, a, r) => fn ++ '(' :: (a ++ ')' :: iifcPassGo f (some ')') r)
           | none => c :: iifcPassGo f (some c) t) from rfl] at hid
      cases hm : iifcMatch prev (c :: t) with
      | some p =>
        exfalso
        rcases p with ⟨fn, a, r⟩
        rw [hm] at hid
        dsimp only at hid
        obtain ⟨hmem, hdec, hpot⟩ := iifcMatch_sound prev (c :: t) fn a r hm
        have hfl : 1 ≤ fn.length := by
          rcases fn with - | ⟨f0, ft⟩
          · exact absurd rfl (sortedFns_ne_nil [] hmem)
          · simp
        have hrlen := congrArg List.length hdec
        simp only [List.length_cons, List.length_append] at hrlen
        have hct : (c :: t).length = t.length + 1 := by simp
        have hrfuel : r.length ≤ f := by omega
        have hlen := iifcPassGo_length r.length r f (some ')') (le_refl _) hrfuel
        have := congrArg List.length hid
        simp only [List.length_append, List.length_cons] at this
        omega
      | none =>
        rw [hm] at hid
        dsimp only at hid
        have ht : iifcPassGo f (some c) t = t := by
          injection hid
        rw [iifcHasMatch, hm]
        simp only [Option.isSome_none, Bool.false_or]
        exact ih f (some c) (by simpa using Nat.le_of_succ_le_succ hfuel) ht

/-- If no position matches, a pass copies the string verbatim. -/
theorem iifcPass_id_of_noMatch :
    ∀ (l : Str) (fuel : Nat) (prev : Option Char),
      iifcHasMatch prev l = false → iifcPassGo fuel prev l = l := by
  intro l
  induction l with
  | nil => intro fuel prev _; cases fuel <;> rfl
  | cons c t ih =>
    intro fuel prev hnm
    cases fuel with
    | zero => rfl
    | succ f =>
      rw [iifcHasMatch, Bool.or_eq_false_iff] at hnm
      rw [show iifcPassGo (f + 1) prev (c :: t) =
          (match iifcMatch prev (c :: t) with
           | some (fn, a, r) => fn ++ '(' :: (a ++ ')' :: iifcPassGo f (some ')') r)
           | none => c :: iifcPassGo f (some c) t) from rfl]
      cases hm : iifcMatch prev (c :: t) with
      | some p =>
        rw [hm] at hnm
        exact absurd hnm.1 (by simp)
      | none =>
        rw [ih f (some c) hnm.2]

/-- The matched name of the alternation is itself never followed by `(`. -/
theorem tryFn_lookahead : ∀ (fns : List Str) (l fn a r : Str),
    tryFn fns l = some (fn, a, r) → (l.drop fn.length).head? ≠ some '(' := by
  intro fns
  induction fns with
  | nil => intro l fn a r h; exact absurd h (by simp [tryFn])
  | cons f rest ih =>
    intro l fn a r h
    rw [tryFn] at h
    by_cases hp : f.isPrefixOf l
    · rw [if_pos hp] at h
      dsimp only at h
      by_cases hla : (l.drop f.length).head? = some '('
      · rw [if_pos hla] at h
        exact ih l fn a r h
      · rw [if_neg hla] at h
        cases hma : matchArg (l.drop f.length) with
        | some p =>
          rw [hma] at h
          rcases p with ⟨a', r'⟩
          dsimp only at h
          rw [Option.some.injEq, Prod.mk.injEq] at h
          rw [← h.1]
          exact hla
        | none =>
          rw [hma] at h
          dsimp only at h
          exact ih l fn a r h
    · rw [if_neg hp] at h
      exact ih l fn a r h

/-- Counterexample to C6 as stated: `asinh` is a recognized name already
followed by `(`, yet `insertImplicitFunctionCalls` does not leave it
untouched — the alternation backtracks past the failed lookahead to the
shorter name `asin`, producing `asin(h)(2)`. -/
theorem c6_lookahead_counterexample :
    insertImplicitFunctionCalls "asinh(2)".toList = "asin(h)(2)".toList ∧
    "asinh".toList ∈ FUNCTION_NAMES ∧
    hasSub "asinh(".toList (insertImplicitFunctionCalls "asinh(2)".toList) = false := by
  exact ⟨by decide, by decide, by decide⟩

/-- C6 (amended): the loop reaches a genuine fixed point of the
global-replace pass within a bounded number of passes; a string is a fixed
point exactly when no position carries a recognized function name (tried
longest-name-first) at a word boundary, not followed by `(`, and followed by
an argument token; chained shorthand is fully expanded
(`sinsin1` → `sin(sin(1))`), and a single pass wraps the longest matching
name (`sinh3` → `sinh(3)`); but a name already followed by `(` is protected
only from matching itself — backtracking can match a shorter prefix name
(`asinh(2)` → `asin(h)(2)`, and across passes `sinh3` ends as
`sin(h)(3)`). -/
theorem c6_implicit_function_calls :
    (∀ s : Str, iifcPass (insertImplicitFunctionCalls s) =
        insertImplicitFunctionCalls s) ∧
    (∀ s : Str, iifcPass s = s ↔ iifcHasMatch none s = false) ∧
    (∀ (l fn a r : Str), tryFn sortedFns l = some (fn, a, r) →
        (l.drop fn.length).head? ≠ some '(') ∧
    insertImplicitFunctionCalls "sinsin1".toList = "sin(sin(1))".toList ∧
    iifcPass "sinh3".toList = "sinh(3)".toList ∧
    insertImplicitFunctionCalls "sinh3".toList = "sin(h)(3)".toList := by
  refine ⟨fun s => iifcLoopGo_fix (phi s + 2) s (by omega), fun s => ?_,
    tryFn_lookahead sortedFns, by decide, by decide, by decide⟩
  constructor
  · intro h
    exact iifcHasMatch_false_of_pass_id s s.length none (le_refl _) h
  · intro h
    exact iifcPass_id_of_noMatch s s.length none h

/-- Witness for C6 (amended): the lookahead characterization applied to the
concrete match of `sin` in `sin1`. -/
theorem c6_implicit_function_calls_witness :
    (("sin1".toList).drop ("sin".toList).length).head? ≠ some '(' :=
  (c6_implicit_function_calls).2.2.1 "sin1".toList "sin".toList ['1'] []
    (by decide)

/-! ### Occurrence counting (for the C5 termination development). -/

/-- Number of positions of `s` where `p` occurs (as a prefix of the suffix
starting there). -/
def countSub (p : Str) : Str → Nat
  | [] => 0
  | c :: t => (if p.isPrefixOf (c :: t) then 1 else 0) + countSub p t

/-- Occurrences never exceed positions. -/
theorem countSub_le_length (p s : Str) : countSub p s ≤ s.length := by
  induction s with
  | nil => exact le_refl 0
  | cons c t ih =>
    rw [countSub]
    simp only [List.length_cons]
    by_cases hp : p.isPrefixOf (c :: t)
    · rw [if_pos hp]; omega
    · rw [if_neg hp]; omega

/-- Superadditivity: occurrences wholly inside either part survive in the
concatenation. -/
theorem countSub_append_ge (p x y : Str) :
    countSub p x + countSub p y ≤ countSub p (x ++ y) := by
  induction x with
  | nil => simp [countSub]
  | cons c t ih =>
    rw [List.cons_append, countSub, countSub]
    have hterm : (if p.isPrefixOf (c :: t) then 1 else 0) ≤
        (if p.isPrefixOf (c :: (t ++ y)) then 1 else 0) := by
      by_cases hp : p.isPrefixOf (c :: t)
      · rw [if_pos hp]
        rw [if_pos]
        have h1 : p <+: (c :: t) ++ y :=
          (List.isPrefixOf_iff_prefix.mp hp).trans (List.prefix_append (c :: t) y)
        rw [List.cons_append] at h1
        exact List.isPrefixOf_iff_prefix.mpr h1
      · rw [if_neg hp]
        exact Nat.zero_le _
    omega

/-- If the second part starts with a character foreign to `p`, no occurrence
crosses the border. -/
theorem countSub_append_head (p x y : Str)
    (hy : ∀ h, y.head? = some h → h ∉ p) :
    countSub p (x ++ y) = countSub p x + countSub p y := by
  induction x with
  | nil => simp [countSub]
  | cons c t ih =>
    rw [List.cons_append, countSub, countSub, ih]
    have hterm : (if p.isPrefixOf (c :: (t ++ y)) then 1 else 0) =
        (if p.isPrefixOf (c :: t) then 1 else 0) := by
      by_cases hpre : p.isPrefixOf (c :: t)
      · rw [if_pos hpre]
        rw [if_pos]
        have h1 : p <+: (c :: t) ++ y :=
          (List.isPrefixOf_iff_prefix.mp hpre).trans (List.prefix_append (c :: t) y)
        rw [List.cons_append] at h1
        exact List.isPrefixOf_iff_prefix.mpr h1
      · rw [if_neg hpre]
        rw [if_neg]
        intro hpre2
        have hpre2' : p <+: (c :: t) ++ y := by
          rw [List.cons_append]
          exact List.isPrefixOf_iff_prefix.mp hpre2
        rcases prefix_append_cases p (c :: t) y hpre2' with h1 | ⟨q, hq, hpq, hqy⟩
        · exact hpre (List.isPrefixOf_iff_prefix.mpr h1)
        · rcases q with - | ⟨q0, qt⟩
          · exact hq rfl
          · have hq0 : y.head? = some q0 := by
              obtain ⟨rr, hrr⟩ := hqy
              rw [← hrr]
              rfl
            have hmem : q0 ∈ p := by
              rw [hpq]
              exact List.mem_append_right _ (by simp)
            exact hy q0 hq0 hmem
    omega

/-- If the first part ends with a character foreign to `p`, no occurrence
crosses the border either. -/
theorem countSub_append_last (p x y : Str)
    (hx : ∀ h, x.getLast? = some h → h ∉ p) :
    countSub p (x ++ y) = countSub p x + countSub p y := by
  induction x with
  | nil => simp [countSub]
  | cons c t ih =>
    have hlast : ∀ h, t.getLast? = some h → h ∉ p := by
      intro h hh
      apply hx h
      cases t with
      | nil => simp at hh
      | cons b l => rw [List.getLast?_cons_cons]; exact hh
    rw [List.cons_append, countSub, countSub, ih hlast]
    have hterm : (if p.isPrefixOf (c :: (t ++ y)) then 1 else 0) =
        (if p.isPrefixOf (c :: t) then 1 else 0) := by
      by_cases hpre : p.isPrefixOf (c :: t)
      · rw [if_pos hpre]
        rw [if_pos]
        have h1 : p <+: (c :: t) ++ y :=
          (List.isPrefixOf_iff_prefix.mp hpre).trans (List.prefix_append (c :: t) y)
        rw [List.cons_append] at h1
        exact List.isPrefixOf_iff_prefix.mpr h1
      · rw [if_neg hpre]
        rw [if_neg]
        intro hpre2
        have hpre2' : p <+: (c :: t) ++ y := by
          rw [List.cons_append]
          exact List.isPrefixOf_iff_prefix.mp hpre2
        rcases prefix_append_cases p (c :: t) y hpre2' with h1 | ⟨q, hq, hpq, -⟩
        · exact hpre (List.isPrefixOf_iff_prefix.mpr h1)
        · have hne : (c :: t) ≠ ([] : Str) := by simp
          apply hx ((c :: t).getLast hne) (List.getLast?_eq_getLast _ hne)
          rw [hpq]
          exact List.mem_append_left _ (List.getLast_mem hne)
    omega

/-- Soundness of the `indexOf` scan helper: a hit is at or after the start
position and the pattern is a prefix of the suffix there. -/
theorem indexOfAux_sound (p : Str) :
    ∀ (rest : Str) (pos j : Nat),
      indexOfFrom.indexOfAux p rest pos = some j →
      pos ≤ j ∧ p.isPrefixOf (rest.drop (j - pos)) := by
  intro rest
  induction rest with
  | nil =>
    intro pos j h
    rw [indexOfFrom.indexOfAux] at h
    by_cases hp : p = []
    · rw [if_pos hp] at h
      rw [Option.some.injEq] at h
      subst h
      subst hp
      exact ⟨le_refl _, by simp [List.isPrefixOf]⟩
    · rw [if_neg hp] at h
      exact absurd h (by simp)
  | cons c t ih =>
    intro pos j h
    rw [indexOfFrom.indexOfAux] at h
    by_cases hp : p.isPrefixOf (c :: t)
    · rw [if_pos hp] at h
      rw [Option.some.injEq] at h
      subst h
      simpa using hp
    · rw [if_neg hp] at h
      obtain ⟨h1, h2⟩ := ih (pos + 1) j h
      refine ⟨by omega, ?_⟩
      have he : (c :: t).drop (j - pos) = t.drop (j - (pos + 1)) := by
        have hj : j - pos = (j - (pos + 1)) + 1 := by omega
        rw [hj, List.drop_succ_cons]
      rw [he]
      exact h2

/-- Soundness of `indexOfFrom`. -/
theorem indexOfFrom_sound (p s : Str) (i j : Nat)
    (h : indexOfFrom p s i = some j) :
    i ≤ j ∧ p.isPrefixOf (s.drop j) := by
  obtain ⟨h1, h2⟩ := indexOfAux_sound p (s.drop i) i j h
  refine ⟨h1, ?_⟩
  rw [List.drop_drop] at h2
  have he : i + (j - i) = j := by omega
  rwa [he] at h2

/-- A nonempty pattern occurring as a prefix of `s.drop j` fits inside `s`. -/
theorem prefix_drop_length (p s : Str) (j : Nat) (hp : p ≠ [])
    (h : p.isPrefixOf (s.drop j)) : j + p.length ≤ s.length := by
  have h' := List.isPrefixOf_iff_prefix.mp h
  have hl : p.length ≤ (s.drop j).length := h'.length_le
  rw [List.length_drop] at hl
  have hppos : 0 < p.length := List.length_pos.mpr hp
  omega

/-- Whitespace skipping never moves backwards. -/
theorem skipWsAux_ge : ∀ (t : Str) (i : Nat), i ≤ skipWsAux t i := by
  intro t
  induction t with
  | nil => intro i; exact le_refl i
  | cons c t ih =>
    intro i
    rw [skipWsAux]
    by_cases hw : jsWhitespace c
    · rw [if_pos hw]
      have := ih (i + 1)
      omega
    · rw [if_neg hw]

theorem skipWs_ge (s : Str) (i : Nat) : i ≤ skipWs s i := skipWsAux_ge _ i

/-- Letter scanning never moves backwards. -/
theorem scanLettersAux_ge : ∀ (t : Str) (j : Nat), j ≤ scanLettersAux t j := by
  intro t
  induction t with
  | nil => intro j; exact le_refl j
  | cons c t ih =>
    intro j
    rw [scanLettersAux]
    by_cases hw : c.isAlpha
    · rw [if_pos hw]
      have := ih (j + 1)
      omega
    · rw [if_neg hw]

theorem scanLetters_ge (s : Str) (j : Nat) : j ≤ scanLetters s j :=
  scanLettersAux_ge _ j

/-- Letter scanning stays inside the scanned suffix. -/
theorem scanLettersAux_le : ∀ (t : Str) (j : Nat), scanLettersAux t j ≤ j + t.length := by
  intro t
  induction t with
  | nil => intro j; simp [scanLettersAux]
  | cons c t ih =>
    intro j
    rw [scanLettersAux]
    by_cases hw : c.isAlpha
    · rw [if_pos hw]
      have := ih (j + 1)
      simp only [List.length_cons]
      omega
    · rw [if_neg hw]
      simp only [List.length_cons]
      omega

theorem scanLetters_le (s : Str) (j : Nat) (h : j ≤ s.length) :
    scanLetters s j ≤ s.length := by
  have := scanLettersAux_le (s.drop j) j
  rw [List.length_drop] at this
  unfold scanLetters
  omega

/-- The slice of a prefix-occurrence is the pattern itself. -/
theorem slice_of_prefix_drop (p s : Str) (a : Nat) (h : p.isPrefixOf (s.drop a)) :
    strSlice s a (a + p.length) = p := by
  obtain ⟨t, ht⟩ := List.isPrefixOf_iff_prefix.mp h
  unfold strSlice
  rw [← ht]
  have he : a + p.length - a = p.length := by omega
  rw [he, List.take_left]

/-- A suffix splits as a slice followed by the later suffix. -/
theorem drop_eq_slice_append (s : Str) (a b : Nat) (h1 : a ≤ b) :
    s.drop a = strSlice s a b ++ s.drop b := by
  unfold strSlice
  have hb : s.drop b = (s.drop a).drop (b - a) := by
    rw [List.drop_drop]
    congr 1
    omega
  rw [hb, List.take_append_drop]

/-- Slices compose. -/
theorem strSlice_split (s : Str) (a b c : Nat) (h1 : a ≤ b) (h2 : b ≤ c) :
    strSlice s a c = strSlice s a b ++ strSlice s b c := by
  unfold strSlice
  have hdb : s.drop b = (s.drop a).drop (b - a) := by
    rw [List.drop_drop]
    congr 1
    omega
  rw [hdb]
  have hc : c - a = (b - a) + (c - b) := by omega
  rw [hc, List.take_add]

/-- Length of a slice with in-range endpoints. -/
theorem strSlice_length (s : Str) (a b : Nat) (h1 : a ≤ b) (h2 : b ≤ s.length) :
    (strSlice s a b).length = b - a := by
  unfold strSlice
  rw [List.length_take, List.length_drop]
  omega

/-- A one-character slice at an in-range position. -/
theorem strSlice_single (s : Str) (a : Nat) (ch : Char) (h : s.get? a = some ch) :
    strSlice s a (a + 1) = [ch] := by
  have ha : a < s.length := (List.get?_eq_some.mp h).1
  have hd : s.drop a = s[a] :: s.drop (a + 1) := List.drop_eq_getElem_cons ha
  have hc : s[a] = ch := by
    have := List.get?_eq_getElem? s a
    rw [h, List.getElem?_eq_getElem ha, Option.some.injEq] at this
    exact this.symm
  unfold strSlice
  rw [hd, hc]
  have he : a + 1 - a = 1 := by omega
  rw [he]
  rfl

/-- A string is at least one occurrence of itself. -/
theorem countSub_prefix_succ (p y : Str) (hp : p ≠ []) :
    1 + countSub p y ≤ countSub p (p ++ y) := by
  rcases p with - | ⟨c, t⟩
  · exact absurd rfl hp
  · rw [List.cons_append, countSub]
    have hpre : (c :: t).isPrefixOf (c :: (t ++ y)) := by
      rw [List.isPrefixOf_iff_prefix, ← List.cons_append]
      exact List.prefix_append _ _
    rw [if_pos hpre]
    have h1 := countSub_append_ge (c :: t) t y
    omega

/-- Occurrences inside an infix survive in the whole. -/
theorem countSub_infix (p u m v : Str) :
    countSub p m ≤ countSub p (u ++ (m ++ v)) := by
  have h1 := countSub_append_ge p u (m ++ v)
  have h2 := countSub_append_ge p m v
  omega

/-- Soundness of the generic balanced-group scanner: a hit sits at the
opening delimiter and returns the slice up to the matching closer. -/
theorem parseGroup_sound (op cl : Char) (hne : op ≠ cl) (s : Str) (start : Nat)
    (content : Str) (e : Nat) (h : parseGroup op cl s start = some (content, e)) :
    s.get? start = some op ∧
    ∃ j, start < j ∧ j < s.length ∧ s.get? j = some cl ∧
      content = strSlice s (start + 1) j ∧ e = j + 1 := by
  unfold parseGroup at h
  by_cases hop : s.get? start = some op
  · rw [if_pos hop] at h
    have hiff := parseGroupAux_iff op cl hne s start (s.drop start) start 0 rfl
      (le_refl _) (preBal_start op cl s start).symm (Or.inl ⟨rfl, rfl, hop⟩)
      content e
    obtain ⟨j, hj1, hj2, hj3, -, -, hj6, hj7⟩ := hiff.mp h
    have hjs : start < j := by
      rcases Nat.lt_or_ge start j with hlt | hge
      · exact hlt
      · have hje : j = start := by omega
        subst hje
        rw [hop, Option.some.injEq] at hj3
        exact absurd hj3 hne
    exact ⟨hop, j, hjs, hj2, hj3, hj6, hj7⟩
  · rw [if_neg hop] at h
    exact absurd h (by simp)

/-- Structure of a successful fraction-operand parse: the end index is in
range, the operand is no longer than the consumed span, and the operand text
occurs inside the consumed slice. -/
theorem parseFracArg_decomp (s : Str) (start : Nat) (arg : Str) (e : Nat)
    (h : parseFracArg s start = some (arg, e)) :
    start ≤ e ∧ e ≤ s.length ∧ arg.length ≤ e - start ∧
      ∃ u v, strSlice s start e = u ++ (arg ++ v) := by
  rw [parseFracArg.eq_def] at h
  dsimp only at h
  have hsi : start ≤ skipWs s start := skipWs_ge s start
  cases hget : s.get? (skipWs s start) with
  | none =>
    rw [hget] at h
    exact absurd h (by simp)
  | some ch =>
    rw [hget] at h
    dsimp only at h
    have hilen : skipWs s start < s.length := (List.get?_eq_some.mp hget).1
    by_cases hc1 : ch = lbrace
    · rw [if_pos hc1] at h
      obtain ⟨hop, j, hj1, hj2, hj3, hj4, hj5⟩ :=
        parseGroup_sound lbrace rbrace (by decide) s (skipWs s start) arg e h
      subst hj5
      refine ⟨by omega, by omega, ?_, ?_⟩
      · rw [hj4, strSlice_length s _ _ (by omega) (by omega)]
        omega
      · refine ⟨strSlice s start (skipWs s start + 1), strSlice s j (j + 1), ?_⟩
        rw [strSlice_split s start (skipWs s start + 1) (j + 1) (by omega) (by omega),
          strSlice_split s (skipWs s start + 1) j (j + 1) (by omega) (by omega),
          hj4]
    · rw [if_neg hc1] at h
      by_cases hc2 : ch = '\\'
      · rw [if_pos hc2] at h
        by_cases hj : scanLetters s (skipWs s start + 1) = skipWs s start + 1
        · rw [if_pos hj] at h
          exact absurd h (by simp)
        · rw [if_neg hj] at h
          rw [Option.some.injEq, Prod.mk.injEq] at h
          obtain ⟨ha, he⟩ := h
          subst he
          have hge : skipWs s start + 1 ≤ scanLetters s (skipWs s start + 1) :=
            scanLetters_ge s _
          have hle : scanLetters s (skipWs s start + 1) ≤ s.length :=
            scanLetters_le s _ (by omega)
          refine ⟨by omega, hle, ?_, ?_⟩
          · rw [← ha, strSlice_length s _ _ (by omega) hle]
            omega
          · refine ⟨strSlice s start (skipWs s start), [], ?_⟩
            rw [List.append_nil, ← ha,
              strSlice_split s start (skipWs s start) _ hsi (by omega)]
      · rw [if_neg hc2] at h
        rw [Option.some.injEq, Prod.mk.injEq] at h
        obtain ⟨ha, he⟩ := h
        subst he
        refine ⟨by omega, by omega, ?_, ?_⟩
        · rw [← ha]
          simp only [List.length_cons, List.length_nil]
          omega
        · refine ⟨strSlice s start (skipWs s start), [], ?_⟩
          rw [List.append_nil, ← ha,
            strSlice_split s start (skipWs s start) _ hsi (by omega),
            strSlice_single s (skipWs s start) ch hget]

/-- A position holding a character other than the pattern's head carries no
occurrence. -/
theorem countSub_cons_ne (p : Str) (c0 : Char) (hp : p.head? = some c0)
    (c : Char) (t : Str) (hc : c ≠ c0) : countSub p (c :: t) = countSub p t := by
  rw [countSub]
  have hpre : p.isPrefixOf (c :: t) = false := by
    cases p with
    | nil => simp at hp
    | cons p0 pt =>
      rw [List.head?_cons, Option.some.injEq] at hp
      subst hp
      rw [List.isPrefixOf]
      have : (p0 == c) = false := by
        rw [beq_eq_false_iff_ne]
        intro he
        exact hc he.symm
      rw [this]
      rfl
  rw [hpre]
  simp

/-- A successful fraction substitution strictly decreases the number of
`\frac` occurrences, and grows the string by at most two characters. -/
theorem frac_success_count (out : Str) (idx : Nat) (num den : Str)
    (nend dend : Nat)
    (hpre : fracPat.isPrefixOf (out.drop idx))
    (h1 : parseFracArg out (idx + 5) = some (num, nend))
    (h2 : parseFracArg out nend = some (den, dend)) :
    countSub fracPat (out.take idx ++ fracRepl num den ++ out.drop dend) + 1 ≤
      countSub fracPat out ∧
    (out.take idx ++ fracRepl num den ++ out.drop dend).length ≤
      out.length + 2 := by
  obtain ⟨hd1a, hd1b, hd1c, u1, v1, hs1⟩ := parseFracArg_decomp out (idx + 5) num nend h1
  obtain ⟨hd2a, hd2b, hd2c, u2, v2, hs2⟩ := parseFracArg_decomp out nend den dend h2
  have hplen : idx + 5 ≤ out.length := by
    have h := prefix_drop_length fracPat out idx (by decide) hpre
    have hl : fracPat.length = 5 := rfl
    omega
  have hfp : strSlice out idx (idx + 5) = fracPat := by
    have h := slice_of_prefix_drop fracPat out idx hpre
    have hl : fracPat.length = 5 := rfl
    rwa [hl] at h
  have hout_eq : out = out.take idx ++ (fracPat ++ (strSlice out (idx + 5) nend ++
      (strSlice out nend dend ++ out.drop dend))) := by
    conv_lhs => rw [← List.take_append_drop idx out]
    rw [drop_eq_slice_append out idx (idx + 5) (by omega), hfp,
      drop_eq_slice_append out (idx + 5) nend hd1a,
      drop_eq_slice_append out nend dend hd2a]
  have hlow : countSub fracPat (out.take idx) +
      (1 + (countSub fracPat num + (countSub fracPat den +
        countSub fracPat (out.drop dend)))) ≤ countSub fracPat out := by
    have hco := congrArg (countSub fracPat) hout_eq
    have ha := countSub_append_ge fracPat (out.take idx)
      (fracPat ++ (strSlice out (idx + 5) nend ++
        (strSlice out nend dend ++ out.drop dend)))
    have hb := countSub_prefix_succ fracPat
      (strSlice out (idx + 5) nend ++ (strSlice out nend dend ++ out.drop dend))
      (by decide)
    have hc := countSub_append_ge fracPat (strSlice out (idx + 5) nend)
      (strSlice out nend dend ++ out.drop dend)
    have hd := countSub_append_ge fracPat (strSlice out nend dend) (out.drop dend)
    have he : countSub fracPat num ≤ countSub fracPat (strSlice out (idx + 5) nend) := by
      rw [hs1]
      exact countSub_infix fracPat u1 num v1
    have hf : countSub fracPat den ≤ countSub fracPat (strSlice out nend dend) := by
      rw [hs2]
      exact countSub_infix fracPat u2 den v2
    omega
  have hassoc : out.take idx ++ fracRepl num den ++ out.drop dend =
      out.take idx ++ ('(' :: '(' :: (num ++ (')' :: '/' :: '(' ::
        (den ++ (')' :: ')' :: out.drop dend))))) := by
    unfold fracRepl
    simp only [List.append_assoc]
    rfl
  have hhead : fracPat.head? = some '\\' := rfl
  have hub : countSub fracPat (out.take idx ++ fracRepl num den ++ out.drop dend) =
      countSub fracPat (out.take idx) + (countSub fracPat num +
        (countSub fracPat den + countSub fracPat (out.drop dend))) := by
    rw [hassoc]
    rw [countSub_append_head fracPat (out.take idx) _ (by
      intro h hh
      rw [List.head?_cons, Option.some.injEq] at hh
      subst hh
      decide)]
    rw [countSub_cons_ne fracPat '\\' hhead '(' _ (by decide),
      countSub_cons_ne fracPat '\\' hhead '(' _ (by decide)]
    rw [countSub_append_head fracPat num _ (by
      intro h hh
      rw [List.head?_cons, Option.some.injEq] at hh
      subst hh
      decide)]
    rw [countSub_cons_ne fracPat '\\' hhead ')' _ (by decide),
      countSub_cons_ne fracPat '\\' hhead '/' _ (by decide),
      countSub_cons_ne fracPat '\\' hhead '(' _ (by decide)]
    rw [countSub_append_head fracPat den _ (by
      intro h hh
      rw [List.head?_cons, Option.some.injEq] at hh
      subst hh
      decide)]
    rw [countSub_cons_ne fracPat '\\' hhead ')' _ (by decide),
      countSub_cons_ne fracPat '\\' hhead ')' _ (by decide)]
  refine ⟨by omega, ?_⟩
  have hlen : (out.take idx ++ fracRepl num den ++ out.drop dend).length =
      idx + (7 + (num.length + den.length)) + (out.length - dend) := by
    simp only [List.length_append, List.length_take, List.length_drop]
    have hrl : (fracRepl num den).length = 7 + (num.length + den.length) := by
      unfold fracRepl
      simp only [List.length_append]
      rw [show "((".toList.length = 2 from rfl,
        show ")/(".toList.length = 3 from rfl,
        show "))".toList.length = 2 from rfl]
      omega
    rw [hrl]
    omega
  omega

/-- The fraction loop is insensitive to surplus fuel once the fuel covers
the decreasing measure `10 * markers + remaining scan window`: each failed
operand parse advances the scan pointer, each substitution strictly lowers
the marker count. -/
theorem replaceAllFracGo_stable :
    ∀ (fuel extra : Nat) (out : Str) (oidx : Option Nat),
      (∀ idx, oidx = some idx → fracPat.isPrefixOf (out.drop idx)) →
      (∀ idx, oidx = some idx →
        10 * countSub fracPat out + (out.length + 1 - idx) ≤ fuel) →
      replaceAllFracGo (fuel + extra) out oidx = replaceAllFracGo fuel out oidx := by
  intro fuel
  induction fuel with
  | zero =>
    intro extra out oidx hinv hmu
    cases oidx with
    | none =>
      cases extra with
      | zero => rfl
      | succ e => rfl
    | some idx =>
      exfalso
      have h := hmu idx rfl
      have hp := hinv idx rfl
      have hlen5 := prefix_drop_length fracPat out idx (by decide) hp
      have hl : fracPat.length = 5 := rfl
      omega
  | succ f ih =>
    intro extra out oidx hinv hmu
    cases oidx with
    | none =>
      have he : f + 1 + extra = (f + extra) + 1 := by omega
      rw [he]
      rfl
    | some idx =>
      have hp := hinv idx rfl
      have hmu' := hmu idx rfl
      have hlen5 := prefix_drop_length fracPat out idx (by decide) hp
      have hl : fracPat.length = 5 := rfl
      have he : f + 1 + extra = (f + extra) + 1 := by omega
      rw [he]
      cases h1 : parseFracArg out (idx + 5) with
      | none =>
        rw [replaceAllFracGo_numFail_step (f + extra) out idx h1,
          replaceAllFracGo_numFail_step f out idx h1]
        apply ih
        · intro i hi
          exact (indexOfFrom_sound fracPat out (idx + 1) i hi).2
        · intro i hi
          obtain ⟨hge, -⟩ := indexOfFrom_sound fracPat out (idx + 1) i hi
          omega
      | some p =>
        rcases p with ⟨num, nend⟩
        cases h2 : parseFracArg out nend with
        | none =>
          rw [replaceAllFracGo_denFail_step (f + extra) out idx num nend h1 h2,
            replaceAllFracGo_denFail_step f out idx num nend h1 h2]
          apply ih
          · intro i hi
            exact (indexOfFrom_sound fracPat out (idx + 1) i hi).2
          · intro i hi
            obtain ⟨hge, -⟩ := indexOfFrom_sound fracPat out (idx + 1) i hi
            omega
        | some q =>
          rcases q with ⟨den, dend⟩
          rw [replaceAllFracGo_success_step (f + extra) out idx num den nend dend h1 h2,
            replaceAllFracGo_success_step f out idx num den nend dend h1 h2]
          obtain ⟨hcnt, hlen⟩ := frac_success_count out idx num den nend dend hp h1 h2
          apply ih
          · intro i hi
            exact (indexOfFrom_sound fracPat _ idx i hi).2
          · intro i hi
            obtain ⟨hge, -⟩ := indexOfFrom_sound fracPat _ idx i hi
            omega

/-- `fracFuel` really bounds the fraction loop: surplus fuel is ignored, so
the embedded function computes the JavaScript loop's terminating value. -/
theorem replaceAllFrac_fuel (s : Str) (extra : Nat) :
    replaceAllFracGo (fracFuel s + extra) s (indexOfFrom fracPat s 0) =
      replaceAllFrac s := by
  unfold replaceAllFrac
  apply replaceAllFracGo_stable
  · intro i hi
    exact (indexOfFrom_sound fracPat s 0 i hi).2
  · intro i hi
    obtain ⟨-, hpre⟩ := indexOfFrom_sound fracPat s 0 i hi
    have hc := countSub_le_length fracPat s
    have hlen5 := prefix_drop_length fracPat s i (by decide) hpre
    have hl : fracPat.length = 5 := rfl
    unfold fracFuel
    omega

/-- A failed bracket-group parse after `\sqrt[` skips the occurrence. -/
theorem replaceAllSqrtGo_brackFail_step (fuel : Nat) (out : Str) (idx : Nat)
    (hb : out.get? (idx + 5) = some '[')
    (h1 : parseBracketGroup out (idx + 5) = none) :
    replaceAllSqrtGo (fuel + 1) out (some idx) =
      replaceAllSqrtGo fuel out (indexOfFrom sqrtPat out (idx + 1)) := by
  rw [replaceAllSqrtGo]
  simp only [if_pos hb, h1]

/-- A failed brace-group parse after a parsed root index skips the
occurrence. -/
theorem replaceAllSqrtGo_rootBraceFail_step (fuel : Nat) (out : Str) (idx : Nat)
    (root : Str) (rend : Nat)
    (hb : out.get? (idx + 5) = some '[')
    (h1 : parseBracketGroup out (idx + 5) = some (root, rend))
    (h2 : parseBraceGroup out rend = none) :
    replaceAllSqrtGo (fuel + 1) out (some idx) =
      replaceAllSqrtGo fuel out (indexOfFrom sqrtPat out (idx + 1)) := by
  rw [replaceAllSqrtGo]
  simp only [if_pos hb, h1, h2]

/-- A failed brace-group parse right after `\sqrt` skips the occurrence. -/
theorem replaceAllSqrtGo_plainFail_step (fuel : Nat) (out : Str) (idx : Nat)
    (hnb : ¬out.get? (idx + 5) = some '[')
    (h1 : parseBraceGroup out (idx + 5) = none) :
    replaceAllSqrtGo (fuel + 1) out (some idx) =
      replaceAllSqrtGo fuel out (indexOfFrom sqrtPat out (idx + 1)) := by
  rw [replaceAllSqrtGo]
  simp only [if_neg hnb, h1]

/-- The root loop is insensitive to surplus fuel once the fuel covers the
remaining scan window: scanning resumes past each replacement, so the
unsearched suffix shrinks at every iteration. -/
theorem replaceAllSqrtGo_stable :
    ∀ (fuel extra : Nat) (out : Str) (oidx : Option Nat),
      (∀ idx, oidx = some idx → sqrtPat.isPrefixOf (out.drop idx)) →
      (∀ idx, oidx = some idx → out.length + 1 - idx ≤ fuel) →
      replaceAllSqrtGo (fuel + extra) out oidx = replaceAllSqrtGo fuel out oidx := by
  intro fuel
  induction fuel with
  | zero =>
    intro extra out oidx hinv hmu
    cases oidx with
    | none =>
      cases extra with
      | zero => rfl
      | succ e => rfl
    | some idx =>
      exfalso
      have h := hmu idx rfl
      have hp := hinv idx rfl
      have hlen5 := prefix_drop_length sqrtPat out idx (by decide) hp
      have hl : sqrtPat.length = 5 := rfl
      omega
  | succ f ih =>
    intro extra out oidx hinv hmu
    cases oidx with
    | none =>
      have he : f + 1 + extra = (f + extra) + 1 := by omega
      rw [he]
      rfl
    | some idx =>
      have hp := hinv idx rfl
      have hmu' := hmu idx rfl
      have hlen5 := prefix_drop_length sqrtPat out idx (by decide) hp
      have hl : sqrtPat.length = 5 := rfl
      have he : f + 1 + extra = (f + extra) + 1 := by omega
      rw [he]
      by_cases hb : out.get? (idx + 5) = some '['
      · cases h1 : parseBracketGroup out (idx + 5) with
        | none =>
          rw [replaceAllSqrtGo_brackFail_step (f + extra) out idx hb h1,
            replaceAllSqrtGo_brackFail_step f out idx hb h1]
          apply ih
          · intro i hi
            exact (indexOfFrom_sound sqrtPat out (idx + 1) i hi).2
          · intro i hi
            obtain ⟨hge, -⟩ := indexOfFrom_sound sqrtPat out (idx + 1) i hi
            omega
        | some p =>
          rcases p with ⟨root, rend⟩
          cases h2 : parseBraceGroup out rend with
          | none =>
            rw [replaceAllSqrtGo_rootBraceFail_step (f + extra) out idx root rend hb h1 h2,
              replaceAllSqrtGo_rootBraceFail_step f out idx root rend hb h1 h2]
            apply ih
            · intro i hi
              exact (indexOfFrom_sound sqrtPat out (idx + 1) i hi).2
            · intro i hi
              obtain ⟨hge, -⟩ := indexOfFrom_sound sqrtPat out (idx + 1) i hi
              omega
          | some q =>
            rcases q with ⟨inner, iend⟩
            rw [replaceAllSqrtGo_root_success_step (f + extra) out idx root inner rend iend hb h1 h2,
              replaceAllSqrtGo_root_success_step f out idx root inner rend iend hb h1 h2]
            obtain ⟨-, j1, hj1a, hj1b, -, -, hj1e⟩ :=
              parseGroup_sound '[' ']' (by decide) out (idx + 5) root rend h1
            obtain ⟨-, j2, hj2a, hj2b, -, -, hj2e⟩ :=
              parseGroup_sound lbrace rbrace (by decide) out rend inner iend h2
            have hlen1 : (out.take idx ++
                ("((".toList ++ inner ++ ")^(1/(".toList ++ root ++ ")))".toList) ++
                out.drop iend).length + iend =
                idx + ("((".toList ++ inner ++ ")^(1/(".toList ++ root ++ ")))".toList).length
                  + out.length := by
              simp only [List.length_append, List.length_take, List.length_drop]
              omega
            apply ih
            · intro i hi
              exact (indexOfFrom_sound sqrtPat _ _ i hi).2
            · intro i hi
              obtain ⟨hge, -⟩ := indexOfFrom_sound sqrtPat _ _ i hi
              omega
      · cases h1 : parseBraceGroup out (idx + 5) with
        | none =>
          rw [replaceAllSqrtGo_plainFail_step (f + extra) out idx hb h1,
            replaceAllSqrtGo_plainFail_step f out idx hb h1]
          apply ih
          · intro i hi
            exact (indexOfFrom_sound sqrtPat out (idx + 1) i hi).2
          · intro i hi
            obtain ⟨hge, -⟩ := indexOfFrom_sound sqrtPat out (idx + 1) i hi
            omega
        | some p =>
          rcases p with ⟨inner, iend⟩
          rw [replaceAllSqrtGo_plain_success_step (f + extra) out idx inner iend hb h1,
            replaceAllSqrtGo_plain_success_step f out idx inner iend hb h1]
          obtain ⟨-, j2, hj2a, hj2b, -, -, hj2e⟩ :=
            parseGroup_sound lbrace rbrace (by decide) out (idx + 5) inner iend h1
          have hlen1 : (out.take idx ++ ("sqrt(".toList ++ inner ++ ")".toList) ++
              out.drop iend).length + iend =
              idx + ("sqrt(".toList ++ inner ++ ")".toList).length + out.length := by
            simp only [List.length_append, List.length_take, List.length_drop]
            omega
          apply ih
          · intro i hi
            exact (indexOfFrom_sound sqrtPat _ _ i hi).2
          · intro i hi
            obtain ⟨hge, -⟩ := indexOfFrom_sound sqrtPat _ _ i hi
            omega

/-- `fracFuel` also bounds the root loop: surplus fuel is ignored. -/
theorem replaceAllSqrt_fuel (s : Str) (extra : Nat) :
    replaceAllSqrtGo (fracFuel s + extra) s (indexOfFrom sqrtPat s 0) =
      replaceAllSqrt s := by
  unfold replaceAllSqrt
  apply replaceAllSqrtGo_stable
  · intro i hi
    exact (indexOfFrom_sound sqrtPat s 0 i hi).2
  · intro i hi
    obtain ⟨-, hpre⟩ := indexOfFrom_sound sqrtPat s 0 i hi
    have hlen5 := prefix_drop_length sqrtPat s i (by decide) hpre
    have hl : sqrtPat.length = 5 := rfl
    unfold fracFuel
    omega

/-- The power trigger marker `"^\x7b"`. -/
def powPat : Str := "^\x7b".toList

/-- The backward scan of `findMatchingOpen`: from index `j` toward 0,
closers raise the depth, openers lower it, and the first index where the
depth reaches zero is returned. -/
def findMatchingOpenAux (str : Str) (o c : Char) : Nat → Int → Option Nat
  | j, depth =>
    let depth' := if str.get? j = some c then depth + 1
      else if str.get? j = some o then depth - 1 else depth
    if depth' = 0 then some j
    else
      match j with
      | 0 => none
      | j' + 1 => findMatchingOpenAux str o c j' depth'

/-- `findMatchingOpen` from `replaceAllPowers` (`none` for `-1`). -/
def findMatchingOpen (str : Str) (closeIdx : Nat) (o c : Char) : Option Nat :=
  findMatchingOpenAux str o c closeIdx 0

/-- `/[0-9a-zA-Z._]/` from `replaceAllPowers`. -/
def isIdentChar (ch : Char) : Bool :=
  ch.isDigit || ch.isAlpha || ch = '.' || ch = '_'

/-- `while (baseStart - 1 >= 0 && isIdentChar(out[baseStart - 1])) baseStart--`. -/
def scanIdentBack (out : Str) : Nat → Nat
  | 0 => 0
  | b + 1 =>
    match out.get? b with
    | some ch => if isIdentChar ch then scanIdentBack out b else b + 1
    | none => b + 1

/-- One substitution of the power loop: replace `base^\x7bpower\x7d` by
`(base)^(power)` and resume one past the replacement. -/
def powSubst (out : Str) (baseStart caret : Nat) (power : Str) (pend : Nat) :
    Str × Nat :=
  let base := strSlice out baseStart caret
  let repl := '(' :: base ++ ")^(".toList ++ power ++ [')']
  (out.take baseStart ++ repl ++ out.drop pend, baseStart + repl.length)

/-- One iteration of the `while (i < out.length)` loop of
`replaceAllPowers`: `none` means the loop exits. -/
def powStep (out : Str) (i : Nat) : Option (Str × Nat) :=
  if i < out.length then
    match indexOfFrom powPat out i with
    | none => none
    | some caret =>
      match parseBraceGroup out (caret + 1) with
      | none => some (out, caret + 2)
      | some (power, pend) =>
        if caret = 0 then some (out, pend)
        else if out.get? (caret - 1) = some ')' then
          match findMatchingOpen out (caret - 1) '(' ')' with
          | none => some (out, pend)
          | some openIdx => some (powSubst out openIdx caret power pend)
        else if out.get? (caret - 1) = some ']' then
          match findMatchingOpen out (caret - 1) '[' ']' with
          | none => some (out, pend)
          | some openIdx => some (powSubst out openIdx caret power pend)
        else if out.get? (caret - 1) = some rbrace then
          match findMatchingOpen out (caret - 1) lbrace rbrace with
          | none => some (out, pend)
          | some openIdx => some (powSubst out openIdx caret power pend)
        else
          some (powSubst out (scanIdentBack out (caret - 1)) caret power pend)
  else none

/-- The `while` loop of `replaceAllPowers`. -/
def replaceAllPowersGo : Nat → Str → Nat → Str
  | 0, out, _ => out
  | fuel + 1, out, i =>
    match powStep out i with
    | none => out
    | some (out1, i1) => replaceAllPowersGo fuel out1 i1

/-- `replaceAllPowers` from `latexToExpression`. -/
def replaceAllPowers (s : Str) : Str :=
  replaceAllPowersGo (s.length + 2) s 0

/-- The backward scan never moves forward. -/
theorem findMatchingOpenAux_le (str : Str) (o c : Char) :
    ∀ (j : Nat) (d : Int) (r : Nat),
      findMatchingOpenAux str o c j d = some r → r ≤ j := by
  intro j
  induction j with
  | zero =>
    intro d r h
    rw [findMatchingOpenAux] at h
    by_cases hz : (if str.get? 0 = some c then d + 1
        else if str.get? 0 = some o then d - 1 else d) = 0
    · rw [if_pos hz] at h
      rw [Option.some.injEq] at h
      omega
    · rw [if_neg hz] at h
      exact absurd h (by simp)
  | succ j' ih =>
    intro d r h
    rw [findMatchingOpenAux] at h
    by_cases hz : (if str.get? (j' + 1) = some c then d + 1
        else if str.get? (j' + 1) = some o then d - 1 else d) = 0
    · rw [if_pos hz] at h
      rw [Option.some.injEq] at h
      omega
    · rw [if_neg hz] at h
      have := ih _ r h
      omega

/-- The identifier back-scan never moves forward. -/
theorem scanIdentBack_le (out : Str) : ∀ b, scanIdentBack out b ≤ b := by
  intro b
  induction b with
  | zero => exact le_refl 0
  | succ b ih =>
    rw [scanIdentBack]
    cases hg : out.get? b with
    | none => exact le_refl _
    | some ch =>
      dsimp only
      by_cases hc : isIdentChar ch
      · rw [if_pos hc]
        omega
      · rw [if_neg hc]

/-- Every continuing iteration of the power loop strictly shrinks the
remaining scan window `length + 1 - i`. -/
theorem powStep_decreases (out : Str) (i : Nat) (out1 : Str) (i1 : Nat)
    (h : powStep out i = some (out1, i1)) :
    out1.length + 1 - i1 < out.length + 1 - i := by
  unfold powStep at h
  by_cases hlt : i < out.length
  · rw [if_pos hlt] at h
    cases hidx : indexOfFrom powPat out i with
    | none => rw [hidx] at h; exact absurd h (by simp)
    | some caret =>
      rw [hidx] at h
      dsimp only at h
      obtain ⟨hic, hpre⟩ := indexOfFrom_sound powPat out i caret hidx
      have hc2 : caret + 2 ≤ out.length := by
        have hp := prefix_drop_length powPat out caret (by decide) hpre
        have hl : powPat.length = 2 := rfl
        omega
      cases hbg : parseBraceGroup out (caret + 1) with
      | none =>
        rw [hbg] at h
        rw [Option.some.injEq, Prod.mk.injEq] at h
        obtain ⟨h1, h2⟩ := h
        subst h1
        subst h2
        omega
      | some p =>
        rw [hbg] at h
        rcases p with ⟨power, pend⟩
        dsimp only at h
        obtain ⟨-, j, hja, hjb, -, -, hje⟩ :=
          parseGroup_sound lbrace rbrace (by decide) out (caret + 1) power pend hbg
        have hpend1 : caret + 3 ≤ pend := by omega
        have hpend2 : pend ≤ out.length := by omega
        have hsub : ∀ baseStart, baseStart ≤ caret - 1 →
            powSubst out baseStart caret power pend = (out1, i1) →
            out1.length + 1 - i1 < out.length + 1 - i := by
          intro baseStart hbs hps
          unfold powSubst at hps
          rw [Prod.mk.injEq] at hps
          obtain ⟨h1, h2⟩ := hps
          have hlen1 : out1.length + pend =
              baseStart +
                ('(' :: strSlice out baseStart caret ++ ")^(".toList ++ power ++
                  [')']).length + out.length := by
            rw [← h1]
            simp only [List.length_append, List.length_take, List.length_drop,
              List.length_cons]
            omega
          omega
        by_cases hc0 : caret = 0
        · rw [if_pos hc0] at h
          rw [Option.some.injEq, Prod.mk.injEq] at h
          obtain ⟨h1, h2⟩ := h
          subst h1
          subst h2
          omega
        · rw [if_neg hc0] at h
          by_cases hp1 : out.get? (caret - 1) = some ')'
          · rw [if_pos hp1] at h
            cases hfm : findMatchingOpen out (caret - 1) '(' ')' with
            | none =>
              rw [hfm] at h
              rw [Option.some.injEq, Prod.mk.injEq] at h
              obtain ⟨h1, h2⟩ := h
              subst h1
              subst h2
              omega
            | some openIdx =>
              rw [hfm] at h
              rw [Option.some.injEq] at h
              exact hsub openIdx (findMatchingOpenAux_le out '(' ')' _ _ _ hfm) h
          · rw [if_neg hp1] at h
            by_cases hp2 : out.get? (caret - 1) = some ']'
            · rw [if_pos hp2] at h
              cases hfm : findMatchingOpen out (caret - 1) '[' ']' with
              | none =>
                rw [hfm] at h
                rw [Option.some.injEq, Prod.mk.injEq] at h
                obtain ⟨h1, h2⟩ := h
                subst h1
                subst h2
                omega
              | some openIdx =>
                rw [hfm] at h
                rw [Option.some.injEq] at h
                exact hsub openIdx (findMatchingOpenAux_le out '[' ']' _ _ _ hfm) h
            · rw [if_neg hp2] at h
              by_cases hp3 : out.get? (caret - 1) = some rbrace
              · rw [if_pos hp3] at h
                cases hfm : findMatchingOpen out (caret - 1) lbrace rbrace with
                | none =>
                  rw [hfm] at h
                  rw [Option.some.injEq, Prod.mk.injEq] at h
                  obtain ⟨h1, h2⟩ := h
                  subst h1
                  subst h2
                  omega
                | some openIdx =>
                  rw [hfm] at h
                  rw [Option.some.injEq] at h
                  exact hsub openIdx (findMatchingOpenAux_le out lbrace rbrace _ _ _ hfm) h
              · rw [if_neg hp3] at h
                rw [Option.some.injEq] at h
                exact hsub (scanIdentBack out (caret - 1))
                  (scanIdentBack_le out (caret - 1)) h
  · rw [if_neg hlt] at h
    exact absurd h (by simp)

/-- The power loop is insensitive to surplus fuel once the fuel covers the
remaining scan window. -/
theorem replaceAllPowersGo_stable :
    ∀ (fuel extra : Nat) (out : Str) (i : Nat),
      out.length + 1 - i ≤ fuel →
      replaceAllPowersGo (fuel + extra) out i = replaceAllPowersGo fuel out i := by
  intro fuel
  induction fuel with
  | zero =>
    intro extra out i hmu
    cases extra with
    | zero => rfl
    | succ e =>
      have hstep : powStep out i = none := by
        unfold powStep
        rw [if_neg (by omega)]
      show (match powStep out i with
        | none => out
        | some (out1, i1) => replaceAllPowersGo (0 + e) out1 i1) =
        replaceAllPowersGo 0 out i
      rw [hstep]
      rfl
  | succ f ih =>
    intro extra out i hmu
    have he : f + 1 + extra = (f + extra) + 1 := by omega
    rw [he]
    show (match powStep out i with
      | none => out
      | some (out1, i1) => replaceAllPowersGo (f + extra) out1 i1) =
      (match powStep out i with
      | none => out
      | some (out1, i1) => replaceAllPowersGo f out1 i1)
    cases hstep : powStep out i with
    | none => rfl
    | some p =>
      rcases p with ⟨out1, i1⟩
      have hd := powStep_decreases out i out1 i1 hstep
      exact ih extra out1 i1 (by omega)

/-- `length + 2` really bounds the power loop: surplus fuel is ignored. -/
theorem replaceAllPowers_fuel (s : Str) (extra : Nat) :
    replaceAllPowersGo (s.length + 2 + extra) s 0 = replaceAllPowers s := by
  unfold replaceAllPowers
  apply replaceAllPowersGo_stable
  omega

/-- The count named by the claim's mechanism for the fixed-point loop:
positions where some recognized function name occurs and is not followed by
an opening parenthesis. -/
def unwrappedFnCount : Str → Nat
  | [] => 0
  | c :: t =>
    (if FUNCTION_NAMES.any (fun n =>
        n.isPrefixOf (c :: t) && ((c :: t).drop n.length).head? != some '(')
      then 1 else 0) + unwrappedFnCount t

/-- The input `\\sqrt\x7b4\x7d` (a backslash right before a `\sqrt`
marker). -/
def sqrtCountInput : Str := "\\\\sqrt\x7b4\x7d".toList

/-- Counterexample to C5's stated mechanisms.  Root loop: on `\\sqrt\x7b4\x7d`
the (unique, successful) substitution yields `\sqrt(4)` — the count of
un-expanded `\sqrt` markers stays 1, not reduced.  Fixed-point loop: the
pass on `lnasin(2)` performs a successful substitution (the string changes)
yet the count of recognized function names not followed by `(` rises from
1 to 2. -/
theorem c5_count_mechanism_counterexample :
    (indexOfFrom sqrtPat sqrtCountInput 0 = some 1 ∧
      parseBraceGroup sqrtCountInput 6 = some (['4'], 9) ∧
      replaceAllSqrt sqrtCountInput = "\\sqrt(4)".toList ∧
      replaceAllSqrt sqrtCountInput ≠ sqrtCountInput ∧
      countSub sqrtPat sqrtCountInput = 1 ∧
      countSub sqrtPat (replaceAllSqrt sqrtCountInput) = 1) ∧
    (iifcPass "lnasin(2)".toList = "ln(asin)(2)".toList ∧
      iifcPass "lnasin(2)".toList ≠ "lnasin(2)".toList ∧
      unwrappedFnCount "lnasin(2)".toList = 1 ∧
      unwrappedFnCount (iifcPass "lnasin(2)".toList) = 2) := by
  exact ⟨⟨by decide, by decide, by decide, by decide, by decide, by decide⟩,
    ⟨by decide, by decide, by decide, by decide⟩⟩

/-- C5 (amended): all four rewrite loops terminate, with fuel linear in the
input length and surplus fuel ignored.  The fraction loop terminates by the
claim's mechanism: a successful substitution strictly reduces the count of
un-expanded `\frac` markers, and a failed operand parse advances the scan
pointer.  The root and power loops instead resume scanning past each
replacement, strictly shrinking the remaining scan window (their
substitutions need not reduce the marker count).  The fixed-point loop
terminates because each changing pass strictly decreases a potential
function bounded by `70 * length` (the count of unwrapped function names
can rise). -/
theorem c5_loop_termination :
    (∀ (s : Str) (extra : Nat),
      replaceAllFracGo (fracFuel s + extra) s (indexOfFrom fracPat s 0) =
        replaceAllFrac s) ∧
    (∀ (out : Str) (idx : Nat) (num den : Str) (nend dend : Nat),
      fracPat.isPrefixOf (out.drop idx) →
      parseFracArg out (idx + 5) = some (num, nend) →
      parseFracArg out nend = some (den, dend) →
      countSub fracPat (out.take idx ++ fracRepl num den ++ out.drop dend) <
        countSub fracPat out) ∧
    (∀ (p out : Str) (idx j : Nat),
      indexOfFrom p out (idx + 1) = some j → idx < j) ∧
    (∀ (s : Str) (extra : Nat),
      replaceAllSqrtGo (fracFuel s + extra) s (indexOfFrom sqrtPat s 0) =
        replaceAllSqrt s) ∧
    (∀ (s : Str) (extra : Nat),
      replaceAllPowersGo (s.length + 2 + extra) s 0 = replaceAllPowers s) ∧
    (∀ s : Str, iifcPass s ≠ s → phi (iifcPass s) < phi s) ∧
    (∀ s : Str, phi s ≤ 70 * s.length) ∧
    (∀ (s : Str) (extra : Nat),
      insertImplicitFunctionCallsGo (phi s + 2 + extra) s =
        insertImplicitFunctionCalls s) := by
  refine ⟨replaceAllFrac_fuel, ?_, ?_, replaceAllSqrt_fuel,
    replaceAllPowers_fuel, ?_, phi_le_length, ?_⟩
  · intro out idx num den nend dend hpre h1 h2
    have h := (frac_success_count out idx num den nend dend hpre h1 h2).1
    omega
  · intro p out idx j h
    have := (indexOfFrom_sound p out (idx + 1) j h).1
    omega
  · intro s hne
    rcases iifcPassGo_phi s.length s s.length none (le_refl _) (le_refl _) with
      hid | hlt
    · exact absurd hid hne
    · exact hlt
  · intro s extra
    exact (iifcLoopGo_stable (phi s + 2) (phi s + 2 + extra) s (by omega)
      (by omega)).symm

/-- Witness for C5 (amended): the marker-count decrease on `\frac12`, the
pointer advance past a failed occurrence, and the potential decrease of the
changing pass on `sinh3`. -/
theorem c5_loop_termination_witness :
    countSub fracPat ("\\frac12".toList.take 0 ++ fracRepl ['1'] ['2'] ++
      "\\frac12".toList.drop 7) < countSub fracPat "\\frac12".toList ∧
    0 < 1 ∧
    phi (iifcPass "sinh3".toList) < phi "sinh3".toList :=
  ⟨c5_loop_termination.2.1 "\\frac12".toList 0 ['1'] ['2'] 6 7 (by decide)
      (by decide) (by decide),
    c5_loop_termination.2.2.1 fracPat "x\\frac".toList 0 1 (by decide),
    c5_loop_termination.2.2.2.2.2.1 "sinh3".toList (by decide)⟩

/-- Generic single pass of a global regex replace: scan left to right, on a
match emit the replacement and resume after the matched token (tracking the
previous source character for word boundaries), otherwise copy one
character. -/
def iimPassGo (m : Option Char → Str → Option (Str × Str)) (r : Str → Str) :
    Nat → Option Char → Str → Str
  | 0, _, l => l
  | _ + 1, _, [] => []
  | f + 1, prev, c :: t =>
    match m prev (c :: t) with
    | some (tok, rest) => r tok ++ iimPassGo m r f tok.getLast? rest
    | none => c :: iimPassGo m r f (some c) t

/-- The `"$1*"` replacement. -/
def starTok (tok : Str) : Str := tok ++ ['*']

/-- `/(\d|\)|pi|e|tau|phi|i)(?=\()/` tried alternation-order at one
position. -/
def matchRule1 (_ : Option Char) (l : Str) : Option (Str × Str) :=
  if (l.head?.any Char.isDigit) && ((l.drop 1).head? == some '(') then
    some (l.take 1, l.drop 1)
  else if (l.head? == some ')') && ((l.drop 1).head? == some '(') then
    some (l.take 1, l.drop 1)
  else if ("pi".toList.isPrefixOf l) && ((l.drop 2).head? == some '(') then
    some ("pi".toList, l.drop 2)
  else if ("e".toList.isPrefixOf l) && ((l.drop 1).head? == some '(') then
    some ("e".toList, l.drop 1)
  else if ("tau".toList.isPrefixOf l) && ((l.drop 3).head? == some '(') then
    some ("tau".toList, l.drop 3)
  else if ("phi".toList.isPrefixOf l) && ((l.drop 3).head? == some '(') then
    some ("phi".toList, l.drop 3)
  else if ("i".toList.isPrefixOf l) && ((l.drop 1).head? == some '(') then
    some ("i".toList, l.drop 1)
  else none

/-- The lookahead `(?=(\d|pi|e|tau|phi|i|[a-zA-Z_]))` of rule 2. -/
def lookahead2 (r : Str) : Bool :=
  (r.head?.any Char.isDigit) || "pi".toList.isPrefixOf r ||
    "e".toList.isPrefixOf r || "tau".toList.isPrefixOf r ||
    "phi".toList.isPrefixOf r || "i".toList.isPrefixOf r ||
    (r.head?.any fun c => c.isAlpha || c = '_')

/-- `/(\))(?=(\d|pi|e|tau|phi|i|[a-zA-Z_]))/` at one position. -/
def matchRule2 (_ : Option Char) (l : Str) : Option (Str × Str) :=
  if (l.head? == some ')') && lookahead2 (l.drop 1) then
    some (l.take 1, l.drop 1)
  else none

/-- The lookahead `(?=[a-zA-Z_])` of rule 3. -/
def la3 (r : Str) : Bool := r.head?.any fun c => c.isAlpha || c = '_'

/-- Word boundary `\b` against the previous character. -/
def bBefore (prev : Option Char) : Bool :=
  match prev with
  | none => true
  | some c => !wordChar c

/-- Word boundary `\b` against the next character. -/
def bAfter (r : Str) : Bool :=
  match r.head? with
  | none => true
  | some c => !wordChar c

/-- `/(\d|\)|\bpi\b|\be\b|\btau\b|\bphi\b|\bi\b)(?=[a-zA-Z_])/` at one
position. -/
def matchRule3 (prev : Option Char) (l : Str) : Option (Str × Str) :=
  if (l.head?.any Char.isDigit) && la3 (l.drop 1) then
    some (l.take 1, l.drop 1)
  else if (l.head? == some ')') && la3 (l.drop 1) then
    some (l.take 1, l.drop 1)
  else if bBefore prev && "pi".toList.isPrefixOf l && bAfter (l.drop 2) &&
      la3 (l.drop 2) then
    some ("pi".toList, l.drop 2)
  else if bBefore prev && "e".toList.isPrefixOf l && bAfter (l.drop 1) &&
      la3 (l.drop 1) then
    some ("e".toList, l.drop 1)
  else if bBefore prev && "tau".toList.isPrefixOf l && bAfter (l.drop 3) &&
      la3 (l.drop 3) then
    some ("tau".toList, l.drop 3)
  else if bBefore prev && "phi".toList.isPrefixOf l && bAfter (l.drop 3) &&
      la3 (l.drop 3) then
    some ("phi".toList, l.drop 3)
  else if bBefore prev && "i".toList.isPrefixOf l && bAfter (l.drop 1) &&
      la3 (l.drop 1) then
    some ("i".toList, l.drop 1)
  else none

/-- `/([a-zA-Z_]\w*)(?=\()/` at one position: the greedy identifier can only
be followed by `(` at its full extent, since any shorter cut is followed by
a word character. -/
def matchRule4 (_ : Option Char) (l : Str) : Option (Str × Str) :=
  if l.head?.any (fun c => c.isAlpha || c = '_') then
    let tok := l.takeWhile wordChar
    if (l.drop tok.length).head? == some '(' then some (tok, l.drop tok.length)
    else none
  else none

/-- Rule 4's function replacer: `functionNames.has(name) ? name : name + "*"`. -/
def rule4Repl (tok : Str) : Str :=
  if tok ∈ FUNCTION_NAMES then tok else tok ++ ['*']

/-- First boundary rule of `insertImplicitMultiplication`. -/
def iimPass1 (s : Str) : Str := iimPassGo matchRule1 starTok s.length none s

/-- Second boundary rule. -/
def iimPass2 (s : Str) : Str := iimPassGo matchRule2 starTok s.length none s

/-- Third boundary rule. -/
def iimPass3 (s : Str) : Str := iimPassGo matchRule3 starTok s.length none s

/-- Fourth boundary rule. -/
def iimPass4 (s : Str) : Str := iimPassGo matchRule4 rule4Repl s.length none s

/-- `insertImplicitMultiplication` from `src/app/page.tsx`. -/
def insertImplicitMultiplication (s : Str) : Str :=
  iimPass4 (iimPass3 (iimPass2 (iimPass1 s)))

/-- Counterexample to C7 as stated: `log10` is a recognized function name,
yet `insertImplicitMultiplication("log10(5)")` yields `log10*(5)` — the
star is inserted by rule 1 (digit before `(`), which runs before the
function-name exemption of rule 4 and knows nothing about names. -/
theorem c7_function_name_star_counterexample :
    insertImplicitMultiplication "log10(5)".toList = "log10*(5)".toList ∧
    "log10".toList ∈ FUNCTION_NAMES ∧
    iimPass4 "log10(5)".toList = "log10(5)".toList ∧
    iimPass1 "log10(5)".toList = "log10*(5)".toList := by
  exact ⟨by decide, by decide, by decide, by decide⟩

/-- A rule-4 match is exactly a maximal identifier immediately followed by
an opening parenthesis. -/
theorem matchRule4_iff (prev : Option Char) (l : Str) (tok rest : Str) :
    matchRule4 prev l = some (tok, rest) ↔
      ((l.head?.any fun c => c.isAlpha || c = '_') = true ∧
        tok = l.takeWhile wordChar ∧
        rest = l.drop (l.takeWhile wordChar).length ∧
        rest.head? = some '(') := by
  unfold matchRule4
  by_cases hh : (l.head?.any fun c => c.isAlpha || c = '_') = true
  · rw [if_pos hh]
    dsimp only
    by_cases hla : ((l.drop (l.takeWhile wordChar).length).head? == some '(') = true
    · rw [if_pos hla]
      constructor
      · intro h
        rw [Option.some.injEq, Prod.mk.injEq] at h
        obtain ⟨h1, h2⟩ := h
        subst h1
        subst h2
        exact ⟨hh, rfl, rfl, by rwa [beq_iff_eq] at hla⟩
      · rintro ⟨-, h2, h3, -⟩
        subst h2
        subst h3
        rfl
    · rw [if_neg hla]
      constructor
      · intro h
        exact absurd h (by simp)
      · rintro ⟨-, h2, h3, h4⟩
        exfalso
        apply hla
        rw [beq_iff_eq]
        rw [h3] at h4
        exact h4
  · rw [if_neg hh]
    constructor
    · intro h
      exact absurd h (by simp)
    · rintro ⟨h1, -⟩
      exact absurd h1 hh

/-- On a rule-4 match of a recognized function name, the fourth pass copies
the name unchanged and continues after it. -/
theorem iimPass4_keeps_function_name (f : Nat) (prev : Option Char)
    (l tok rest : Str)
    (hm : matchRule4 prev l = some (tok, rest))
    (htok : tok ∈ FUNCTION_NAMES) :
    iimPassGo matchRule4 rule4Repl (f + 1) prev l =
      tok ++ iimPassGo matchRule4 rule4Repl f tok.getLast? rest := by
  cases l with
  | nil =>
    rw [show matchRule4 prev [] = none from rfl] at hm
    exact absurd hm (by simp)
  | cons c t =>
    rw [iimPassGo, hm]
    dsimp only
    rw [rule4Repl, if_pos htok]

/-- On a rule-4 match of an unrecognized identifier, the fourth pass
inserts `*` after it. -/
theorem iimPass4_stars_identifier (f : Nat) (prev : Option Char)
    (l tok rest : Str)
    (hm : matchRule4 prev l = some (tok, rest))
    (htok : tok ∉ FUNCTION_NAMES) :
    iimPassGo matchRule4 rule4Repl (f + 1) prev l =
      (tok ++ ['*']) ++ iimPassGo matchRule4 rule4Repl f tok.getLast? rest := by
  cases l with
  | nil =>
    rw [show matchRule4 prev [] = none from rfl] at hm
    exact absurd hm (by simp)
  | cons c t =>
    rw [iimPassGo, hm]
    dsimp only
    rw [rule4Repl, if_neg htok]

/-- C7 (amended): the four boundary rules run as single left-to-right
passes in the fixed sequence 1-2-3-4, each seeing the previous output; a
rule-4 match is exactly a maximal identifier followed by `(`, kept
unchanged when recognized and starred otherwise — but earlier rules are
name-blind, so a recognized name can still receive a star from rule 1
(`log10(5)` → `log10*(5)`); the calculator-style examples behave as
documented. -/
theorem c7_implicit_multiplication :
    (∀ s : Str, insertImplicitMultiplication s =
      iimPass4 (iimPass3 (iimPass2 (iimPass1 s)))) ∧
    (∀ (prev : Option Char) (l tok rest : Str),
      matchRule4 prev l = some (tok, rest) ↔
        ((l.head?.any fun c => c.isAlpha || c = '_') = true ∧
          tok = l.takeWhile wordChar ∧
          rest = l.drop (l.takeWhile wordChar).length ∧
          rest.head? = some '(')) ∧
    (∀ (f : Nat) (prev : Option Char) (l tok rest : Str),
      matchRule4 prev l = some (tok, rest) → tok ∈ FUNCTION_NAMES →
      iimPassGo matchRule4 rule4Repl (f + 1) prev l =
        tok ++ iimPassGo matchRule4 rule4Repl f tok.getLast? rest) ∧
    (∀ (f : Nat) (prev : Option Char) (l tok rest : Str),
      matchRule4 prev l = some (tok, rest) → tok ∉ FUNCTION_NAMES →
      iimPassGo matchRule4 rule4Repl (f + 1) prev l =
        (tok ++ ['*']) ++ iimPassGo matchRule4 rule4Repl f tok.getLast? rest) ∧
    insertImplicitMultiplication "2(3)".toList = "2*(3)".toList ∧
    insertImplicitMultiplication "(2)3".toList = "(2)*3".toList ∧
    insertImplicitMultiplication "2pi".toList = "2*pi".toList ∧
    insertImplicitMultiplication "2sin(3)".toList = "2*sin(3)".toList ∧
    insertImplicitMultiplication "x(y)".toList = "x*(y)".toList ∧
    insertImplicitMultiplication "2x".toList = "2*x".toList := by
  exact ⟨fun s => rfl, matchRule4_iff, iimPass4_keeps_function_name,
    iimPass4_stars_identifier, by decide, by decide, by decide, by decide,
    by decide, by decide⟩

/-- Witness for C7 (amended): the rule-4 exemption applied to the concrete
match of `sin` in `sin(2)`. -/
theorem c7_implicit_multiplication_witness :
    iimPassGo matchRule4 rule4Repl 7 none "sin(2)".toList =
      "sin".toList ++ iimPassGo matchRule4 rule4Repl 6
        ("sin".toList).getLast? "(2)".toList :=
  c7_implicit_multiplication.2.2.1 6 none "sin(2)".toList "sin".toList
    "(2)".toList (by decide) (by decide)


def replaceAllLitGo (pat rep : Str) : Nat → Str → Str
  | 0, l => l
  | _ + 1, [] => []
  | f + 1, c :: t =>
    if pat.isPrefixOf (c :: t) then
      rep ++ replaceAllLitGo pat rep f ((c :: t).drop pat.length)
    else c :: replaceAllLitGo pat rep f t

def replaceAllLit (pat rep s : Str) : Str := replaceAllLitGo pat rep s.length s

def replaceLits : List (Str × Str) → Str → Str
  | [], s => s
  | (p, r) :: rest, s => replaceLits rest (replaceAllLit p r s)

def scanReplGo (m : Str → Option (Str × Str)) : Nat → Str → Str
  | 0, l => l
  | _ + 1, [] => []
  | f + 1, c :: t =>
    match m (c :: t) with
    | some (repl, rest) => repl ++ scanReplGo m f rest
    | none => c :: scanReplGo m f t

def scanRepl (m : Str → Option (Str × Str)) (s : Str) : Str :=
  scanReplGo m s.length s

def replaceLoopGo (m : Str → Option (Str × Str)) : Nat → Str → Str
  | 0, e => e
  | f + 1, e =>
    let e1 := scanRepl m e
    if e1 = e then e else replaceLoopGo m f e1

def replaceLoop (m : Str → Option (Str × Str)) (s : Str) : Str :=
  replaceLoopGo m (s.length + 2) s

def lastOccGo (pat s : Str) : Nat → Nat → Option Nat → Option Nat
  | 0, _, acc => acc
  | f + 1, i, acc =>
    match indexOfFrom pat s i with
    | none => acc
    | some k => lastOccGo pat s f (k + 1) (some k)

def lastOcc (pat s : Str) : Option Nat := lastOccGo pat s (s.length + 1) 0 none

def absMatch (l : Str) : Option (Str × Str) :=
  if "\\left|".toList.isPrefixOf l then
    let r := l.drop 6
    let run := r.takeWhile fun c => !(c = '|' || c = lbrace || c = rbrace)
    if 7 ≤ run.length && "\\right".toList.isPrefixOf (run.drop (run.length - 6)) &&
        ((r.drop run.length).head? == some '|') then
      some ("abs(".toList ++ run.take (run.length - 6) ++ [')'],
        r.drop (run.length + 1))
    else none
  else none

def floorMatch (l : Str) : Option (Str × Str) :=
  if "\\left\\lfloor".toList.isPrefixOf l then
    let r := l.drop 12
    let run := r.takeWhile fun c => !(c = lbrace || c = rbrace)
    match lastOcc "\\right\\rfloor".toList run with
    | some k =>
      if 1 ≤ k then some ("floor(".toList ++ run.take k ++ [')'], r.drop (k + 13))
      else none
    | none => none
  else none

def ceilMatch (l : Str) : Option (Str × Str) :=
  if "\\left\\lceil".toList.isPrefixOf l then
    let r := l.drop 11
    let run := r.takeWhile fun c => !(c = lbrace || c = rbrace)
    match lastOcc "\\right\\rceil".toList run with
    | some k =>
      if 1 ≤ k then some ("ceil(".toList ++ run.take k ++ [')'], r.drop (k + 12))
      else none
    | none => none
  else none

def opnameMatch (l : Str) : Option (Str × Str) :=
  if "\\operatorname\x7b".toList.isPrefixOf l then
    let r := l.drop 14
    match r.head? with
    | some c0 =>
      if c0.isAlpha then
        let name := c0 :: (r.drop 1).takeWhile (fun c => c.isAlpha || c.isDigit)
        if (r.drop name.length).head? == some rbrace then
          some (name, r.drop (name.length + 1))
        else none
      else none
    | none => none
  else none

def hexDigit (n : Nat) : Char :=
  if n < 10 then Char.ofNat (48 + n) else Char.ofNat (87 + n)

def jsonEscapeChar (c : Char) : Str :=
  if c = '"' then ['\\', '"']
  else if c = '\\' then ['\\', '\\']
  else if c = '\n' then ['\\', 'n']
  else if c = '\r' then ['\\', 'r']
  else if c = '\t' then ['\\', 't']
  else if c = '\x08' then ['\\', 'b']
  else if c = '\x0c' then ['\\', 'f']
  else if c.toNat < 32 then
    ['\\', 'u', '0', '0', hexDigit (c.toNat / 16), hexDigit (c.toNat % 16)]
  else [c]

def jsonStringify (key : Str) : Str :=
  '"' :: (key.map jsonEscapeChar).flatten ++ ['"']

def embedLit : Str := "\\embed\x7bconst\x7d[".toList

def embedMatch (l : Str) : Option (Str × Str) :=
  if embedLit.isPrefixOf l then
    let r := l.drop 14
    let key := r.takeWhile fun c => !(c = ']')
    if key.length != 0 && ((r.drop key.length).head? == some ']') then
      some ("__const(".toList ++ jsonStringify key ++ [')'],
        r.drop (key.length + 1))
    else none
  else none

/-- The markup token `\embed{const}[k]` for a key `k`. -/
def embedTok (k : Str) : Str := embedLit ++ (k ++ [']'])

def litPairs1 : List (Str × Str) :=
  [("\\left(".toList, "(".toList), ("\\right)".toList, ")".toList),
   ("\\left[".toList, "(".toList), ("\\right]".toList, ")".toList)]

def litPairs2 : List (Str × Str) :=
  [("\\times".toList, "*".toList), ("\\div".toList, "/".toList),
   ("\\cdot".toList, "*".toList), ("\\pi".toList, "pi".toList),
   ("\\tau".toList, "tau".toList), ("\\phi".toList, "phi".toList),
   ("\\theta".toList, "theta".toList), ("\\ln".toList, "ln".toList),
   ("\\log".toList, "log".toList), ("\\sin".toList, "sin".toList),
   ("\\cos".toList, "cos".toList), ("\\tan".toList, "tan".toList),
   ("\\sec".toList, "sec".toList), ("\\csc".toList, "csc".toList),
   ("\\cot".toList, "cot".toList), ("\\arcsin".toList, "asin".toList),
   ("\\arccos".toList, "acos".toList), ("\\arctan".toList, "atan".toList),
   ("\\sinh".toList, "sinh".toList), ("\\cosh".toList, "cosh".toList),
   ("\\tanh".toList, "tanh".toList), ("\\exp".toList, "exp".toList),
   ("\\sum".toList, "sum".toList), ("\\prod".toList, "prod".toList),
   ("\\int".toList, "int".toList)]

def stripBraces (s : Str) : Str :=
  s.filter fun c => !(c = lbrace || c = rbrace)

def stripWsGo : Bool → Bool → Str → Str
  | _, _, [] => []
  | true, true, c :: t => c :: stripWsGo true false t
  | true, false, c :: t =>
    c :: (if c = '\\' then stripWsGo true true t
      else if c = '"' then stripWsGo false false t
      else stripWsGo true false t)
  | false, _, c :: t =>
    if c = '"' then c :: stripWsGo true false t
    else if jsWhitespace c then stripWsGo false false t
    else c :: stripWsGo false false t

def stripWhitespaceOutsideStrings (s : Str) : Str := stripWsGo false false s

def isValidConstEmbedKey (key : Str) : Bool :=
  if key.all jsWhitespace then false
  else if key.contains ']' then false
  else if key.contains '\n' || key.contains '\r' then false
  else true

def latexToExpression (latex : Str) : Str :=
  let e1 := replaceLits litPairs1 latex
  let e2 := replaceAllSqrt (replaceAllFrac e1)
  let e3 := replaceLoop absMatch e2
  let e4 := replaceLoop floorMatch e3
  let e5 := replaceLoop ceilMatch e4
  let e6 := replaceLoop opnameMatch e5
  let e7 := replaceLoop embedMatch e6
  let e8 := replaceLits litPairs2 e7
  let e9 := replaceAllPowers e8
  stripWhitespaceOutsideStrings (stripBraces e9)

/-- A position holding a character other than the pattern's head carries no
occurrence (Boolean form). -/
theorem hasSub_cons_ne (p : Str) (c0 : Char) (hp : p.head? = some c0)
    (c : Char) (t : Str) (hc : c ≠ c0) : hasSub p (c :: t) = hasSub p t := by
  rw [hasSub_cons]
  have hpre : p.isPrefixOf (c :: t) = false := by
    cases p with
    | nil => simp at hp
    | cons p0 pt =>
      rw [List.head?_cons, Option.some.injEq] at hp
      subst hp
      rw [List.isPrefixOf]
      have hb : (p0 == c) = false := by
        rw [beq_eq_false_iff_ne]
        intro he
        exact hc he.symm
      rw [hb]
      rfl
  rw [hpre]
  simp

/-- A block without the pattern's head character contributes no occurrence
position. -/
theorem hasSub_append_of_head_notin (p : Str) (c0 : Char)
    (hp : p.head? = some c0) (x t : Str) (hx : c0 ∉ x) :
    hasSub p (x ++ t) = hasSub p t := by
  induction x with
  | nil => rfl
  | cons c x ih =>
    rw [List.cons_append,
      hasSub_cons_ne p c0 hp c _ (fun he => hx (he ▸ List.mem_cons_self c x)),
      ih (fun hm => hx (List.mem_cons_of_mem c hm))]

/-- The pattern's head does not occur in the string at all. -/
theorem hasSub_false_head (p : Str) (c0 : Char) (hp : p.head? = some c0)
    (s : Str) (h : c0 ∉ s) : hasSub p s = false := by
  have he : s ++ [] = s := List.append_nil s
  rw [← he, hasSub_append_of_head_notin p c0 hp s [] h]
  cases p with
  | nil => simp at hp
  | cons a b => rfl

/-- A substring occurrence is a prefix of some suffix. -/
theorem hasSub_isPrefix (p : Str) :
    ∀ s : Str, hasSub p s = true → ∃ i, p.isPrefixOf (s.drop i) := by
  intro s
  induction s with
  | nil =>
    intro h
    rw [hasSub_nil, decide_eq_true_eq] at h
    subst h
    exact ⟨0, rfl⟩
  | cons c t ih =>
    intro h
    rw [hasSub_cons, Bool.or_eq_true] at h
    rcases h with h | h
    · exact ⟨0, h⟩
    · obtain ⟨i, hi⟩ := ih h
      exact ⟨i + 1, hi⟩

/-- A pattern containing a character foreign to the string never occurs. -/
theorem hasSub_false_of_mem_not_mem (p s : Str) (c : Char)
    (hcp : c ∈ p) (hcs : c ∉ s) : hasSub p s = false := by
  by_contra hne
  rw [Bool.not_eq_false] at hne
  obtain ⟨i, hi⟩ := hasSub_isPrefix p s hne
  have hsub : c ∈ s.drop i :=
    (List.isPrefixOf_iff_prefix.mp hi).subset hcp
  exact hcs ((List.drop_subset i s) hsub)

/-- No occurrence anywhere means no occurrence at any suffix. -/
theorem hasSub_false_no_prefix_drop (p : Str) :
    ∀ (s : Str), hasSub p s = false → ∀ i, p.isPrefixOf (s.drop i) = false := by
  intro s
  induction s with
  | nil =>
    intro h i
    rw [hasSub_nil, decide_eq_false_iff_not] at h
    rw [List.drop_nil]
    cases p with
    | nil => exact absurd rfl h
    | cons a b => rfl
  | cons c t ih =>
    intro h i
    rw [hasSub_cons, Bool.or_eq_false_iff] at h
    cases i with
    | zero => exact h.1
    | succ j => exact ih h.2 j

/-- `hasSub` decides `indexOf`. -/
theorem indexOfAux_none_of_hasSub (p : Str) :
    ∀ (rest : Str) (pos : Nat), hasSub p rest = false →
      indexOfFrom.indexOfAux p rest pos = none := by
  intro rest
  induction rest with
  | nil =>
    intro pos h
    rw [hasSub_nil, decide_eq_false_iff_not] at h
    rw [indexOfFrom.indexOfAux, if_neg h]
  | cons c t ih =>
    intro pos h
    rw [hasSub_cons, Bool.or_eq_false_iff] at h
    rw [indexOfFrom.indexOfAux]
    rw [h.1]
    exact ih (pos + 1) h.2

theorem indexOfFrom_none_of_hasSub (p s : Str) (h : hasSub p s = false) :
    indexOfFrom p s 0 = none := by
  unfold indexOfFrom
  rw [List.drop_zero]
  exact indexOfAux_none_of_hasSub p s 0 h

/-- A literal global replace with no occurrence is the identity. -/
theorem replaceAllLitGo_id (pat rep : Str) :
    ∀ (fuel : Nat) (l : Str), hasSub pat l = false →
      replaceAllLitGo pat rep fuel l = l := by
  intro fuel
  induction fuel with
  | zero => intro l h; rfl
  | succ f ih =>
    intro l h
    cases l with
    | nil => rfl
    | cons c t =>
      rw [hasSub_cons, Bool.or_eq_false_iff] at h
      rw [replaceAllLitGo, if_neg (by rw [h.1]; exact fun hc => Bool.noConfusion hc)]
      rw [ih t h.2]

theorem replaceAllLit_id (pat rep s : Str) (h : hasSub pat s = false) :
    replaceAllLit pat rep s = s :=
  replaceAllLitGo_id pat rep s.length s h

/-- A literal-replace chain whose patterns never occur is the identity. -/
theorem replaceLits_id :
    ∀ (pairs : List (Str × Str)) (s : Str),
      (∀ pr ∈ pairs, hasSub pr.1 s = false) → replaceLits pairs s = s := by
  intro pairs
  induction pairs with
  | nil => intro s h; rfl
  | cons pr rest ih =>
    intro s h
    rw [replaceLits, replaceAllLit_id pr.1 pr.2 s (h pr (List.mem_cons_self pr rest))]
    exact ih s (fun q hq => h q (List.mem_cons_of_mem pr hq))

/-- A scan whose matcher fires at no suffix is the identity. -/
theorem scanReplGo_id (m : Str → Option (Str × Str)) :
    ∀ (fuel : Nat) (l : Str), (∀ i, m (l.drop i) = none) →
      scanReplGo m fuel l = l := by
  intro fuel
  induction fuel with
  | zero => intro l h; rfl
  | succ f ih =>
    intro l h
    cases l with
    | nil => rfl
    | cons c t =>
      rw [scanReplGo]
      have h0 := h 0
      rw [List.drop_zero] at h0
      rw [h0]
      rw [ih t (fun i => h (i + 1))]

theorem scanRepl_id (m : Str → Option (Str × Str)) (s : Str)
    (h : ∀ i, m (s.drop i) = none) : scanRepl m s = s :=
  scanReplGo_id m s.length s h

/-- A fixed point of the pass is returned unchanged by the loop. -/
theorem replaceLoopGo_fixed (m : Str → Option (Str × Str)) (s : Str)
    (h : scanRepl m s = s) : ∀ fuel, replaceLoopGo m fuel s = s := by
  intro fuel
  cases fuel with
  | zero => rfl
  | succ f =>
    rw [replaceLoopGo]
    rw [if_pos h]

theorem replaceLoop_id (m : Str → Option (Str × Str)) (s : Str)
    (h : scanRepl m s = s) : replaceLoop m s = s :=
  replaceLoopGo_fixed m s h _

/-- A loop whose first pass lands on a fixed point returns that pass's
result. -/
theorem replaceLoop_once (m : Str → Option (Str × Str)) (s r : Str)
    (h1 : scanRepl m s = r) (h2 : r ≠ s) (h3 : scanRepl m r = r) :
    replaceLoop m s = r := by
  unfold replaceLoop
  have hlen : s.length + 2 = (s.length + 1) + 1 := rfl
  rw [hlen, replaceLoopGo]
  rw [h1, if_neg h2]
  exact replaceLoopGo_fixed m r h3 _

/-- The four loop matchers fire only on their literal lead-ins. -/
theorem absMatch_none (l : Str) (h : "\\left|".toList.isPrefixOf l = false) :
    absMatch l = none := by
  unfold absMatch
  rw [h]
  rfl

theorem floorMatch_none (l : Str)
    (h : "\\left\\lfloor".toList.isPrefixOf l = false) :
    floorMatch l = none := by
  unfold floorMatch
  rw [h]
  rfl

theorem ceilMatch_none (l : Str)
    (h : "\\left\\lceil".toList.isPrefixOf l = false) :
    ceilMatch l = none := by
  unfold ceilMatch
  rw [h]
  rfl

theorem opnameMatch_none (l : Str)
    (h : "\\operatorname\x7b".toList.isPrefixOf l = false) :
    opnameMatch l = none := by
  unfold opnameMatch
  rw [h]
  rfl

theorem embedMatch_none (l : Str) (h : embedLit.isPrefixOf l = false) :
    embedMatch l = none := by
  unfold embedMatch
  rw [h]
  rfl

/-- A pattern starting with a backslash and then a character other than `e`
is never a prefix of the embed token's literal lead-in. -/
theorem prefix_embedLit_false (p : Str) (c1 : Char) (h1 : p.head? = some '\\')
    (h2 : p.tail.head? = some c1) (hc : c1 ≠ 'e') (X : Str) :
    p.isPrefixOf (embedLit ++ X) = false := by
  cases p with
  | nil => simp at h1
  | cons c0 p' =>
    rw [List.head?_cons, Option.some.injEq] at h1
    subst h1
    cases p' with
    | nil => simp at h2
    | cons c1' p'' =>
      rw [List.tail_cons, List.head?_cons, Option.some.injEq] at h2
      have hcc : c1' ≠ 'e' := by rw [h2]; exact hc
      rw [show embedLit ++ X =
        '\\' :: 'e' :: ("mbed\x7bconst\x7d[".toList ++ X) from rfl]
      rw [List.isPrefixOf, List.isPrefixOf]
      have hb : (c1' == 'e') = false := beq_eq_false_iff_ne.mpr hcc
      rw [hb]
      simp

/-- Such a pattern does not occur anywhere in an embed token with a
backslash-free key. -/
theorem hasSub_embedTok_false (p : Str) (c1 : Char) (h1 : p.head? = some '\\')
    (h2 : p.tail.head? = some c1) (hc : c1 ≠ 'e') (k : Str)
    (hk : '\\' ∉ k) : hasSub p (embedTok k) = false := by
  rw [show embedTok k =
    '\\' :: ("embed\x7bconst\x7d[".toList ++ (k ++ [']'])) from rfl]
  rw [hasSub_cons]
  rw [show ('\\' :: ("embed\x7bconst\x7d[".toList ++ (k ++ [']']))) =
    embedLit ++ (k ++ [']']) from rfl]
  rw [prefix_embedLit_false p c1 h1 h2 hc (k ++ [']'])]
  rw [hasSub_append_of_head_notin p '\\' h1 _ _ (by decide)]
  rw [hasSub_append_of_head_notin p '\\' h1 k [']'] hk]
  rw [hasSub_cons_ne p '\\' h1 ']' [] (by decide)]
  cases p with
  | nil => simp at h1
  | cons a b => rfl

/-- Keys for which every pipeline pass other than the embed pass is inert:
nonempty, no `]`, no backslash, no double quote, no braces, no control
characters. -/
def cleanKey (k : Str) : Prop :=
  k ≠ [] ∧ ∀ c ∈ k,
    c ≠ ']' ∧ c ≠ '\\' ∧ c ≠ '"' ∧ c ≠ lbrace ∧ c ≠ rbrace ∧ 32 ≤ c.toNat

instance : DecidablePred cleanKey := by
  intro k
  unfold cleanKey
  infer_instance

/-- JSON escaping is the identity on ordinary characters. -/
theorem jsonEscapeChar_id (c : Char) (h1 : c ≠ '"') (h2 : c ≠ '\\')
    (h3 : 32 ≤ c.toNat) : jsonEscapeChar c = [c] := by
  unfold jsonEscapeChar
  rw [if_neg h1, if_neg h2,
    if_neg (show ¬c = '\n' by
      intro he; rw [he] at h3; exact absurd h3 (by decide)),
    if_neg (show ¬c = '\r' by
      intro he; rw [he] at h3; exact absurd h3 (by decide)),
    if_neg (show ¬c = '\t' by
      intro he; rw [he] at h3; exact absurd h3 (by decide)),
    if_neg (show ¬c = '\x08' by
      intro he; rw [he] at h3; exact absurd h3 (by decide)),
    if_neg (show ¬c = '\x0c' by
      intro he; rw [he] at h3; exact absurd h3 (by decide)),
    if_neg (show ¬c.toNat < 32 by omega)]

/-- `JSON.stringify` just wraps a clean key in quotes. -/
theorem jsonStringify_clean :
    ∀ k : Str, (∀ c ∈ k, c ≠ '"' ∧ c ≠ '\\' ∧ 32 ≤ c.toNat) →
      jsonStringify k = '"' :: (k ++ ['"']) := by
  have hmap : ∀ k : Str, (∀ c ∈ k, c ≠ '"' ∧ c ≠ '\\' ∧ 32 ≤ c.toNat) →
      (k.map jsonEscapeChar).flatten = k := by
    intro k
    induction k with
    | nil => intro h; rfl
    | cons c t ih =>
      intro h
      obtain ⟨h1, h2, h3⟩ := h c (List.mem_cons_self c t)
      rw [List.map_cons, List.flatten_cons, jsonEscapeChar_id c h1 h2 h3,
        ih (fun x hx => h x (List.mem_cons_of_mem c hx))]
      rfl
  intro k h
  unfold jsonStringify
  rw [hmap k h]
  rfl

/-- `takeWhile` runs through a satisfying block and stops at the first
failing character. -/
theorem takeWhile_append_cons (p : Char → Bool) :
    ∀ (k : Str) (c : Char) (t : Str), (∀ x ∈ k, p x = true) → p c = false →
      (k ++ c :: t).takeWhile p = k := by
  intro k
  induction k with
  | nil =>
    intro c t h hc
    rw [List.nil_append, List.takeWhile_cons, hc]
    rfl
  | cons a k ih =>
    intro c t h hc
    rw [List.cons_append, List.takeWhile_cons, h a (List.mem_cons_self a k),
      if_pos rfl]
    rw [ih c t (fun x hx => h x (List.mem_cons_of_mem a hx)) hc]

theorem scanReplGo_nil (m : Str → Option (Str × Str)) :
    ∀ f, scanReplGo m f [] = [] := by
  intro f
  cases f with
  | zero => rfl
  | succ g => rfl

/-- A matcher consuming the whole string makes the scan emit exactly its
replacement. -/
theorem scanRepl_total_match (m : Str → Option (Str × Str)) (s repl : Str)
    (hm : m s = some (repl, [])) (hs : s ≠ []) : scanRepl m s = repl := by
  unfold scanRepl
  cases s with
  | nil => exact absurd rfl hs
  | cons c t =>
    rw [List.length_cons, scanReplGo, hm]
    dsimp only
    rw [scanReplGo_nil, List.append_nil]

/-- The embed matcher consumes a whole embed token with a `]`-free nonempty
key and produces the `__const` call. -/
theorem embedMatch_embedTok (k : Str) (hk1 : k ≠ [])
    (hk2 : ∀ c ∈ k, c ≠ ']') :
    embedMatch (embedTok k) =
      some ("__const(".toList ++ jsonStringify k ++ [')'], []) := by
  unfold embedMatch embedTok
  have hpre : embedLit.isPrefixOf (embedLit ++ (k ++ [']'])) = true :=
    List.isPrefixOf_iff_prefix.mpr (List.prefix_append _ _)
  rw [if_pos hpre]
  have hr : (embedLit ++ (k ++ [']'])).drop 14 = k ++ [']'] := by
    rw [show (14 : Nat) = embedLit.length from rfl, List.drop_left]
  rw [hr]
  dsimp only
  have hkey : (k ++ ']' :: []).takeWhile (fun c => !(c = ']')) = k :=
    takeWhile_append_cons _ k ']' []
      (fun x hx => by simp [hk2 x hx])
      (by decide)
  rw [hkey]
  have hd : (k ++ [']']).drop k.length = [']'] := List.drop_left k [']']
  rw [hd]
  have hcond : (k.length != 0 && (([']'] : Str).head? == some ']')) = true := by
    rw [Bool.and_eq_true]
    refine ⟨?_, rfl⟩
    rw [bne_iff_ne]
    intro h0
    exact hk1 (List.length_eq_zero.mp h0)
  rw [if_pos hcond]
  have hrest : (k ++ [']']).drop (k.length + 1) = [] := by
    have h1 := congrArg (List.drop 1) hd
    rw [List.drop_drop] at h1
    exact h1
  rw [hrest]

/-- The embed pass on a whole embed token. -/
theorem scanRepl_embedTok (k : Str) (hk1 : k ≠ [])
    (hk2 : ∀ c ∈ k, c ≠ ']') :
    scanRepl embedMatch (embedTok k) =
      "__const(".toList ++ jsonStringify k ++ [')'] :=
  scanRepl_total_match embedMatch (embedTok k) _
    (embedMatch_embedTok k hk1 hk2)
    (by rw [show embedTok k =
      '\\' :: ("embed\x7bconst\x7d[".toList ++ (k ++ [']'])) from rfl]; simp)

/-- A loop whose trigger pattern never occurs is the identity. -/
theorem replaceLoop_id_of_pat (m : Str → Option (Str × Str)) (pat : Str)
    (hmn : ∀ l, pat.isPrefixOf l = false → m l = none) (s : Str)
    (h : hasSub pat s = false) : replaceLoop m s = s :=
  replaceLoop_id m s (scanRepl_id m s
    (fun i => hmn _ (hasSub_false_no_prefix_drop pat s h i)))

theorem replaceAllFracGo_none : ∀ (f : Nat) (s : Str),
    replaceAllFracGo f s none = s := by
  intro f s
  cases f with
  | zero => rfl
  | succ g => rfl

theorem replaceAllSqrtGo_none : ∀ (f : Nat) (s : Str),
    replaceAllSqrtGo f s none = s := by
  intro f s
  cases f with
  | zero => rfl
  | succ g => rfl

theorem replaceAllFrac_id (s : Str) (h : hasSub fracPat s = false) :
    replaceAllFrac s = s := by
  unfold replaceAllFrac
  rw [indexOfFrom_none_of_hasSub _ _ h]
  exact replaceAllFracGo_none _ _

theorem replaceAllSqrt_id (s : Str) (h : hasSub sqrtPat s = false) :
    replaceAllSqrt s = s := by
  unfold replaceAllSqrt
  rw [indexOfFrom_none_of_hasSub _ _ h]
  exact replaceAllSqrtGo_none _ _

theorem replaceAllPowersGo_exit (out : Str) (i : Nat)
    (h : powStep out i = none) : ∀ f, replaceAllPowersGo f out i = out := by
  intro f
  cases f with
  | zero => rfl
  | succ g =>
    rw [replaceAllPowersGo, h]

theorem replaceAllPowers_id (s : Str) (h : hasSub powPat s = false) :
    replaceAllPowers s = s := by
  unfold replaceAllPowers
  apply replaceAllPowersGo_exit
  unfold powStep
  by_cases hl : 0 < s.length
  · rw [if_pos hl, indexOfFrom_none_of_hasSub _ _ h]
  · rw [if_neg hl]

/-- Inside a string literal the whitespace stripper copies a clean block
verbatim and keeps its state. -/
theorem stripWsGo_inString :
    ∀ (k t : Str), (∀ c ∈ k, c ≠ '\\' ∧ c ≠ '"') →
      stripWsGo true false (k ++ t) = k ++ stripWsGo true false t := by
  intro k
  induction k with
  | nil => intro t h; rfl
  | cons c r ih =>
    intro t h
    obtain ⟨h1, h2⟩ := h c (List.mem_cons_self c r)
    rw [List.cons_append, stripWsGo, if_neg h1, if_neg h2,
      ih t (fun x hx => h x (List.mem_cons_of_mem c hx)), List.cons_append]

/-- The canonical `__const` call produced for key `k`. -/
def constCall (k : Str) : Str := "__const(\"".toList ++ (k ++ "\")".toList)

/-- C8, clean-key pipeline lemma: on the embed token of a clean key the
whole `latexToExpression` pipeline reduces to the single embed
substitution. -/
theorem latexToExpression_embedTok (k : Str) (hk : cleanKey k) :
    latexToExpression (embedTok k) = constCall k := by
  obtain ⟨hk1, hk2⟩ := hk
  have hbsk : '\\' ∉ k := fun hm => (hk2 _ hm).2.1 rfl
  have hkne : ∀ c ∈ k, c ≠ ']' := fun c hc => (hk2 c hc).1
  have hclean' : ∀ c ∈ k, c ≠ '"' ∧ c ≠ '\\' ∧ 32 ≤ c.toNat :=
    fun c hc => ⟨(hk2 c hc).2.2.1, (hk2 c hc).2.1, (hk2 c hc).2.2.2.2.2⟩
  have hjson := jsonStringify_clean k hclean'
  have hbsR : '\\' ∉ constCall k := by
    intro hm
    rcases List.mem_append.mp hm with h | h
    · exact absurd h (by decide)
    · rcases List.mem_append.mp h with h' | h'
      · exact hbsk h'
      · exact absurd h' (by decide)
  have hbrR : lbrace ∉ constCall k := by
    intro hm
    rcases List.mem_append.mp hm with h | h
    · exact absurd h (by decide)
    · rcases List.mem_append.mp h with h' | h'
      · exact (hk2 _ h').2.2.2.1 rfl
      · exact absurd h' (by decide)
  have he1 : replaceLits litPairs1 (embedTok k) = embedTok k := by
    apply replaceLits_id
    intro pr hpr
    have hm : pr = ("\\left(".toList, "(".toList) ∨
        pr = ("\\right)".toList, ")".toList) ∨
        pr = ("\\left[".toList, "(".toList) ∨
        pr = ("\\right]".toList, ")".toList) := by
      simpa [litPairs1] using hpr
    rcases hm with rfl | rfl | rfl | rfl
    · exact hasSub_embedTok_false "\\left(".toList 'l' rfl rfl (by decide) k hbsk
    · exact hasSub_embedTok_false "\\right)".toList 'r' rfl rfl (by decide) k hbsk
    · exact hasSub_embedTok_false "\\left[".toList 'l' rfl rfl (by decide) k hbsk
    · exact hasSub_embedTok_false "\\right]".toList 'r' rfl rfl (by decide) k hbsk
  have hfrac : replaceAllFrac (embedTok k) = embedTok k :=
    replaceAllFrac_id _ (hasSub_embedTok_false fracPat 'f' rfl rfl (by decide) k hbsk)
  have hsqrt : replaceAllSqrt (embedTok k) = embedTok k :=
    replaceAllSqrt_id _ (hasSub_embedTok_false sqrtPat 's' rfl rfl (by decide) k hbsk)
  have habs : replaceLoop absMatch (embedTok k) = embedTok k :=
    replaceLoop_id_of_pat absMatch "\\left|".toList
      (fun l hl => absMatch_none l hl) _
      (hasSub_embedTok_false "\\left|".toList 'l' rfl rfl (by decide) k hbsk)
  have hfloor : replaceLoop floorMatch (embedTok k) = embedTok k :=
    replaceLoop_id_of_pat floorMatch "\\left\\lfloor".toList
      (fun l hl => floorMatch_none l hl) _
      (hasSub_embedTok_false "\\left\\lfloor".toList 'l' rfl rfl (by decide) k hbsk)
  have hceil : replaceLoop ceilMatch (embedTok k) = embedTok k :=
    replaceLoop_id_of_pat ceilMatch "\\left\\lceil".toList
      (fun l hl => ceilMatch_none l hl) _
      (hasSub_embedTok_false "\\left\\lceil".toList 'l' rfl rfl (by decide) k hbsk)
  have hop : replaceLoop opnameMatch (embedTok k) = embedTok k :=
    replaceLoop_id_of_pat opnameMatch "\\operatorname\x7b".toList
      (fun l hl => opnameMatch_none l hl) _
      (hasSub_embedTok_false "\\operatorname\x7b".toList 'o' rfl rfl (by decide) k hbsk)
  have hRk_eq : "__const(".toList ++ jsonStringify k ++ [')'] = constCall k := by
    rw [hjson]
    unfold constCall
    simp [List.append_assoc]
  have hembed : replaceLoop embedMatch (embedTok k) = constCall k := by
    apply replaceLoop_once
    · rw [scanRepl_embedTok k hk1 hkne]
      exact hRk_eq
    · intro he
      have h := congrArg List.head? he
      rw [show (constCall k).head? = some '_' from rfl,
        show (embedTok k).head? = some '\\' from rfl] at h
      simp at h
    · exact scanRepl_id embedMatch _ (fun i => embedMatch_none _
        (hasSub_false_no_prefix_drop embedLit _
          (hasSub_false_head embedLit '\\' rfl _ hbsR) i))
  have hlits2 : replaceLits litPairs2 (constCall k) = constCall k := by
    apply replaceLits_id
    intro pr hpr
    have hhead : pr.1.head? = some '\\' := by
      have hall : ∀ q ∈ litPairs2, q.1.head? = some '\\' := by decide
      exact hall pr hpr
    exact hasSub_false_head pr.1 '\\' hhead _ hbsR
  have hpow : replaceAllPowers (constCall k) = constCall k :=
    replaceAllPowers_id _
      (hasSub_false_of_mem_not_mem powPat _ lbrace (by decide) hbrR)
  have hstrip : stripBraces (constCall k) = constCall k := by
    apply List.filter_eq_self.mpr
    intro c hc
    rcases List.mem_append.mp hc with h | h
    · have hall : ∀ x ∈ "__const(\"".toList,
          (!(x = lbrace || x = rbrace)) = true := by decide
      exact hall c h
    · rcases List.mem_append.mp h with h' | h'
      · have := hk2 c h'
        simp [this.2.2.2.1, this.2.2.2.2.1]
      · have hall : ∀ x ∈ "\")".toList,
          (!(x = lbrace || x = rbrace)) = true := by decide
        exact hall c h'
  have hws : stripWhitespaceOutsideStrings (constCall k) = constCall k := by
    unfold stripWhitespaceOutsideStrings
    have hstep : stripWsGo false false (constCall k) =
        "__const(\"".toList ++ stripWsGo true false (k ++ "\")".toList) := rfl
    rw [hstep, stripWsGo_inString k _ (fun c hc =>
      ⟨(hk2 c hc).2.1, (hk2 c hc).2.2.1⟩)]
    rfl
  unfold latexToExpression
  dsimp only
  rw [he1, hfrac, hsqrt, habs, hfloor, hceil, hop, hembed, hlits2, hpow,
    hstrip, hws]

/-- Counterexample to C8 as stated: the key `\x7b` is valid in the claim's
sense (non-blank, no `]`, no newline), yet the pipeline's final
brace-stripping pass deletes it from inside the produced string literal, so
the embed does not round-trip: the emitted call is `__const("")`, not
`__const("\x7b")`. -/
theorem c8_embed_key_counterexample :
    isValidConstEmbedKey [lbrace] = true ∧
    latexToExpression (embedTok [lbrace]) = "__const(\"\")".toList ∧
    latexToExpression (embedTok [lbrace]) ≠ constCall [lbrace] := by
  exact ⟨by decide, by decide, by decide⟩

/-- C8 (amended): for a clean key — nonempty and free of `]`, backslash,
double quote, braces and control characters — `latexToExpression` turns the
embed token into `__const("k")` with the key passed as a quoted string
literal (`JSON.stringify` adds only the quotes), such a key is valid, and
the marker function resolves it through the constants mapping to exactly
the mapped value. -/
theorem c8_const_embed_roundtrip (k : Str) (hk : cleanKey k) :
    latexToExpression (embedTok k) = constCall k ∧
    jsonStringify k = '"' :: (k ++ ['"']) ∧
    (k.all jsWhitespace = false → isValidConstEmbedKey k = true) ∧
    (∀ (M : List (Str × Rat)) (v : Rat), M.lookup k = some v →
      scopeConst M k = Except.ok v) := by
  have hk2 := hk.2
  refine ⟨latexToExpression_embedTok k hk, jsonStringify_clean k
    (fun c hc => ⟨(hk2 c hc).2.2.1, (hk2 c hc).2.1, (hk2 c hc).2.2.2.2.2⟩),
    ?_, ?_⟩
  · intro hall
    unfold isValidConstEmbedKey
    rw [if_neg (by rw [hall]; simp)]
    rw [if_neg (show ¬k.contains ']' = true by
      intro h
      exact (hk2 ']' (List.mem_of_elem_eq_true h)).1 rfl)]
    rw [if_neg (show ¬(k.contains '\n' || k.contains '\r') = true by
      intro h
      rcases Bool.or_eq_true _ _ |>.mp h with h' | h'
      · have := (hk2 '\n' (List.mem_of_elem_eq_true h')).2.2.2.2.2
        exact absurd this (by decide)
      · have := (hk2 '\r' (List.mem_of_elem_eq_true h')).2.2.2.2.2
        exact absurd this (by decide))]
  · intro M v h
    unfold scopeConst
    rw [h]

/-- Witness for C8 (amended): the round trip on the key
`speed of light`. -/
theorem c8_const_embed_roundtrip_witness :
    latexToExpression (embedTok "speed of light".toList) =
      constCall "speed of light".toList ∧
    scopeConst [("speed of light".toList, (299792458 : Rat))]
      "speed of light".toList = Except.ok 299792458 :=
  ⟨(c8_const_embed_roundtrip "speed of light".toList (by decide)).1,
   (c8_const_embed_roundtrip "speed of light".toList (by decide)).2.2.2
     [("speed of light".toList, (299792458 : Rat))] 299792458 (by decide)⟩

end Astro
